import Mathlib

/-!
# ConfigsGenerator: tree algebra, path flattening and key/value projection

A shallow embedding of `src/ConfigsGenerator.js` (`_union`, `_different`,
`_intersect`, `_getCommonJson`, `_changeValuesToTreeConvention`,
`_createKeyValueObject`) together with the theorems that settle the
properties stated for them.

## Modelling conventions

* A JavaScript value is a `Json`: `undefined`, `null`, a boolean, a number, a
  string, a plain object or an array.  A plain object is its list of own
  enumerable properties in enumeration order.  An array is its `length`
  together with its own properties: an index below `length` that has no
  property is a hole (what `delete arr[i]` leaves behind).
* Numbers are integers (`Int`); `===` on numbers is equality and
  `JSON.stringify` prints them in decimal, as JavaScript does for integers of
  magnitude below `10^21`.  Fractions, `NaN` and infinities are outside the
  model.  Strings are sequences of Unicode scalar values.
* Property reads `o[k]` and writes `o[k] = v` are `get` and `set`, which see
  own properties only.  They are the JavaScript read and write wherever `o`
  owns `k` or `k` names no member that an object or array carries without
  owning it as a parsed property (`constructor`, `toString`, `__proto__`,
  `length`, ...: `inheritedNames`).  `_union`, `_different` and
  `_createKeyValueObject` are modelled on that domain only: a theorem about all
  documents they may read or write beyond the own properties assumes
  `protoFree` of those documents.
* In `_intersect` the read `source[prop]` follows the prototype chain of a
  plain object `source`: `inherited` gives the members of `Object.prototype`,
  and `intersectInherited` the recursive call on such a member, as far as the
  `name` and the `length` of an inherited function.  The further members of a
  function and what an array carries beyond its elements are outside the
  model.
* `x instanceof Object` holds for plain objects and for arrays, and for
  nothing else in the model.
* `JSON.parse(JSON.stringify(x))` is `clone`: inside an object it drops the
  properties whose value is `undefined`; an array becomes the dense array of
  its `length` in which holes and `undefined` are `null` and from which
  properties that are not indices are gone.
* A parsed JSON document is a `Json` satisfying `IsJson`.
* In `_union`, the test of the loop body (line 280) is cut in the source; it is
  `keyPresent`, modelled from the specification.
* Recursive calls on `source[prop]` and `objectWithValues[prop]` are looked up
  in a table built from the properties of that argument, so that every method
  is defined by structural recursion and evaluates inside the logic.
* A string enumerates its positions by character, as JavaScript does for
  strings without characters outside the basic plane.
* Reading and writing files is outside the model: a method that reads files
  takes the parsed files as an argument, and what it writes is its result.
-/

/-- JavaScript values reachable from parsed JSON through the generator. -/
inductive Json where
  | undefined
  | null
  | bool (b : Bool)
  | num (n : Int)
  | str (s : String)
  | obj (props : List (String × Json))
  | arr (len : Nat) (props : List (String × Json))
  deriving Repr, Inhabited

/-- Errors raised by the JavaScript runtime. -/
inductive JsError where
  | typeError
  deriving DecidableEq, Repr

namespace Json

mutual
/-- Structural equality test on values. -/
def beq : Json → Json → Bool
  | undefined, undefined => true
  | null, null => true
  | bool a, bool b => a == b
  | num a, num b => a == b
  | str a, str b => a == b
  | obj p, obj q => beqProps p q
  | arr n p, arr m q => n == m && beqProps p q
  | _, _ => false
/-- Structural equality test on property lists. -/
def beqProps : List (String × Json) → List (String × Json) → Bool
  | [], [] => true
  | (k, v) :: r, (k', v') :: r' => k == k' && beq v v' && beqProps r r'
  | _, _ => false
end

mutual
theorem beq_iff : ∀ (a b : Json), beq a b = true ↔ a = b
  | undefined, b => by cases b <;> simp [beq]
  | null, b => by cases b <;> simp [beq]
  | bool a, b => by cases b <;> simp [beq]
  | num a, b => by cases b <;> simp [beq]
  | str a, b => by cases b <;> simp [beq]
  | obj p, b => by cases b <;> simp [beq, beqProps_iff p]
  | arr n p, b => by cases b <;> simp [beq, beqProps_iff p]
theorem beqProps_iff : ∀ (p q : List (String × Json)), beqProps p q = true ↔ p = q
  | [], q => by cases q <;> simp [beqProps]
  | (k, v) :: r, q => by
    cases q with
    | nil => simp [beqProps]
    | cons h t =>
      obtain ⟨k', v'⟩ := h
      simp [beqProps, beq_iff v, beqProps_iff r, and_assoc]
end

instance : DecidableEq Json := fun a b => decidable_of_iff _ (beq_iff a b)

instance : DecidableEq (Except JsError Json) := fun a b =>
  match a, b with
  | .ok x, .ok y => decidable_of_iff (x = y) (by simp)
  | .error x, .error y => decidable_of_iff (x = y) (by simp)
  | .ok _, .error _ => isFalse (by simp)
  | .error _, .ok _ => isFalse (by simp)

/-! ## Property access -/

/-- The test `x instanceof Object`: true of plain objects and of arrays. -/
def isObject : Json → Bool
  | obj _ => true
  | arr _ _ => true
  | _ => false

/-- The test `Array.isArray(x)`. -/
def isArray : Json → Bool
  | arr _ _ => true
  | _ => false

/-- The test `x === undefined`. -/
def isUndefined : Json → Bool
  | undefined => true
  | _ => false

/-- The test `x === null`. -/
def isNull : Json → Bool
  | null => true
  | _ => false

/-- The own enumerable properties of a value, in enumeration order. -/
def props : Json → List (String × Json)
  | obj ps => ps
  | arr _ ps => ps
  | _ => []

/-- First value bound to `k` in a property list, `undefined` when there is none. -/
def lookup : List (String × Json) → String → Json
  | [], _ => undefined
  | (k', v) :: r, k => if k' = k then v else lookup r k

/-- The own property `k` of an object or array, `undefined` when there is none:
the read `o[k]` wherever `o` owns `k` or `k` is none of the `inheritedNames`. -/
def get (o : Json) (k : String) : Json := lookup o.props k

/-- The keys visited by `for (const prop in o)`, also `Object.keys(o)`. -/
def keys (o : Json) : List String := o.props.map Prod.fst

/-- Whether a property list binds `k`. -/
def hasKey (ps : List (String × Json)) (k : String) : Bool :=
  ps.any fun p => p.1 == k

/-- The number denoted by a string of decimal digits. -/
def digitsValue (cs : List Char) : Nat :=
  cs.foldl (fun n c => 10 * n + (c.toNat - 48)) 0

/-- An array index: the canonical decimal form of a number below `2^32 - 1`. -/
def arrayIndex (k : String) : Option Nat :=
  let n := digitsValue k.data
  if k.data.all Char.isDigit && (Nat.repr n == k) && decide (n < 4294967295) then some n else none

/-- Replace the value of the first property named `k`. -/
def replaceProp (k : String) (v : Json) : List (String × Json) → List (String × Json)
  | [] => []
  | (k', v') :: r => if k' = k then (k', v) :: r else (k', v') :: replaceProp k v r

/-- Add a property under a key that is not bound yet: array indices are kept
in ascending order ahead of all other keys, other keys go last. -/
def insertProp (k : String) (v : Json) : List (String × Json) → List (String × Json)
  | [] => [(k, v)]
  | (k', v') :: r =>
    match arrayIndex k, arrayIndex k' with
    | some n, some m => if n < m then (k, v) :: (k', v') :: r else (k', v') :: insertProp k v r
    | some _, none => (k, v) :: (k', v') :: r
    | none, _ => (k', v') :: insertProp k v r

/-- Property list after the assignment `o[k] = v`. -/
def setProps (ps : List (String × Json)) (k : String) (v : Json) : List (String × Json) :=
  if hasKey ps k then replaceProp k v ps else insertProp k v ps

/-- The assignment `o[k] = v` on an object or array that owns `k`, or for a `k`
that is none of the `inheritedNames` (`__proto__` on an object that does not
own it sets the prototype and adds no property); assigning at or past the
end of an array grows its length. -/
def set (o : Json) (k : String) (v : Json) : Json :=
  match o with
  | obj ps => obj (setProps ps k v)
  | arr n ps =>
    match arrayIndex k with
    | some i => arr (max n (i + 1)) (setProps ps k v)
    | none => arr n (setProps ps k v)
  | x => x

/-- Property list after `delete o[k]`. -/
def eraseProps (ps : List (String × Json)) (k : String) : List (String × Json) :=
  ps.filter fun p => !(p.1 == k)

/-- The statement `delete o[k]`: the length of an array is unchanged. -/
def delete (o : Json) (k : String) : Json :=
  match o with
  | obj ps => obj (eraseProps ps k)
  | arr n ps => arr n (eraseProps ps k)
  | x => x

/-- Strict equality `a === b` where at least one side is not an object: the
only place the generator uses it. -/
def strictEq : Json → Json → Bool
  | undefined, undefined => true
  | null, null => true
  | bool a, bool b => a == b
  | num a, num b => a == b
  | str a, str b => a == b
  | _, _ => false

/-- An array element as JSON text sees it: a hole or `undefined` reads `null`. -/
def orNull : Json → Json
  | undefined => null
  | v => v

/-- The elements `0 .. n-1` of an array as a dense property list. -/
def denseProps (n : Nat) (ps : List (String × Json)) : List (String × Json) :=
  (List.range n).map fun i => (Nat.repr i, orNull (lookup ps (Nat.repr i)))

mutual
/-- The deep copy `JSON.parse(JSON.stringify(x))`. -/
def clone : Json → Json
  | obj ps => obj (cloneProps ps)
  | arr n ps => arr n (denseProps n (cloneProps ps))
  | v => v
/-- Deep copy of the properties that survive serialisation. -/
def cloneProps : List (String × Json) → List (String × Json)
  | [] => []
  | (_, undefined) :: r => cloneProps r
  | (k, v) :: r => (k, clone v) :: cloneProps r
end

/-! ## Parsed JSON documents -/

mutual
/-- Whether a value is a parsed JSON document: no `undefined`, objects without
repeated keys, arrays dense with exactly the properties `0 .. length-1`. -/
def isJson : Json → Bool
  | undefined => false
  | obj ps => decide ((ps.map Prod.fst).Nodup) && isJsonProps ps
  | arr n ps => decide (ps.map Prod.fst = (List.range n).map Nat.repr) && isJsonProps ps
  | _ => true
/-- Whether every property value is a parsed JSON document. -/
def isJsonProps : List (String × Json) → Bool
  | [] => true
  | (_, v) :: r => isJson v && isJsonProps r
end

/-- A parsed JSON document (`JSON.parse` of some text). -/
def IsJson (a : Json) : Prop := isJson a = true

instance (a : Json) : Decidable (IsJson a) := by unfold IsJson; infer_instance

/-- Whether a value is a plain object: an object that is not an array. -/
def isPlainObject : Json → Bool
  | obj _ => true
  | _ => false

/-- A parsed JSON document whose root is a plain object. -/
def IsObjectTree (a : Json) : Prop :=
  IsJson a ∧ isPlainObject a = true

instance (a : Json) : Decidable (IsObjectTree a) := by unfold IsObjectTree; infer_instance

/-- The value reached from `a` along a key path: `a[k1][k2]...[kn]`. -/
def getPath (a : Json) (path : List String) : Json :=
  path.foldl get a

/-- A non-null scalar: a boolean, a number or a string. -/
def isScalar : Json → Bool
  | bool _ => true
  | num _ => true
  | str _ => true
  | _ => false

/-- Deep equality of values, the order of keys ignored: same kind, for arrays
the same length, the same keys, and deeply equal values under every key.  A
hole of an array is not equal to `null`. -/
inductive DeepEq : Json → Json → Prop
  | undefined : DeepEq undefined undefined
  | null : DeepEq null null
  | bool (b : Bool) : DeepEq (bool b) (bool b)
  | num (n : Int) : DeepEq (num n) (num n)
  | str (s : String) : DeepEq (str s) (str s)
  | obj (p q : List (String × Json)) :
      (∀ k, hasKey p k = hasKey q k) → (∀ k, DeepEq (lookup p k) (lookup q k)) →
      DeepEq (obj p) (obj q)
  | arr (n : Nat) (p q : List (String × Json)) :
      (∀ k, hasKey p k = hasKey q k) → (∀ k, DeepEq (lookup p k) (lookup q k)) →
      DeepEq (arr n p) (arr n q)

/-- Whether two property lists bind the same set of keys. -/
def sameKeys (p q : List (String × Json)) : Bool :=
  (p.map Prod.fst).all (fun k => hasKey q k) && (q.map Prod.fst).all (fun k => hasKey p k)

mutual
/-- Identical key sets at every nesting level, an array counted as a leaf (the
data model of the specification): two objects have the same keys and, under
each key, values with identical key sets; an object faces an object. -/
def sameKeySets : Json → Json → Bool
  | obj p, obj q => sameKeys p q && sameKeySetsProps p (obj q)
  | obj _, _ => false
  | _, obj _ => false
  | _, _ => true
/-- Each member has the key sets of the member of `b` under the same key. -/
def sameKeySetsProps : List (String × Json) → Json → Bool
  | [], _ => true
  | (k, v) :: r, b => sameKeySets v (get b k) && sameKeySetsProps r b
end

mutual
/-- Equal values on every overlapping key, an array counted as one value (the
data model of the specification): two objects hold such values under every key
that both have; any other two values are equal. -/
def sameOnOverlap : Json → Json → Bool
  | obj p, obj q => sameOnOverlapProps p (obj q)
  | a, b => decide (a = b)
/-- Each member whose key `b` also has agrees with the member of `b` under that key. -/
def sameOnOverlapProps : List (String × Json) → Json → Bool
  | [], _ => true
  | (k, v) :: r, b => (!hasKey b.props k || sameOnOverlap v (get b k)) && sameOnOverlapProps r b
end

/-- The names under which a read `o[k]` finds something that a parsed object
or array does not own as a parsed property: the members of `Object.prototype`,
the `length` of an array and the members of `Array.prototype` (ECMAScript
2023, with the legacy accessors of its Annex B). -/
def inheritedNames : List String :=
  ["constructor", "hasOwnProperty", "isPrototypeOf", "propertyIsEnumerable", "toLocaleString",
   "toString", "valueOf", "__proto__", "__defineGetter__", "__defineSetter__",
   "__lookupGetter__", "__lookupSetter__",
   "length", "at", "concat", "copyWithin", "entries", "every", "fill", "filter", "find",
   "findIndex", "findLast", "findLastIndex", "flat", "flatMap", "forEach", "includes", "indexOf",
   "join", "keys", "lastIndexOf", "map", "pop", "push", "reduce", "reduceRight", "reverse",
   "shift", "slice", "some", "sort", "splice", "toReversed", "toSorted", "toSpliced", "unshift",
   "values", "with"]

mutual
/-- No key of the value, at any depth, is one of the `inheritedNames`: every
read `o[k]` that the methods make with such a key finds an own property or
nothing. -/
def protoFree : Json → Bool
  | obj ps => protoFreeProps ps
  | arr _ ps => protoFreeProps ps
  | _ => true
/-- No key of the property list, nor any key below it, is an inherited name. -/
def protoFreeProps : List (String × Json) → Bool
  | [] => true
  | (k, v) :: r => !inheritedNames.contains k && protoFree v && protoFreeProps r
end

/-! ## The tree algebra -/

/-- The result line shared by `_different` and `_intersect`:
`Object.keys(cloneDest).length === 0 ? null : cloneDest`. -/
def collapse (c : Json) : Json :=
  if c.keys.length = 0 then null else c

/-- The default `handleConflict` of `_union`. -/
def handleConflict (destObj sourceObject : Json) : Json :=
  if destObj.isObject then destObj else sourceObject

/-- Modelled from the spec: the test of line 280 in the loop of `_union`, of
which the source keeps `if (dest[prop]` and the letters `ned) {` only.  By the
specification the loop unions recursively for each key of `b` that is `also
in a`, and else takes the value of `b`: the key is among the keys of `dest`,
bound there to a value.  Where `dest[prop]` is no object or array the two
branches store the same value, `source[prop]`. -/
def keyPresent (dest : Json) (prop : String) : Bool :=
  !(get dest prop).isUndefined

mutual
/-- The method `_union(dest, source)` with its default `handleConflict`, for a
`source` none of whose keys is an inherited name that `dest` does not own. -/
def _union (dest : Json) : Json → Json
  | obj sps =>
    if !dest.isObject then handleConflict dest (obj sps)
    else unionLoop dest (clone dest) sps
  | arr n sps =>
    if !dest.isObject then handleConflict dest (arr n sps)
    else unionLoop dest (clone dest) sps
  | source => handleConflict dest source
/-- The loop `for (const prop in source)` of `_union`, threading `cloneDest`. -/
def unionLoop (dest cloneDest : Json) : List (String × Json) → Json
  | [] => cloneDest
  | (prop, sv) :: rest =>
    if keyPresent dest prop then
      unionLoop dest (set cloneDest prop (_union (get cloneDest prop) sv)) rest
    else
      unionLoop dest (set cloneDest prop sv) rest
end

/-- The body `cloneDest[prop] = r; if (cloneDest[prop] === null) delete cloneDest[prop]`
shared by `_different` and `_intersect`. -/
def assignOrDelete (cloneDest : Json) (prop : String) (r : Json) : Json :=
  let c := set cloneDest prop r
  if (get c prop).isNull then delete c prop else c

mutual
/-- The method `_different(dest, source)`, for a `source` none of whose keys is
an inherited name that `dest` does not own: with such a key `dest[prop]` is
the inherited member, a function or a prototype object, which the method
copies with `JSON.stringify` or returns, and which is no value of the model. -/
def _different (dest : Json) : Json → Json
  | obj sps =>
    if !dest.isObject then (if strictEq dest (obj sps) then null else dest)
    else collapse (differentLoop dest (clone dest) sps)
  | arr n sps =>
    if !dest.isObject then (if strictEq dest (arr n sps) then null else dest)
    else collapse (differentLoop dest (clone dest) sps)
  | source => if strictEq dest source then null else dest
/-- The loop `for (const prop in source)` of `_different`, threading `cloneDest`. -/
def differentLoop (dest cloneDest : Json) : List (String × Json) → Json
  | [] => cloneDest
  | (prop, sv) :: rest =>
    if !(get dest prop).isUndefined then
      differentLoop dest (assignOrDelete cloneDest prop (_different (get cloneDest prop) sv)) rest
    else
      differentLoop dest cloneDest rest
end

/-- The recursive call on `source[prop]` looked up in a table of such calls. -/
def lookupCall (table : List (String × (Json → Json))) (prop : String) (d : Json) : Json :=
  match table with
  | [] => undefined
  | (k, f) :: r => if k = prop then f d else lookupCall r prop d

/-- The loop `for (const prop in dest)` of `_intersect`, threading `cloneDest`;
`has prop` stands for the test `source[prop] !== undefined` and `recur prop d`
for the call `this._intersect(d, source[prop])`. -/
def intersectLoop (has : String → Bool) (recur : String → Json → Json) (cloneDest : Json) :
    List String → Json
  | [] => cloneDest
  | prop :: rest =>
    if has prop then
      intersectLoop has recur
        (assignOrDelete cloneDest prop (recur prop (get cloneDest prop))) rest
    else
      intersectLoop has recur (delete cloneDest prop) rest

/-- What the read `source[prop]` of `_intersect` finds on a plain object that
does not own `prop`: nothing, a function with its `name` and `length`, or the
prototype object itself. -/
inductive Inherited where
  | absent
  | function (name : String) (length : Int)
  | prototype
  deriving DecidableEq

/-- The members of `Object.prototype`, which a plain object inherits: the
constructor `Object`, the methods, each a function named after its key, and
the accessor `__proto__`, which gives `Object.prototype` itself. -/
def objectPrototype : List (String × Inherited) :=
  [("constructor", .function "Object" 1), ("hasOwnProperty", .function "hasOwnProperty" 1),
   ("isPrototypeOf", .function "isPrototypeOf" 1),
   ("propertyIsEnumerable", .function "propertyIsEnumerable" 1),
   ("toLocaleString", .function "toLocaleString" 0), ("toString", .function "toString" 0),
   ("valueOf", .function "valueOf" 0), ("__defineGetter__", .function "__defineGetter__" 2),
   ("__defineSetter__", .function "__defineSetter__" 2),
   ("__lookupGetter__", .function "__lookupGetter__" 1),
   ("__lookupSetter__", .function "__lookupSetter__" 1), ("__proto__", .prototype)]

/-- The member that the read `o[k]` reaches beyond the own properties of `o`.
It is modelled for a plain object; what an array carries beyond its elements
(its `length`, the members of `Array.prototype`) is outside the model. -/
def inherited (o : Json) (k : String) : Inherited :=
  match o with
  | obj _ => ((objectPrototype.find? fun m => m.1 == k).map Prod.snd).getD .absent
  | _ => .absent

/-- The test `source[prop] !== undefined` of `_intersect`: an own property
that is not `undefined`, or an inherited member. -/
def sourceHas (source : Json) (prop : String) : Bool :=
  if hasKey source.props prop then !(get source prop).isUndefined
  else inherited source prop != Inherited.absent

/-- The call `this._intersect(d, f)` for an inherited member `f`.
`Object.prototype` is not `instanceof Object` and is no value of a document, so
`dest === source` fails.  A function is `instanceof Object`: a `d` that is not
an object or array is not identical to it, and one that is keeps the keys
`name` and `length` under which it holds the very string and number of the
function.  The further members of the function (static methods, `prototype`,
what it inherits) are outside the model, which drops a key of `d` naming one. -/
def intersectInherited (d : Json) : Inherited → Json
  | .absent => null
  | .prototype => null
  | .function name length =>
    if !d.isObject then null
    else collapse (intersectLoop (fun q => q == "length" || q == "name")
      (fun q x => if strictEq x (if q == "length" then num length else str name) then x else null)
      (clone d) d.keys)

/-- The call `this._intersect(d, source[prop])`: for an own property of
`source` it is looked up in the table of recursive calls. -/
def intersectCall (source : Json) (table : List (String × (Json → Json))) (prop : String)
    (d : Json) : Json :=
  if hasKey source.props prop then lookupCall table prop d
  else intersectInherited d (inherited source prop)

mutual
/-- The method `_intersect(dest, source)`.  The loop runs over the own keys of
`dest`, which the copy owns as well; `source[prop]` is an own property of
`source` or, for a plain object, an inherited member. -/
def _intersect (dest : Json) : Json → Json
  | obj sps =>
    if !dest.isObject then (if strictEq dest (obj sps) then dest else null)
    else collapse (intersectLoop (sourceHas (obj sps)) (intersectCall (obj sps) (intersectCalls sps))
      (clone dest) dest.keys)
  | arr n sps =>
    if !dest.isObject then (if strictEq dest (arr n sps) then dest else null)
    else collapse (intersectLoop (sourceHas (arr n sps))
      (intersectCall (arr n sps) (intersectCalls sps)) (clone dest) dest.keys)
  | source => if strictEq dest source then dest else null
/-- For each property of `source`, the call `d ↦ this._intersect(d, source[prop])`. -/
def intersectCalls : List (String × Json) → List (String × (Json → Json))
  | [] => []
  | (k, sv) :: r => (k, fun d => _intersect d sv) :: intersectCalls r
end

/-! ## JSON text -/

/-- Lower-case hexadecimal digit. -/
def hexDigit (n : Nat) : Char :=
  if n < 10 then Char.ofNat (48 + n) else Char.ofNat (87 + n)

/-- One character inside a JSON string literal, as `JSON.stringify` writes it. -/
def quoteChar (c : Char) : List Char :=
  if c.toNat = 34 then [Char.ofNat 92, Char.ofNat 34]
  else if c.toNat = 92 then [Char.ofNat 92, Char.ofNat 92]
  else if c.toNat = 8 then [Char.ofNat 92, 'b']
  else if c.toNat = 12 then [Char.ofNat 92, 'f']
  else if c.toNat = 10 then [Char.ofNat 92, 'n']
  else if c.toNat = 13 then [Char.ofNat 92, 'r']
  else if c.toNat = 9 then [Char.ofNat 92, 't']
  else if c.toNat < 32 then
    [Char.ofNat 92, 'u', '0', '0', hexDigit (c.toNat / 16), hexDigit (c.toNat % 16)]
  else [c]

/-- A string as a JSON string literal. -/
def quote (s : String) : String :=
  ⟨Char.ofNat 34 :: ((s.data.map quoteChar).flatten ++ [Char.ofNat 34])⟩

/-- First text bound to `k`, `none` when there is none or it is `undefined`. -/
def lookupText : List (String × Option String) → String → Option String
  | [], _ => none
  | (k', t) :: r, k => if k' = k then t else lookupText r k

/-- The member `"key":text` of an object literal; a member without text is left out. -/
def memberText (p : String × Option String) : Option String :=
  p.2.map fun t => quote p.1 ++ ":" ++ t

mutual
/-- The call `JSON.stringify(x)`; `none` is the result `undefined`. -/
def stringify : Json → Option String
  | undefined => none
  | null => some "null"
  | bool b => some (if b then "true" else "false")
  | num n => some (toString n)
  | str s => some (quote s)
  | obj ps => some ("\x7b" ++ ",".intercalate ((stringifyProps ps).filterMap memberText) ++ "\x7d")
  | arr n ps =>
    some ("[" ++ ",".intercalate
      ((List.range n).map fun i => (lookupText (stringifyProps ps) (Nat.repr i)).getD "null") ++ "]")
/-- The text of each property value. -/
def stringifyProps : List (String × Json) → List (String × Option String)
  | [] => []
  | (k, v) :: r => (k, stringify v) :: stringifyProps r
end

/-- First string bound to `k`, the empty string when there is none. -/
def lookupString : List (String × String) → String → String
  | [], _ => ""
  | (k', t) :: r, k => if k' = k then t else lookupString r k

mutual
/-- The string a value becomes when it is used as a property key. -/
def toPropertyKey : Json → String
  | undefined => "undefined"
  | null => "null"
  | bool b => if b then "true" else "false"
  | num n => toString n
  | str s => s
  | obj _ => "[object Object]"
  | arr n ps =>
    ",".intercalate ((List.range n).map fun i => lookupString (elementStrings ps) (Nat.repr i))
/-- The pieces `Array.prototype.join` concatenates: nothing for `null` and `undefined`. -/
def elementStrings : List (String × Json) → List (String × String)
  | [] => []
  | (k, undefined) :: r => (k, "") :: elementStrings r
  | (k, null) :: r => (k, "") :: elementStrings r
  | (k, v) :: r => (k, toPropertyKey v) :: elementStrings r
end

/-- Truthiness, as `||` tests it. -/
def truthy : Json → Bool
  | undefined => false
  | null => false
  | bool b => b
  | num n => n != 0
  | str s => s != ""
  | _ => true

/-- The operator `typeof`. -/
def typeOf : Json → String
  | undefined => "undefined"
  | bool _ => "boolean"
  | num _ => "number"
  | str _ => "string"
  | _ => "object"

/-! ## Path flattening -/

mutual
/-- The method `_changeValuesToTreeConvention(obj, path, separator)`. -/
def _changeValuesToTreeConvention : Json → String → String → Json
  | arr _ _, path, _ => obj [("__name", str path), ("__format", str "json")]
  | str _, path, _ => str path
  | obj ps, path, separator => treeLoop path separator (clone (obj ps)) ps
  | null, _, _ => null
  | v, path, _ => obj [("__name", str path), ("__format", str (typeOf v))]
/-- The loop `for (const prop in obj)` of `_changeValuesToTreeConvention`. -/
def treeLoop (path separator : String) (cloneObj : Json) : List (String × Json) → Json
  | [] => cloneObj
  | (prop, v) :: rest =>
    treeLoop path separator
      (set cloneObj prop (_changeValuesToTreeConvention v (path ++ separator ++ prop) "_")) rest
end

/-! ## Key/value projection -/

/-- The replacements `.replace(/\x7b/g, ...).replace(/\x7d/g, ...)`: every brace doubled. -/
def escapeBraces (s : String) : String :=
  ⟨(s.data.map fun c => if c.toNat = 123 ∨ c.toNat = 125 then [c, c] else [c]).flatten⟩

/-- The text stored for a terminal value: its JSON text without the quotes of
a string literal, braces doubled, wrapped in single quotes.  Indexing the
result `undefined` of `JSON.stringify(undefined)` throws. -/
def renderValue (v : Json) : Except JsError String :=
  match stringify v with
  | none => .error .typeError
  | some value =>
    let value : String :=
      if value.data.head? = some (Char.ofNat 34) then ⟨(value.data.drop 1).dropLast⟩ else value
    .ok ("\x27" ++ escapeBraces value ++ "\x27")

/-- The key `objectWithKeys.__name || objectWithKeys`; reading `__name` of
`null` or `undefined` throws. -/
def propertyName (objectWithKeys : Json) : Except JsError String :=
  match objectWithKeys with
  | undefined => .error .typeError
  | null => .error .typeError
  | k => .ok (toPropertyKey (if truthy (get k "__name") then get k "__name" else k))

/-- The first branch of `_createKeyValueObject`: one entry for a terminal value. -/
def terminalEntry (objectWithValues objectWithKeys : Json) : Except JsError Json :=
  match renderValue objectWithValues, propertyName objectWithKeys with
  | .ok value, .ok name => .ok (set (obj []) name (str value))
  | _, _ => .error .typeError

/-- The keys visited by `for (const prop in x)` for any value: a string
enumerates its positions. -/
def forInKeys : Json → List String
  | str s => (List.range s.length).map Nat.repr
  | x => x.keys

/-- The read `x[prop]` for a `prop` that `for (const prop in x)` produced. -/
def getEnumerated (x : Json) (prop : String) : Json :=
  match x with
  | str s => (s.data.get? (digitsValue prop.data)).elim undefined fun c => str ⟨[c]⟩
  | x => get x prop

/-- The recursive call on `objectWithValues[prop]` looked up in a table of such
calls; a missing property is the call on `undefined`. -/
def lookupEntryCall (table : List (String × (Json → Except JsError Json))) (prop : String)
    (k : Json) : Except JsError Json :=
  match table with
  | [] => terminalEntry undefined k
  | (p, f) :: r => if p = prop then f k else lookupEntryCall r prop k

/-- The loop `for (const prop in objectWithKeys)` of `_createKeyValueObject`,
threading `res`; `recur prop k` stands for
`this._createKeyValueObject(objectWithValues[prop], k)`. -/
def entryLoop (recur : String → Json → Except JsError Json) (objectWithKeys : Json) (res : Json) :
    List String → Except JsError Json
  | [] => .ok res
  | prop :: rest =>
    match recur prop (getEnumerated objectWithKeys prop) with
    | .ok keyValueObj => entryLoop recur objectWithKeys (_union res keyValueObj) rest
    | .error e => .error e

mutual
/-- The method `_createKeyValueObject(objectWithValues, objectWithKeys)`. -/
def _createKeyValueObject : Json → Json → Except JsError Json
  | obj vps, objectWithKeys =>
    entryLoop (lookupEntryCall (entryCalls vps)) objectWithKeys (obj []) (forInKeys objectWithKeys)
  | v, objectWithKeys => terminalEntry v objectWithKeys
/-- For each property of `objectWithValues`, the call
`k ↦ this._createKeyValueObject(objectWithValues[prop], k)`. -/
def entryCalls : List (String × Json) → List (String × (Json → Except JsError Json))
  | [] => []
  | (p, v) :: r => (p, fun k => _createKeyValueObject v k) :: entryCalls r
end

/-! ## Leaves and their names -/

/-- The test `typeof x === 'string'`. -/
def isString : Json → Bool
  | str _ => true
  | _ => false

/-- A key path as a flattened name: its keys joined by underscores. -/
def joinPath (path : List String) : String :=
  "_".intercalate path

mutual
/-- The leaves below a value reached by the key path `pre`, in enumeration
order, each with its key path from the root: a leaf is any value that is not a
plain object (a scalar, `null` or an array). -/
def leavesFrom (pre : List String) : Json → List (List String × Json)
  | obj ps => leavesProps pre ps
  | v => [(pre, v)]
/-- The leaves below each property in turn. -/
def leavesProps (pre : List String) : List (String × Json) → List (List String × Json)
  | [] => []
  | (k, v) :: r => leavesFrom (pre ++ [k]) v ++ leavesProps pre r
end

/-- The leaves of a tree with their key paths. -/
def leaves (t : Json) : List (List String × Json) :=
  leavesFrom [] t

/-- The text `_createKeyValueObject` stores for a leaf (the empty string where
rendering throws). -/
def valueText (v : Json) : String :=
  match renderValue v with
  | .ok t => t
  | .error _ => ""

/-- A loaded file: `filename` and its parsed `contents`. -/
structure File where
  filename : String
  contents : Json
  deriving Repr, DecidableEq

/-- The loop of `_getCommonJson` over `files[1..]`. -/
def commonLoop (filesNamesToIgnore : List String) (res : Json) : List File → Json
  | [] => res
  | f :: rest =>
    if !(filesNamesToIgnore.contains f.filename) then
      commonLoop filesNamesToIgnore (_intersect res f.contents) rest
    else
      commonLoop filesNamesToIgnore res rest

/-- The method `_getCommonJson(files)`: reading `files[0]` of an empty list throws. -/
def _getCommonJson (filesNamesToIgnore : List String) : List File → Except JsError Json
  | [] => .error .typeError
  | f :: rest => .ok (commonLoop filesNamesToIgnore f.contents rest)

end Json

namespace Json

/-! ## The merged path tree -/

/-- The loop of `_generateCustomEnvironmentVariablesJson`, threading
`customEnvironmentVariables`: each file that is not ignored is differenced
against `newDefault`, the difference is flattened and projected (the
projection is only written to files, but a throw there ends the loop), and
the path tree is merged in. -/
def customLoop (filesNamesToIgnore : List String) (newDefault : Json)
    (customEnvironmentVariables : Json) : List File → Except JsError Json
  | [] => .ok customEnvironmentVariables
  | file :: rest =>
    if !(filesNamesToIgnore.contains file.filename) then
      match _createKeyValueObject (_different file.contents newDefault)
          (_changeValuesToTreeConvention (_different file.contents newDefault) "" "") with
      | .ok _ =>
        customLoop filesNamesToIgnore newDefault
          (_union customEnvironmentVariables
            (_changeValuesToTreeConvention (_different file.contents newDefault) "" "")) rest
      | .error e => .error e
    else
      customLoop filesNamesToIgnore newDefault customEnvironmentVariables rest

/-- The method `_findFile(files, name)`: the first file of that name, and
`files[files.length]`, which is `undefined` (here `none`), when there is none. -/
def _findFile (files : List File) (name : String) : Option File :=
  files.find? fun f => f.filename == name

/-- The method `_generateCustomEnvironmentVariablesJson` on the parsed `files`
of the result folder: the value it writes as `custom-environment-variables`,
the loop started from `{}`.  Reading `contents` of a missing `default.json`
throws. -/
def _generateCustomEnvironmentVariablesJson (filesNamesToIgnore : List String)
    (files : List File) : Except JsError Json :=
  match _findFile files "default.json" with
  | none => .error .typeError
  | some file => customLoop filesNamesToIgnore file.contents (obj []) files

/-- The override trees of the files that are not ignored, in iteration order. -/
def overrides (filesNamesToIgnore : List String) (newDefault : Json) (files : List File) :
    List Json :=
  (files.filter fun f => !(filesNamesToIgnore.contains f.filename)).map
    fun f => _different f.contents newDefault

/-- The leaf a tree has at a key path: the value reached through plain objects
when it is not itself a plain object; `none` when the path leads nowhere or to
a plain object. -/
def leafValue : Json → List String → Option Json
  | v, [] => if v.isPlainObject || v.isUndefined then none else some v
  | obj ps, k :: q => leafValue (lookup ps k) q
  | _, _ :: _ => none

/-- The property list of the plain object a tree has at a key path, every key
of the path leading through a plain object; `none` when the path leads
elsewhere. -/
def objectAt : Json → List String → Option (List (String × Json))
  | obj ps, [] => some ps
  | obj ps, k :: q => objectAt (lookup ps k) q
  | _, _ => none

/-- The descriptors that the environments in which `path` is a leaf produce
for it, in iteration order. -/
def leafDescriptors (trees : List Json) (path : List String) : List Json :=
  trees.filterMap fun d =>
    (leafValue d path).map fun v => _changeValuesToTreeConvention v (joinPath path) "_"

/-- The descriptor that prevails among those of one key path: the last
descriptor object, or, when there is none, the last descriptor. -/
def prevailing (descriptors : List Json) : Json :=
  match (descriptors.filter isObject).getLast? with
  | some d => d
  | none => descriptors.getLast?.getD undefined

end Json

/-! ## Scenario data -/

namespace Scenario

open Json

/-- The file `development.json` of the end-to-end scenario. -/
def development : Json :=
  obj [("port", num 3000), ("db", obj [("host", str "localhost")])]

/-- The file `production.json` of the end-to-end scenario. -/
def production : Json :=
  obj [("port", num 8080), ("db", obj [("host", str "prod-db")])]

/-- The two files of the end-to-end scenario, in directory order. -/
def files : List File :=
  [⟨"development.json", development⟩, ⟨"production.json", production⟩]

/-- The value `\x7b"x":1\x7d` of the brace-escaping example. -/
def braced : Json := obj [("x", num 1)]

/-- A file whose array `a` has two elements. -/
def longer : Json := obj [("a", arr 2 [("0", num 1), ("1", num 2)])]

/-- A file whose array `a` has one element, equal to the first of `longer`. -/
def shorter : Json := obj [("a", arr 1 [("0", num 1)])]

/-- Two files in directory order: the longer array comes first. -/
def arrayFiles : List File :=
  [⟨"development.json", longer⟩, ⟨"production.json", shorter⟩]

/-- A parsed document with every kind of value in it. -/
def sample : Json :=
  obj [("port", num 3000), ("name", str "svc"), ("debug", bool false), ("none", null),
    ("hosts", arr 2 [("0", str "a"), ("1", obj [("weight", num 1)])]),
    ("db", obj [("host", str "localhost"), ("opts", obj [])])]

/-- A parsed document without `null` and without empty objects or arrays. -/
def solidSample : Json :=
  obj [("port", num 3000), ("hosts", arr 2 [("0", str "a"), ("1", obj [("weight", num 1)])]),
    ("db", obj [("host", str "localhost")])]

/-- An environment file with nested objects and an array. -/
def shapeLeft : Json :=
  obj [("port", num 3000), ("hosts", arr 2 [("0", str "a"), ("1", str "b")]),
    ("db", obj [("host", str "db"), ("pool", num 5)])]

/-- A file with the keys of `shapeLeft` in another order and other values. -/
def shapeRight : Json :=
  obj [("db", obj [("pool", num 5), ("host", str "other")]), ("port", num 3000),
    ("hosts", arr 2 [("0", str "a"), ("1", str "c")])]

/-- The tree `{a: {b: 1, c: "x"}, d: [1, 2]}` of the fidelity example. -/
def fidelityTree : Json :=
  obj [("a", obj [("b", num 1), ("c", str "x")]), ("d", arr 2 [("0", num 1), ("1", num 2)])]

/-- An object whose only key is the empty string. -/
def emptyKeyTree : Json := obj [("", num 1)]

/-- A tree in which the leaves `a_b` and `a.b` have the same flattened name. -/
def collidingTree : Json := obj [("a_b", num 1), ("a", obj [("b", num 2)])]

/-- A base and two environment files: `port` is a number in the first
environment and a string in the second. -/
def portFiles : List File :=
  [⟨"default.json", obj [("name", str "svc")]⟩,
   ⟨"development.json", obj [("name", str "svc"), ("port", num 3000)]⟩,
   ⟨"production.json", obj [("name", str "svc"), ("port", str "8080")]⟩]

/-- A base and three environment files: `db.host` is a leaf of every override,
a string in the first and the last environment and a number in the second. -/
def hostFiles : List File :=
  [⟨"default.json", obj [("name", str "svc")]⟩,
   ⟨"development.json", obj [("name", str "svc"), ("db", obj [("host", str "localhost")])]⟩,
   ⟨"production.json", obj [("name", str "svc"), ("db", obj [("host", num 7)]), ("port", num 1)]⟩,
   ⟨"staging.json", obj [("name", str "svc"), ("db", obj [("host", str "stage-db")])]⟩]

/-- The array `[1, 2]`. -/
def oneTwo : Json := arr 2 [("0", num 1), ("1", num 2)]

/-- The array `[1, 3]`. -/
def oneThree : Json := arr 2 [("0", num 1), ("1", num 3)]

/-- An environment file with an array, a `null` and nested objects. -/
def staging : Json :=
  obj [("port", num 3000), ("hosts", arr 2 [("0", str "a"), ("1", str "b")]), ("tag", null),
    ("db", obj [("host", str "stage-db"), ("pool", num 5)])]

/-- A base that shares some leaves with `staging` and differs in type at `tag`. -/
def stagingBase : Json :=
  obj [("port", num 3000), ("hosts", arr 2 [("0", str "a"), ("1", str "c")]),
    ("tag", obj [("v", num 1)]), ("db", obj [("pool", num 5)])]

/-- Three environment files that share the leaf `db.host` and nothing else. -/
def sharedFiles : List File :=
  [⟨"development.json", obj [("port", num 3000), ("db", obj [("host", str "db"), ("pool", num 1)])]⟩,
   ⟨"staging.json", obj [("port", num 4000), ("db", obj [("host", str "db"), ("pool", num 2)])]⟩,
   ⟨"production.json", obj [("db", obj [("host", str "db")]), ("port", num 8080)]⟩]

/-- Two environment files, the first with a key that names an inherited member
of the second. -/
def inheritedFiles : List File :=
  [⟨"development.json", obj [("constructor", obj [("name", str "Object")])]⟩,
   ⟨"production.json", obj []⟩]

/-- The ignore list that `app.js` passes to the generator. -/
def filesToIgnore : List String :=
  ["default.json", "custom-environment-variables.json", "common.json"]

/-- A source directory whose first file is an ignored one. -/
def ignoredFirst : List File :=
  [⟨"default.json", obj [("port", num 1)]⟩, ⟨"development.json", obj [("port", num 1)]⟩,
   ⟨"production.json", obj [("port", num 1)]⟩]

/-- The same directory with other contents in the ignored file. -/
def ignoredFirstChanged : List File :=
  [⟨"default.json", obj [("port", num 2)]⟩, ⟨"development.json", obj [("port", num 1)]⟩,
   ⟨"production.json", obj [("port", num 1)]⟩]

/-- The object `{port: 1}`. -/
def portOnly : Json := obj [("port", num 1)]

/-- An environment with an empty object under a key the base lacks. -/
def withEmptyOptions : Json := obj [("options", obj []), ("port", num 1)]

/-- An environment with a `null` under a key the base lacks. -/
def withNullTag : Json := obj [("tag", null), ("port", num 1)]

/-- An object whose keys are the empty string and the text `[object Object]`. -/
def emptyAndObjectKeys : Json := obj [("", num 1), ("[object Object]", num 2)]

end Scenario

/-! ## Auxiliary notions used by the proofs -/

namespace Json

/-- Rewrite every property through `F`: `none` removes it. -/
def updateProps (F : String → Json → Option Json) (ps : List (String × Json)) :
    List (String × Json) :=
  ps.filterMap fun p => (F p.1 p.2).map fun r => (p.1, r)

/-- The same kind of object with another property list. -/
def withProps (o : Json) (ps : List (String × Json)) : Json :=
  match o with
  | obj _ => obj ps
  | arr n _ => arr n ps
  | x => x

/-- Every array index among the keys of an array lies below its length. -/
def KeysInRange : Json → Prop
  | arr n ps => ∀ k ∈ ps.map Prod.fst, ∀ i, arrayIndex k = some i → i < n
  | _ => True

/-- What one pass of the loop body of `_different` does to the property `k ↦ v`
of `cloneDest`. -/
def diffStep (dest : Json) (sps : List (String × Json)) (k : String) (v : Json) : Option Json :=
  if hasKey sps k && !(get dest k).isUndefined then
    (if (_different v (lookup sps k)).isNull then none else some (_different v (lookup sps k)))
  else some v

/-- What one pass of the loop body of `_intersect` does to the property `k ↦ v`
of `cloneDest`. -/
def interStep (has : String → Bool) (recur : String → Json → Json) (ks : List String)
    (k : String) (v : Json) : Option Json :=
  if ks.contains k then
    (if has k then (if (recur k v).isNull then none else some (recur k v)) else none)
  else some v

/-- The pass of the loop body of `_intersect(dest, source)` over the property
`k ↦ v`, for the keys `ks` of `dest`. -/
def interStepOf (source : Json) (ks : List String) (k : String) (v : Json) : Option Json :=
  interStep (sourceHas source) (intersectCall source (intersectCalls source.props)) ks k v

/-- The copy of the loop result of `_different`, as an update of the properties of `a`. -/
def copyStep (a b : Json) (k : String) (v : Json) : Option Json :=
  match a with
  | arr _ _ => some (orNull (clone ((diffStep a b.props k v).getD undefined)))
  | _ => (diffStep a b.props k v).map clone

/-- What `_union` leaves under the key `k`. -/
def unionAt (dest c : Json) (sps : List (String × Json)) (k : String) : Json :=
  if hasKey sps k then
    (if (get dest k).isUndefined then lookup sps k else _union (get c k) (lookup sps k))
  else get c k

/-- The key `_createKeyValueObject` stores a leaf under: its name, except that
the empty name of a leaf that is not a string is falsy and gives way to the
descriptor object, whose string form is `[object Object]`. -/
def entryKey (name : String) (v : Json) : String :=
  if name != "" || isString v then name else "[object Object]"

/-- The entries a list of leaves contributes to the flat mapping. -/
def entriesOf (ls : List (List String × Json)) : List (String × Json) :=
  ls.map fun l => (entryKey (joinPath l.1) l.2, str (valueText l.2))

/-- The flat mapping `r` holds the entries `es`, later entries overwriting earlier ones. -/
def Represents (r : Json) (es : List (String × Json)) : Prop :=
  r.isPlainObject = true ∧ (r.props.map Prod.fst).Nodup ∧ (∀ p ∈ r.props, isString p.2 = true) ∧
    (∀ k, k ∈ r.props.map Prod.fst ↔ k ∈ es.map Prod.fst) ∧
    ∀ k, get r k = lookup es.reverse k

/-- What one pass of the loop of `_changeValuesToTreeConvention` does to the
property `k ↦ v` of `cloneObj`. -/
def treeStep (path separator : String) (rest : List (String × Json)) (k : String) (v : Json) :
    Option Json :=
  if hasKey rest k then
    some (_changeValuesToTreeConvention (lookup rest k) (path ++ separator ++ k) "_")
  else some v

mutual
/-- What path trees and their unions are made of: plain objects without
repeated keys, strings and `null`. -/
def isPathTree : Json → Bool
  | obj ps => decide ((ps.map Prod.fst).Nodup) && isPathTreeProps ps
  | str _ => true
  | null => true
  | _ => false
/-- Whether every property value is a path tree. -/
def isPathTreeProps : List (String × Json) → Bool
  | [] => true
  | (_, v) :: r => isPathTree v && isPathTreeProps r
end

/-- A path tree or a union of path trees. -/
def PathTree (a : Json) : Prop := isPathTree a = true

/-- What `_union` makes of the values two trees hold at one key path, where
`undefined` stands for a path that leads nowhere. -/
def mergeAt (x y : Json) : Json :=
  if y.isUndefined then x else if x.isUndefined then y else _union x y

/-- The descriptors a leaf named `name` can have: the bare name for a string,
`null` for `null`, an object with `__name` and `__format` otherwise. -/
def LeafDescriptor (name : String) (d : Json) : Prop :=
  d = str name ∨ d = null ∨ ∃ fmt, d = obj [("__name", str name), ("__format", str fmt)]

/-- The update `cloneDest[prop] = r` followed by the deletion when `r` is `null`. -/
def assignStep (prop : String) (r : Json) (k : String) (v : Json) : Option Json :=
  if k = prop then (if r.isNull then none else some r) else some v

mutual
/-- What the tree algebra makes of parsed documents: like a parsed document,
except that an array may have holes. -/
def isTree : Json → Bool
  | undefined => false
  | obj ps => decide ((ps.map Prod.fst).Nodup) && isTreeProps ps
  | arr n ps =>
    decide ((ps.map Prod.fst).Nodup) &&
      decide (∀ k ∈ ps.map Prod.fst, k ∈ (List.range n).map Nat.repr) && isTreeProps ps
  | _ => true
/-- Whether every property value is such a tree. -/
def isTreeProps : List (String × Json) → Bool
  | [] => true
  | (_, v) :: r => isTree v && isTreeProps r
end

/-- A parsed document in which arrays may have holes. -/
def IsTree (a : Json) : Prop := isTree a = true

mutual
/-- No object or array inside the value is empty and no member or element is `null`. -/
def isSolid : Json → Bool
  | obj ps => !ps.isEmpty && isSolidProps ps
  | arr _ ps => !ps.isEmpty && isSolidProps ps
  | _ => true
/-- Every property value is solid and none is `null`. -/
def isSolidProps : List (String × Json) → Bool
  | [] => true
  | (_, v) :: r => !v.isNull && isSolid v && isSolidProps r
end

mutual
/-- No plain object inside the value, the value itself included, is empty. -/
def noEmptyObject : Json → Bool
  | obj ps => !ps.isEmpty && noEmptyObjectProps ps
  | arr _ ps => noEmptyObjectProps ps
  | _ => true
/-- No property value holds an empty object. -/
def noEmptyObjectProps : List (String × Json) → Bool
  | [] => true
  | (_, v) :: r => noEmptyObject v && noEmptyObjectProps r
end

/-- Two file lists with the same filenames in the same order and the same
contents in every file that is not ignored. -/
def sameKept (ignore : List String) : List File → List File → Bool
  | [], [] => true
  | f :: fs, g :: gs =>
    decide (f.filename = g.filename) &&
      (ignore.contains f.filename || decide (f.contents = g.contents)) && sameKept ignore fs gs
  | _, _ => false

/-- The key holds no underscore. -/
def noUnderscore (k : String) : Bool :=
  k.data.all fun c => c != Char.ofNat 95

mutual
/-- No key of a plain object of the tree, at any depth, holds an underscore. -/
def underscoreFree : Json → Bool
  | obj ps => underscoreFreeProps ps
  | _ => true
/-- No key of the property list, nor any key below it, holds an underscore. -/
def underscoreFreeProps : List (String × Json) → Bool
  | [] => true
  | (k, v) :: r => noUnderscore k && underscoreFree v && underscoreFreeProps r
end

/-- The name a descriptor of the path tree carries: the bare string itself, or
the `__name` of a descriptor object. -/
def descriptorName (d : Json) : Json :=
  if isString d then d else get d "__name"

/-- The statement proved of every value by induction: its flat mapping holds
the entries of its leaves in enumeration order. -/
def FlatOk (v : Json) : Prop :=
  ∀ (pre : List String) (sep : String), IsTree v →
    (∀ l ∈ leavesFrom pre v, l.2.isNull = false) →
    (∀ k, joinPath pre ++ sep ++ k = joinPath (pre ++ [k])) →
    ∃ r, _createKeyValueObject v (_changeValuesToTreeConvention v (joinPath pre) sep) = .ok r ∧
      Represents r (entriesOf (leavesFrom pre v))

end Json

/-! ## Lemmas -/

namespace Json

/-! ### Decimal keys -/

theorem digitsValue_append (a b : List Char) :
    digitsValue (a ++ b) = b.foldl (fun n c => 10 * n + (c.toNat - 48)) (digitsValue a) := by
  simp [digitsValue, List.foldl_append]

theorem foldl_digits_start (ds : List Char) (m : Nat) :
    ds.foldl (fun n c => 10 * n + (c.toNat - 48)) m = m * 10 ^ ds.length + digitsValue ds := by
  induction ds generalizing m with
  | nil => simp [digitsValue]
  | cons d ds ih =>
    simp only [List.foldl_cons, List.length_cons, digitsValue]
    rw [ih, ih (10 * 0 + (d.toNat - 48))]
    ring

theorem digitChar_value (d : Nat) (h : d < 10) : (Nat.digitChar d).toNat - 48 = d := by
  interval_cases d <;> rfl

theorem digitsValue_toDigitsCore (fuel n : Nat) (ds : List Char) (h : n < fuel) :
    digitsValue (Nat.toDigitsCore 10 fuel n ds) = n * 10 ^ ds.length + digitsValue ds := by
  induction fuel generalizing n ds with
  | zero => omega
  | succ fuel ih =>
    simp only [Nat.toDigitsCore]
    have hd : (Nat.digitChar (n % 10)).toNat - 48 = n % 10 := digitChar_value _ (Nat.mod_lt _ (by omega))
    have hcons : ∀ c : Char, digitsValue (c :: ds) = (c.toNat - 48) * 10 ^ ds.length + digitsValue ds := by
      intro c
      have := foldl_digits_start ds (10 * 0 + (c.toNat - 48))
      simp only [digitsValue, List.foldl_cons] at this ⊢
      rw [this]; simp
    split
    · rename_i h0
      rw [hcons, hd]
      have : n = n % 10 := by omega
      rw [← this]
    · rename_i h0
      rw [ih (n / 10) _ (by omega), hcons, hd, List.length_cons]
      have := Nat.div_add_mod n 10
      have e : n / 10 * 10 ^ (ds.length + 1) = 10 * (n / 10) * 10 ^ ds.length := by ring
      rw [e, ← add_assoc, ← add_mul, this]

theorem digitsValue_repr (n : Nat) : digitsValue (Nat.repr n).data = n := by
  have := digitsValue_toDigitsCore (n + 1) n [] (by omega)
  simpa [Nat.repr, Nat.toDigits, List.asString, digitsValue] using this

theorem repr_injective {i j : Nat} (h : Nat.repr i = Nat.repr j) : i = j := by
  have := congrArg (fun s => digitsValue s.data) h
  simpa [digitsValue_repr] using this

theorem arrayIndex_eq_some {k : String} {i : Nat} (h : arrayIndex k = some i) : Nat.repr i = k := by
  unfold arrayIndex at h
  simp only at h
  split at h
  · rename_i hc
    simp only [Bool.and_eq_true, beq_iff_eq, decide_eq_true_eq] at hc
    cases h
    exact hc.1.2
  · cases h

theorem arrayIndex_repr {i j : Nat} (h : arrayIndex (Nat.repr j) = some i) : i = j :=
  repr_injective (arrayIndex_eq_some h)

end Json

namespace Json

/-! ### Property lists -/

theorem hasKey_iff {ps : List (String × Json)} {k : String} :
    hasKey ps k = true ↔ k ∈ ps.map Prod.fst := by
  induction ps with
  | nil => simp [hasKey]
  | cons p ps ih =>
    simp only [hasKey, List.any_cons, Bool.or_eq_true, beq_iff_eq, List.map_cons, List.mem_cons] at ih ⊢
    rw [ih]
    constructor
    · rintro (h | h)
      · exact Or.inl h.symm
      · exact Or.inr h
    · rintro (h | h)
      · exact Or.inl h.symm
      · exact Or.inr h

theorem hasKey_eq_false {ps : List (String × Json)} {k : String} :
    hasKey ps k = false ↔ k ∉ ps.map Prod.fst := by
  rw [← hasKey_iff]; simp

theorem lookup_of_not_mem {ps : List (String × Json)} {k : String}
    (h : k ∉ ps.map Prod.fst) : lookup ps k = undefined := by
  induction ps with
  | nil => rfl
  | cons p ps ih =>
    obtain ⟨k', v⟩ := p
    simp only [List.map_cons, List.mem_cons, not_or] at h
    simp only [lookup]
    rw [if_neg (fun e => h.1 e.symm)]
    exact ih h.2

theorem lookup_of_mem {ps : List (String × Json)} {k : String} {v : Json}
    (hnd : (ps.map Prod.fst).Nodup) (h : (k, v) ∈ ps) : lookup ps k = v := by
  induction ps with
  | nil => cases h
  | cons p ps ih =>
    obtain ⟨k', v'⟩ := p
    simp only [List.map_cons, List.nodup_cons] at hnd
    simp only [lookup]
    rcases List.mem_cons.1 h with h | h
    · cases h; simp
    · have : k' ≠ k := by
        rintro rfl
        exact hnd.1 (List.mem_map.2 ⟨(k', v), h, rfl⟩)
      rw [if_neg this]
      exact ih hnd.2 h

theorem lookup_mem {ps : List (String × Json)} {k : String}
    (h : k ∈ ps.map Prod.fst) : (k, lookup ps k) ∈ ps := by
  induction ps with
  | nil => cases h
  | cons p ps ih =>
    obtain ⟨k', v'⟩ := p
    simp only [lookup]
    by_cases e : k' = k
    · subst e; simp
    · rw [if_neg e]
      simp only [List.map_cons, List.mem_cons] at h
      rcases h with h | h
      · exact absurd h.symm e
      · exact List.mem_cons_of_mem _ (ih h)

theorem updateProps_nil (F : String → Json → Option Json) : updateProps F [] = [] := rfl

theorem updateProps_cons (F : String → Json → Option Json) (k : String) (v : Json)
    (ps : List (String × Json)) :
    updateProps F ((k, v) :: ps) =
      match F k v with
      | some r => (k, r) :: updateProps F ps
      | none => updateProps F ps := by
  simp only [updateProps, List.filterMap_cons]
  cases F k v <;> rfl

theorem keys_updateProps_subset (F : String → Json → Option Json) (ps : List (String × Json))
    {k : String} (h : k ∈ (updateProps F ps).map Prod.fst) : k ∈ ps.map Prod.fst := by
  induction ps with
  | nil => cases h
  | cons p ps ih =>
    obtain ⟨k', v'⟩ := p
    rw [updateProps_cons] at h
    cases hF : F k' v' with
    | none => rw [hF] at h; exact List.mem_cons_of_mem _ (ih h)
    | some r =>
      rw [hF] at h
      simp only [List.map_cons, List.mem_cons] at h ⊢
      exact h.imp id ih

theorem nodup_updateProps (F : String → Json → Option Json) {ps : List (String × Json)}
    (hnd : (ps.map Prod.fst).Nodup) : ((updateProps F ps).map Prod.fst).Nodup := by
  induction ps with
  | nil => simp [updateProps]
  | cons p ps ih =>
    obtain ⟨k', v'⟩ := p
    simp only [List.map_cons, List.nodup_cons] at hnd
    rw [updateProps_cons]
    cases hF : F k' v' with
    | none => exact ih hnd.2
    | some r =>
      simp only [List.map_cons, List.nodup_cons]
      exact ⟨fun h => hnd.1 (keys_updateProps_subset F ps h), ih hnd.2⟩

theorem lookup_updateProps (F : String → Json → Option Json) {ps : List (String × Json)}
    (hnd : (ps.map Prod.fst).Nodup) (k : String) :
    lookup (updateProps F ps) k =
      if k ∈ ps.map Prod.fst then (F k (lookup ps k)).getD undefined else undefined := by
  induction ps with
  | nil => simp [updateProps, lookup]
  | cons p ps ih =>
    obtain ⟨k', v'⟩ := p
    simp only [List.map_cons, List.nodup_cons] at hnd
    rw [updateProps_cons]
    by_cases e : k' = k
    · subst e
      have hn : lookup (updateProps F ps) k' = undefined :=
        lookup_of_not_mem fun h => hnd.1 (keys_updateProps_subset F ps h)
      cases hF : F k' v' with
      | none => simp [hn, lookup, hF]
      | some r => simp [lookup, hF]
    · have e' : ¬ k = k' := fun h => e h.symm
      by_cases hk : k ∈ ps.map Prod.fst
      · have hk' : k ∈ List.map Prod.fst ((k', v') :: ps) := List.mem_cons_of_mem _ hk
        cases hF : F k' v' with
        | none => simp only [lookup, if_neg e, ih hnd.2, if_pos hk, if_pos hk']
        | some r => simp only [lookup, if_neg e, ih hnd.2, if_pos hk, if_pos hk']
      · have hk' : k ∉ List.map Prod.fst ((k', v') :: ps) := by
          simp only [List.map_cons, List.mem_cons, not_or]; exact ⟨e', hk⟩
        cases hF : F k' v' with
        | none => simp only [lookup, if_neg e, ih hnd.2, if_neg hk, if_neg hk']
        | some r => simp only [lookup, if_neg e, ih hnd.2, if_neg hk, if_neg hk']

theorem mem_keys_updateProps (F : String → Json → Option Json) {ps : List (String × Json)}
    (hnd : (ps.map Prod.fst).Nodup) (k : String) :
    k ∈ (updateProps F ps).map Prod.fst ↔
      k ∈ ps.map Prod.fst ∧ (F k (lookup ps k)).isSome = true := by
  induction ps with
  | nil => simp [updateProps]
  | cons p ps ih =>
    obtain ⟨k', v'⟩ := p
    simp only [List.map_cons, List.nodup_cons] at hnd
    rw [updateProps_cons]
    by_cases e : k' = k
    · subst e
      have hn : k' ∉ (updateProps F ps).map Prod.fst :=
        fun h => hnd.1 (keys_updateProps_subset F ps h)
      cases hF : F k' v' with
      | none => simp [hn, lookup, hF]
      | some r => simp [lookup, hF]
    · have e' : ¬ k = k' := fun h => e h.symm
      cases hF : F k' v' with
      | none => simp [lookup, e, e', ih hnd.2]
      | some r => simp [lookup, e, e', ih hnd.2]

theorem updateProps_updateProps (F G : String → Json → Option Json) (ps : List (String × Json)) :
    updateProps G (updateProps F ps) = updateProps (fun k v => (F k v).bind (G k)) ps := by
  induction ps with
  | nil => rfl
  | cons p ps ih =>
    obtain ⟨k', v'⟩ := p
    rw [updateProps_cons, updateProps_cons]
    cases hF : F k' v' with
    | none => simpa using ih
    | some r =>
      simp only [Option.some_bind]
      rw [updateProps_cons, ih]

theorem updateProps_congr {F G : String → Json → Option Json} {ps : List (String × Json)}
    (h : ∀ p ∈ ps, F p.1 p.2 = G p.1 p.2) : updateProps F ps = updateProps G ps := by
  induction ps with
  | nil => rfl
  | cons p ps ih =>
    obtain ⟨k', v'⟩ := p
    rw [updateProps_cons, updateProps_cons, h (k', v') (List.mem_cons_self _ _),
      ih fun q hq => h q (List.mem_cons_of_mem _ hq)]

theorem updateProps_some (ps : List (String × Json)) :
    updateProps (fun _ v => some v) ps = ps := by
  induction ps with
  | nil => rfl
  | cons p ps ih =>
    obtain ⟨k', v'⟩ := p
    rw [updateProps_cons, ih]

theorem updateProps_none {F : String → Json → Option Json} {ps : List (String × Json)}
    (h : ∀ p ∈ ps, F p.1 p.2 = none) : updateProps F ps = [] := by
  induction ps with
  | nil => rfl
  | cons p ps ih =>
    obtain ⟨k', v'⟩ := p
    rw [updateProps_cons, h (k', v') (List.mem_cons_self _ _)]
    exact ih fun q hq => h q (List.mem_cons_of_mem _ hq)

end Json

namespace Json

/-! ### Assignment and deletion on objects -/

theorem replaceProp_eq_update (k : String) (v : Json) {ps : List (String × Json)}
    (hnd : (ps.map Prod.fst).Nodup) :
    replaceProp k v ps = updateProps (fun k' v' => some (if k' = k then v else v')) ps := by
  induction ps with
  | nil => rfl
  | cons p ps ih =>
    obtain ⟨k', v'⟩ := p
    simp only [List.map_cons, List.nodup_cons] at hnd
    rw [updateProps_cons]
    simp only [replaceProp]
    by_cases e : k' = k
    · subst e
      simp only [if_true]
      congr 1
      rw [← updateProps_some ps]
      rw [updateProps_updateProps]
      apply updateProps_congr
      intro q hq
      have : q.1 ≠ k' := by
        rintro rfl
        exact hnd.1 (List.mem_map.2 ⟨q, hq, rfl⟩)
      simp [this]
    · simp only [if_neg e]
      rw [ih hnd.2]

theorem eraseProps_eq_update (k : String) (ps : List (String × Json)) :
    eraseProps ps k = updateProps (fun k' v' => if k' = k then none else some v') ps := by
  induction ps with
  | nil => rfl
  | cons p ps ih =>
    obtain ⟨k', v'⟩ := p
    rw [updateProps_cons]
    unfold eraseProps at ih ⊢
    by_cases e : k' = k
    · simp [List.filter_cons, e, ih]
    · simp [List.filter_cons, e, ih]

theorem props_withProps {o : Json} (h : o.isObject = true) (ps : List (String × Json)) :
    (withProps o ps).props = ps := by
  cases o <;> simp_all [withProps, props, isObject]

theorem isObject_withProps (o : Json) (ps : List (String × Json)) :
    (withProps o ps).isObject = o.isObject := by
  cases o <;> rfl

theorem withProps_props (o : Json) : withProps o o.props = o := by
  cases o <;> rfl

theorem withProps_withProps (o : Json) (ps qs : List (String × Json)) :
    withProps (withProps o ps) qs = withProps o qs := by
  cases o <;> rfl

theorem keysInRange_withProps {o : Json} (h : KeysInRange o) {ps : List (String × Json)}
    (hsub : ∀ k ∈ ps.map Prod.fst, k ∈ o.props.map Prod.fst) : KeysInRange (withProps o ps) := by
  cases o with
  | arr n qs =>
    intro k hk i hi
    exact h k (hsub k hk) i hi
  | _ => trivial

theorem get_withProps {o : Json} (h : o.isObject = true) (ps : List (String × Json)) (k : String) :
    get (withProps o ps) k = lookup ps k := by
  unfold get; rw [props_withProps h]

theorem set_of_mem {c : Json} {k : String} (v : Json) (hr : KeysInRange c)
    (hnd : (c.props.map Prod.fst).Nodup) (hk : k ∈ c.props.map Prod.fst) :
    set c k v = withProps c (updateProps (fun k' v' => some (if k' = k then v else v')) c.props) := by
  have hs : ∀ ps : List (String × Json), (ps.map Prod.fst).Nodup → k ∈ ps.map Prod.fst →
      setProps ps k v = updateProps (fun k' v' => some (if k' = k then v else v')) ps := by
    intro ps hnd hk
    unfold setProps
    rw [if_pos (hasKey_iff.2 hk), replaceProp_eq_update k v hnd]
  cases c with
  | obj ps => simp only [set, withProps, props] at *; rw [hs ps hnd hk]
  | arr n ps =>
    simp only [props] at hnd hk
    simp only [set, withProps, props]
    rw [hs ps hnd hk]
    cases hi : arrayIndex k with
    | none => rfl
    | some i =>
      have := hr k hk i hi
      simp only
      rw [Nat.max_eq_left (by omega)]
  | undefined => simp [props] at hk
  | null => simp [props] at hk
  | bool b => simp [props] at hk
  | num n => simp [props] at hk
  | str s => simp [props] at hk

theorem delete_eq (c : Json) (k : String) :
    delete c k = withProps c (updateProps (fun k' v' => if k' = k then none else some v') c.props) := by
  cases c <;> simp [delete, withProps, props, eraseProps_eq_update]

theorem assignOrDelete_of_mem {c : Json} {k : String} (r : Json) (hr : KeysInRange c)
    (hnd : (c.props.map Prod.fst).Nodup) (hk : k ∈ c.props.map Prod.fst) :
    assignOrDelete c k r = withProps c (updateProps (assignStep k r) c.props) := by
  have hobj : c.isObject = true := by
    cases c <;> simp [props] at hk <;> rfl
  unfold assignOrDelete
  simp only
  rw [set_of_mem r hr hnd hk, get_withProps hobj, lookup_updateProps _ hnd, if_pos hk]
  simp only [if_true, Option.getD_some]
  by_cases hn : r.isNull = true
  · rw [if_pos hn, delete_eq, props_withProps hobj, withProps_withProps, updateProps_updateProps]
    congr 1
    apply updateProps_congr
    intro p _
    by_cases e : p.1 = k <;> simp [assignStep, e, hn]
  · rw [if_neg hn]
    congr 1
    apply updateProps_congr
    intro p _
    by_cases e : p.1 = k <;> simp [assignStep, e, hn]

theorem hasKey_cons (k : String) (v : Json) (ps : List (String × Json)) (k' : String) :
    hasKey ((k, v) :: ps) k' = (k == k' || hasKey ps k') := by
  simp [hasKey]

theorem diffStep_nil (dest : Json) (k : String) (v : Json) : diffStep dest [] k v = some v := by
  simp [diffStep, hasKey]

theorem diffStep_cons_ne (dest : Json) {k k' : String} (sv : Json) (rest : List (String × Json))
    (v : Json) (h : k' ≠ k) : diffStep dest ((k, sv) :: rest) k' v = diffStep dest rest k' v := by
  have h' : ¬ k = k' := fun e => h e.symm
  simp [diffStep, hasKey_cons, h', lookup]

theorem diffStep_cons_self (dest : Json) (k : String) (sv : Json) (rest : List (String × Json))
    (v : Json) :
    diffStep dest ((k, sv) :: rest) k v =
      if (get dest k).isUndefined then some v
      else if (_different v sv).isNull then none else some (_different v sv) := by
  cases h : (get dest k).isUndefined <;> simp [diffStep, hasKey_cons, lookup, h]

theorem diffStep_of_not_hasKey (dest : Json) {sps : List (String × Json)} {k : String} (v : Json)
    (h : k ∉ sps.map Prod.fst) : diffStep dest sps k v = some v := by
  simp [diffStep, hasKey_eq_false.2 h]

theorem differentLoop_eq (dest : Json) :
    ∀ (sps : List (String × Json)) (c : Json), (sps.map Prod.fst).Nodup → c.isObject = true →
      KeysInRange c → (c.props.map Prod.fst).Nodup →
      (∀ k ∈ sps.map Prod.fst, (get dest k).isUndefined = false → k ∈ c.props.map Prod.fst) →
      differentLoop dest c sps = withProps c (updateProps (diffStep dest sps) c.props)
  | [], c, _, _, _, _, _ => by
    simp only [differentLoop]
    have : updateProps (diffStep dest []) c.props = c.props := by
      rw [← updateProps_some c.props, updateProps_updateProps]
      apply updateProps_congr
      intro p _
      simp [diffStep_nil]
    rw [this, withProps_props]
  | (k, sv) :: rest, c, hnds, hobj, hr, hndc, hk => by
    simp only [List.map_cons, List.nodup_cons] at hnds
    simp only [differentLoop]
    by_cases hd : (get dest k).isUndefined = true
    · simp only [hd, Bool.not_true, Bool.false_eq_true, if_false]
      rw [differentLoop_eq dest rest c hnds.2 hobj hr hndc
        (fun k' hk' h => hk k' (List.mem_cons_of_mem _ hk') h)]
      congr 1
      apply updateProps_congr
      intro p _
      by_cases e : p.1 = k
      · rw [e, diffStep_cons_self, hd, diffStep_of_not_hasKey _ _ hnds.1]; rfl
      · rw [diffStep_cons_ne _ _ _ _ e]
    · have hd' : (get dest k).isUndefined = false := by simpa using hd
      simp only [hd', Bool.not_false, if_true]
      have hkc : k ∈ c.props.map Prod.fst := hk k (List.mem_cons_self _ _) hd'
      rw [assignOrDelete_of_mem _ hr hndc hkc]
      have hsub : ∀ k' ∈ (updateProps (assignStep k (_different (get c k) sv)) c.props).map Prod.fst,
          k' ∈ c.props.map Prod.fst := fun k' h => keys_updateProps_subset _ _ h
      rw [differentLoop_eq dest rest _ hnds.2 (by rw [isObject_withProps]; exact hobj)
        (keysInRange_withProps hr hsub)
        (by rw [props_withProps hobj]; exact nodup_updateProps _ hndc)
        (by
          intro k' hk' h
          rw [props_withProps hobj, mem_keys_updateProps _ hndc]
          refine ⟨hk k' (List.mem_cons_of_mem _ hk') h, ?_⟩
          have : k' ≠ k := by rintro rfl; exact hnds.1 hk'
          simp [assignStep, this])]
      rw [props_withProps hobj, withProps_withProps, updateProps_updateProps]
      congr 1
      apply updateProps_congr
      intro p hp
      by_cases e : p.1 = k
      · have hv : get c k = p.2 := by
          unfold get
          exact lookup_of_mem hndc (by rw [← e]; exact hp)
        rw [e, diffStep_cons_self, hd', hv]
        simp only [assignStep, if_true, Bool.false_eq_true, if_false]
        by_cases hn : (_different p.2 sv).isNull = true
        · simp [hn]
        · simp [hn, diffStep_of_not_hasKey _ _ hnds.1]
      · rw [diffStep_cons_ne _ _ _ _ e]
        simp [assignStep, e]

end Json

namespace Json

/-! ### Induction over values and parsed documents -/

mutual
theorem induction_aux {P : Json → Prop} (hu : P undefined) (hn : P null) (hb : ∀ b, P (bool b))
    (hnum : ∀ n, P (num n)) (hs : ∀ s, P (str s))
    (ho : ∀ ps, (∀ p ∈ ps, P p.2) → P (obj ps))
    (ha : ∀ n ps, (∀ p ∈ ps, P p.2) → P (arr n ps)) : ∀ a : Json, P a
  | undefined => hu
  | null => hn
  | bool b => hb b
  | num n => hnum n
  | str s => hs s
  | obj ps => ho ps (induction_props hu hn hb hnum hs ho ha ps)
  | arr n ps => ha n ps (induction_props hu hn hb hnum hs ho ha ps)
theorem induction_props {P : Json → Prop} (hu : P undefined) (hn : P null) (hb : ∀ b, P (bool b))
    (hnum : ∀ n, P (num n)) (hs : ∀ s, P (str s))
    (ho : ∀ ps, (∀ p ∈ ps, P p.2) → P (obj ps))
    (ha : ∀ n ps, (∀ p ∈ ps, P p.2) → P (arr n ps)) :
    ∀ ps : List (String × Json), ∀ p ∈ ps, P p.2
  | [], _, h => by cases h
  | (k, v) :: r, p, h => by
    rcases List.mem_cons.1 h with h | h
    · subst h; exact induction_aux hu hn hb hnum hs ho ha v
    · exact induction_props hu hn hb hnum hs ho ha r p h
end

theorem isJsonProps_iff {ps : List (String × Json)} :
    isJsonProps ps = true ↔ ∀ p ∈ ps, IsJson p.2 := by
  induction ps with
  | nil => simp [isJsonProps]
  | cons p ps ih =>
    obtain ⟨k, v⟩ := p
    simp only [isJsonProps, Bool.and_eq_true, ih, List.mem_cons, forall_eq_or_imp, IsJson]

theorem isJson_obj {ps : List (String × Json)} :
    IsJson (obj ps) ↔ (ps.map Prod.fst).Nodup ∧ ∀ p ∈ ps, IsJson p.2 := by
  simp only [IsJson, isJson, Bool.and_eq_true, decide_eq_true_eq, isJsonProps_iff]

theorem isJson_arr {n : Nat} {ps : List (String × Json)} :
    IsJson (arr n ps) ↔
      ps.map Prod.fst = (List.range n).map Nat.repr ∧ ∀ p ∈ ps, IsJson p.2 := by
  simp only [IsJson, isJson, Bool.and_eq_true, decide_eq_true_eq, isJsonProps_iff]

theorem not_isJson_undefined : ¬ IsJson undefined := by
  simp [IsJson, isJson]

theorem IsJson.ne_undefined {a : Json} (h : IsJson a) : a.isUndefined = false := by
  cases a <;> first | rfl | exact absurd h not_isJson_undefined

theorem nodup_repr_range (n : Nat) : ((List.range n).map Nat.repr).Nodup :=
  (List.nodup_range n).map fun _ _ h => repr_injective h

theorem IsJson.nodup_keys {a : Json} (h : IsJson a) : (a.props.map Prod.fst).Nodup := by
  cases a with
  | obj ps => exact (isJson_obj.1 h).1
  | arr n ps =>
    simp only [props]
    rw [(isJson_arr.1 h).1]
    exact nodup_repr_range n
  | _ => simp [props]

theorem IsJson.members {a : Json} (h : IsJson a) : ∀ p ∈ a.props, IsJson p.2 := by
  cases a with
  | obj ps => exact (isJson_obj.1 h).2
  | arr n ps => exact (isJson_arr.1 h).2
  | _ => simp [props]

theorem IsJson.keysInRange {a : Json} (h : IsJson a) : KeysInRange a := by
  cases a with
  | arr n ps =>
    intro k hk i hi
    rw [(isJson_arr.1 h).1] at hk
    obtain ⟨j, hj, rfl⟩ := List.mem_map.1 hk
    have := arrayIndex_repr hi
    simp only [List.mem_range] at hj
    omega
  | _ => trivial

theorem IsJson.get_of_mem {a : Json} (h : IsJson a) {p : String × Json} (hp : p ∈ a.props) :
    get a p.1 = p.2 :=
  lookup_of_mem h.nodup_keys hp

theorem orNull_of_ne_undefined {v : Json} (h : v.isUndefined = false) : orNull v = v := by
  cases v <;> first | rfl | cases h

theorem map_keys_lookup {ps : List (String × Json)} (hnd : (ps.map Prod.fst).Nodup)
    (hv : ∀ p ∈ ps, p.2.isUndefined = false) :
    (ps.map Prod.fst).map (fun k => (k, orNull (lookup ps k))) = ps := by
  rw [List.map_map]
  conv_rhs => rw [← List.map_id ps]
  apply List.map_congr_left
  intro p hp
  obtain ⟨k, v⟩ := p
  simp only [Function.comp, id]
  rw [lookup_of_mem hnd hp, orNull_of_ne_undefined (hv _ hp)]

theorem cloneProps_eq {ps : List (String × Json)} (h : ∀ p ∈ ps, IsJson p.2 ∧ clone p.2 = p.2) :
    cloneProps ps = ps := by
  induction ps with
  | nil => rfl
  | cons p ps ih =>
    obtain ⟨k, v⟩ := p
    have hv := h (k, v) (List.mem_cons_self _ _)
    have ih' := ih fun q hq => h q (List.mem_cons_of_mem _ hq)
    cases v with
    | undefined => exact absurd hv.1 not_isJson_undefined
    | null => simp [cloneProps, ih', clone]
    | bool b => simp [cloneProps, ih', clone]
    | num n => simp [cloneProps, ih', clone]
    | str s => simp [cloneProps, ih', clone]
    | obj qs => simp only [cloneProps, ih']; rw [hv.2]
    | arr n qs => simp only [cloneProps, ih']; rw [hv.2]

/-- Copying a parsed document through JSON text gives the same document. -/
theorem clone_of_isJson : ∀ a : Json, IsJson a → clone a = a := by
  intro a
  induction a using induction_aux with
  | hu => intro _; rfl
  | hn => intro _; rfl
  | hb b => intro _; rfl
  | hnum n => intro _; rfl
  | hs s => intro _; rfl
  | ho ps ih =>
    intro h
    simp only [clone]
    rw [cloneProps_eq fun p hp => ⟨(isJson_obj.1 h).2 p hp, ih p hp ((isJson_obj.1 h).2 p hp)⟩]
  | ha n ps ih =>
    intro h
    simp only [clone]
    rw [cloneProps_eq fun p hp => ⟨(isJson_arr.1 h).2 p hp, ih p hp ((isJson_arr.1 h).2 p hp)⟩]
    have hk := (isJson_arr.1 h).1
    have : denseProps n ps = (ps.map Prod.fst).map (fun k => (k, orNull (lookup ps k))) := by
      rw [hk, List.map_map]; rfl
    have hnd : (ps.map Prod.fst).Nodup := h.nodup_keys
    rw [this, map_keys_lookup hnd fun p hp => ((isJson_arr.1 h).2 p hp).ne_undefined]

theorem strictEq_self {a : Json} (h : a.isObject = false) (hu : a.isUndefined = false) :
    strictEq a a = true := by
  cases a <;> simp_all [strictEq, isObject, isUndefined]

theorem collapse_withProps_nil {c : Json} (h : c.isObject = true) :
    collapse (withProps c []) = null := by
  cases c <;> simp_all [collapse, withProps, keys, props, isObject]

theorem different_obj_eq (dest : Json) (source : Json) (hd : dest.isObject = true)
    (hs : source.isObject = true) :
    _different dest source = collapse (differentLoop dest (clone dest) source.props) := by
  cases source <;> simp_all [_different, isObject, props]

theorem different_prim_eq (dest : Json) (source : Json)
    (h : dest.isObject = false ∨ source.isObject = false) :
    _different dest source = if strictEq dest source then null else dest := by
  cases source <;> cases dest <;> simp_all [_different, isObject]

theorem diffStep_self_none {a : Json} (h : IsJson a)
    (ih : ∀ p ∈ a.props, IsJson p.2 → _different p.2 p.2 = null) :
    ∀ p ∈ a.props, diffStep a a.props p.1 p.2 = none := by
  intro p hp
  have hg : get a p.1 = p.2 := h.get_of_mem hp
  have hl : lookup a.props p.1 = p.2 := hg
  have hm : hasKey a.props p.1 = true := hasKey_iff.2 (List.mem_map.2 ⟨p, hp, rfl⟩)
  unfold diffStep
  rw [hm, hg, hl, (h.members p hp).ne_undefined, ih p hp (h.members p hp)]
  rfl

theorem different_self_obj {a : Json} (h : IsJson a) (ho : a.isObject = true)
    (ih : ∀ p ∈ a.props, IsJson p.2 → _different p.2 p.2 = null) : _different a a = null := by
  rw [different_obj_eq a a ho ho, clone_of_isJson _ h,
    differentLoop_eq a a.props a h.nodup_keys ho h.keysInRange h.nodup_keys (fun k hk _ => hk),
    updateProps_none (diffStep_self_none h ih), collapse_withProps_nil ho]

/-- The difference of a parsed document with itself is `null`. -/
theorem different_self_of_isJson : ∀ a : Json, IsJson a → _different a a = null := by
  intro a
  induction a using induction_aux with
  | hu => intro h; exact absurd h not_isJson_undefined
  | hn => intro _; simp [_different, strictEq]
  | hb b => intro _; simp [_different, strictEq]
  | hnum n => intro _; simp [_different, strictEq]
  | hs s => intro _; simp [_different, strictEq]
  | ho ps ih => intro h; exact different_self_obj h rfl ih
  | ha n ps ih => intro h; exact different_self_obj h rfl ih

end Json

namespace Json

/-! ### The loop of `_intersect` -/

theorem lookupCall_intersectCalls (sps : List (String × Json)) (k : String) (d : Json)
    (h : k ∈ sps.map Prod.fst) :
    lookupCall (intersectCalls sps) k d = _intersect d (lookup sps k) := by
  induction sps with
  | nil => cases h
  | cons p sps ih =>
    obtain ⟨k', v⟩ := p
    simp only [intersectCalls, lookupCall, lookup]
    by_cases e : k' = k
    · simp [e]
    · simp only [if_neg e]
      simp only [List.map_cons, List.mem_cons] at h
      rcases h with h | h
      · exact absurd h.symm e
      · exact ih h

theorem mem_keys_of_get {o : Json} {k : String} (h : (get o k).isUndefined = false) :
    k ∈ o.props.map Prod.fst := by
  by_contra hn
  have : get o k = undefined := lookup_of_not_mem hn
  rw [this] at h
  cases h

theorem intersect_obj_eq (dest source : Json) (hd : dest.isObject = true)
    (hs : source.isObject = true) :
    _intersect dest source =
      collapse (intersectLoop (sourceHas source)
        (intersectCall source (intersectCalls source.props)) (clone dest) dest.keys) := by
  cases source <;> simp_all [_intersect, isObject, props]

theorem intersect_prim_eq (dest source : Json)
    (h : dest.isObject = false ∨ source.isObject = false) :
    _intersect dest source = if strictEq dest source then dest else null := by
  cases source <;> cases dest <;> simp_all [_intersect, isObject]

theorem interStep_nil (source : String → Bool) (recur : String → Json → Json) (k : String)
    (v : Json) : interStep source recur [] k v = some v := by
  simp [interStep]

theorem interStep_cons_ne (source : String → Bool) (recur : String → Json → Json) {k k' : String}
    (ks : List String) (v : Json) (h : k' ≠ k) :
    interStep source recur (k :: ks) k' v = interStep source recur ks k' v := by
  simp [interStep, h]

theorem interStep_cons_self (source : String → Bool) (recur : String → Json → Json) (k : String)
    (ks : List String) (v : Json) :
    interStep source recur (k :: ks) k v =
      if source k then (if (recur k v).isNull then none else some (recur k v)) else none := by
  simp [interStep]

theorem interStep_of_not_mem (source : String → Bool) (recur : String → Json → Json)
    {ks : List String} {k : String} (v : Json) (h : k ∉ ks) :
    interStep source recur ks k v = some v := by
  simp [interStep, h]

theorem intersectLoop_eq (source : String → Bool) (recur : String → Json → Json) :
    ∀ (ks : List String) (c : Json), ks.Nodup → c.isObject = true →
      KeysInRange c → (c.props.map Prod.fst).Nodup →
      (∀ k ∈ ks, k ∈ c.props.map Prod.fst) →
      intersectLoop source recur c ks =
        withProps c (updateProps (interStep source recur ks) c.props)
  | [], c, _, _, _, _, _ => by
    simp only [intersectLoop]
    have : updateProps (interStep source recur []) c.props = c.props := by
      rw [← updateProps_some c.props, updateProps_updateProps]
      apply updateProps_congr
      intro p _
      simp [interStep_nil]
    rw [this, withProps_props]
  | k :: rest, c, hnds, hobj, hr, hndc, hk => by
    simp only [List.nodup_cons] at hnds
    simp only [intersectLoop]
    have hkc : k ∈ c.props.map Prod.fst := hk k (List.mem_cons_self _ _)
    have hrest : ∀ (F : String → Json → Option Json), (∀ k' v', k' ≠ k → (F k' v').isSome = true) →
        ∀ k' ∈ rest, k' ∈ (withProps c (updateProps F c.props)).props.map Prod.fst := by
      intro F hF k' hk'
      rw [props_withProps hobj, mem_keys_updateProps _ hndc]
      refine ⟨hk k' (List.mem_cons_of_mem _ hk'), hF _ _ ?_⟩
      rintro rfl; exact hnds.1 hk'
    have hsub : ∀ (F : String → Json → Option Json), ∀ k' ∈ (updateProps F c.props).map Prod.fst,
        k' ∈ c.props.map Prod.fst := fun F k' h => keys_updateProps_subset _ _ h
    by_cases hd : source k = false
    · simp only [hd, Bool.false_eq_true, if_false]
      rw [delete_eq]
      rw [intersectLoop_eq source recur rest _ hnds.2 (by rw [isObject_withProps]; exact hobj)
        (keysInRange_withProps hr (hsub _))
        (by rw [props_withProps hobj]; exact nodup_updateProps _ hndc)
        (hrest _ (by intro k' v' h; simp [h]))]
      rw [props_withProps hobj, withProps_withProps, updateProps_updateProps]
      congr 1
      apply updateProps_congr
      intro p _
      by_cases e : p.1 = k
      · rw [e, interStep_cons_self, hd]; simp
      · rw [interStep_cons_ne _ _ _ _ e]; simp [e]
    · have hd' : source k = true := by simpa using hd
      simp only [hd', if_true]
      rw [assignOrDelete_of_mem _ hr hndc hkc]
      rw [intersectLoop_eq source recur rest _ hnds.2 (by rw [isObject_withProps]; exact hobj)
        (keysInRange_withProps hr (hsub _))
        (by rw [props_withProps hobj]; exact nodup_updateProps _ hndc)
        (hrest _ (by intro k' v' h; simp [assignStep, h]))]
      rw [props_withProps hobj, withProps_withProps, updateProps_updateProps]
      congr 1
      apply updateProps_congr
      intro p hp
      by_cases e : p.1 = k
      · have hv : get c k = p.2 := by
          unfold get
          exact lookup_of_mem hndc (by rw [← e]; exact hp)
        rw [e, interStep_cons_self, hd', hv]
        simp only [assignStep, if_true, Bool.false_eq_true, if_false]
        by_cases hn : (recur k p.2).isNull = true
        · simp [hn]
        · simp [hn, interStep_of_not_mem _ _ _ hnds.1]
      · rw [interStep_cons_ne _ _ _ _ e]
        simp [assignStep, e]

/-! ### Reads beyond the own properties -/

theorem interStep_some {has : String → Bool} {recur : String → Json → Json} {ks : List String}
    {k : String} {v r : Json} (h : interStep has recur ks k v = some r) :
    (k ∉ ks ∧ r = v) ∨
      (k ∈ ks ∧ has k = true ∧ r = recur k v ∧ (recur k v).isNull = false) := by
  unfold interStep at h
  by_cases hk : k ∈ ks
  · have hc : ks.contains k = true := by simpa using hk
    rw [if_pos hc] at h
    by_cases hh : has k = true
    · rw [if_pos hh] at h
      by_cases hn : (recur k v).isNull = true
      · rw [if_pos hn] at h; cases h
      · rw [if_neg hn] at h
        exact Or.inr ⟨hk, hh, (Option.some.inj h).symm, by simpa using hn⟩
    · rw [if_neg hh] at h; cases h
  · have hc : ¬ ks.contains k = true := by simpa using hk
    rw [if_neg hc] at h
    exact Or.inl ⟨hk, (Option.some.inj h).symm⟩

theorem mem_inheritedNames_of_member :
    ∀ m ∈ objectPrototype, inheritedNames.contains m.1 = true := by
  decide

theorem inherited_absent (o : Json) {k : String} (h : inheritedNames.contains k = false) :
    inherited o k = Inherited.absent := by
  cases o with
  | obj ps =>
    simp only [inherited]
    cases hf : objectPrototype.find? (fun m => m.1 == k) with
    | none => rfl
    | some m =>
      have hm := List.mem_of_find?_eq_some hf
      have hk := List.find?_some hf
      have h2 := mem_inheritedNames_of_member m hm
      rw [eq_of_beq hk, h] at h2
      cases h2
  | _ => rfl

theorem digits_of_inheritedNames :
    ∀ n ∈ inheritedNames, Nat.repr (digitsValue n.data) ≠ n := by
  decide

theorem repr_not_inherited (i : Nat) : inheritedNames.contains (Nat.repr i) = false := by
  by_contra h
  have hm : Nat.repr i ∈ inheritedNames := by simpa using h
  have := digits_of_inheritedNames _ hm
  rw [digitsValue_repr] at this
  exact this rfl

theorem sourceHas_of_defined {s : Json} {k : String} (h : (get s k).isUndefined = false) :
    sourceHas s k = true := by
  unfold sourceHas
  rw [if_pos (hasKey_iff.2 (mem_keys_of_get h)), h]
  rfl

theorem sourceHas_of_absent {s : Json} {k : String} (hu : (get s k).isUndefined = true)
    (hi : inherited s k = Inherited.absent) : sourceHas s k = false := by
  unfold sourceHas
  split
  · rw [hu]; rfl
  · rw [hi]; rfl

theorem intersectCall_of_defined {s : Json} {k : String} (h : (get s k).isUndefined = false)
    (d : Json) : intersectCall s (intersectCalls s.props) k d = _intersect d (get s k) := by
  unfold intersectCall
  rw [if_pos (hasKey_iff.2 (mem_keys_of_get h))]
  exact lookupCall_intersectCalls _ _ _ (mem_keys_of_get h)

theorem intersectCall_of_not_hasKey {s : Json} {k : String} (h : hasKey s.props k = false)
    (d : Json) :
    intersectCall s (intersectCalls s.props) k d = intersectInherited d (inherited s k) := by
  unfold intersectCall
  rw [h]
  rfl

theorem sourceHas_cases {s : Json} {k : String} (h : sourceHas s k = true) :
    (get s k).isUndefined = false ∨
      (hasKey s.props k = false ∧ inherited s k ≠ Inherited.absent) := by
  unfold sourceHas at h
  split at h
  · exact Or.inl (by simpa using h)
  · rename_i hk
    exact Or.inr ⟨by simpa using hk, by simpa using h⟩

/-- The pass of the loop over a key that `source` owns. -/
theorem interStepOf_defined {s : Json} {ks : List String} {k : String} (hk : k ∈ ks)
    (hu : (get s k).isUndefined = false) (v : Json) :
    interStepOf s ks k v =
      if (_intersect v (get s k)).isNull then none else some (_intersect v (get s k)) := by
  have hc : ks.contains k = true := by simpa using hk
  unfold interStepOf interStep
  rw [hc, sourceHas_of_defined hu, intersectCall_of_defined hu]
  simp only [if_true]

/-- The pass of the loop over a key under which `source` has nothing. -/
theorem interStepOf_absent {s : Json} {ks : List String} {k : String} (hk : k ∈ ks)
    (hu : (get s k).isUndefined = true) (hi : inherited s k = Inherited.absent) (v : Json) :
    interStepOf s ks k v = none := by
  have hc : ks.contains k = true := by simpa using hk
  unfold interStepOf interStep
  rw [hc, sourceHas_of_absent hu hi]
  simp

theorem interStepOf_of_not_mem (s : Json) {ks : List String} {k : String} (v : Json)
    (h : k ∉ ks) : interStepOf s ks k v = some v :=
  interStep_of_not_mem _ _ v h

/-- What a pass of the loop keeps: the value untouched for a key outside the
loop, else the intersection with the own or with the inherited member. -/
theorem interStepOf_some {s : Json} {ks : List String} {k : String} {v r : Json}
    (h : interStepOf s ks k v = some r) :
    (k ∉ ks ∧ r = v) ∨
      (k ∈ ks ∧ r.isNull = false ∧
        (((get s k).isUndefined = false ∧ r = _intersect v (get s k)) ∨
          (hasKey s.props k = false ∧ r = intersectInherited v (inherited s k)))) := by
  rcases interStep_some h with h1 | ⟨hk, hh, hr, hn⟩
  · exact Or.inl h1
  · refine Or.inr ⟨hk, by rw [hr]; exact hn, ?_⟩
    rcases sourceHas_cases hh with hu | ⟨hnk, _⟩
    · exact Or.inl ⟨hu, by rw [hr, intersectCall_of_defined hu]⟩
    · exact Or.inr ⟨hnk, by rw [hr, intersectCall_of_not_hasKey hnk]⟩

end Json

namespace Json

/-! ### Intersection of a document with itself -/

theorem isSolidProps_iff {ps : List (String × Json)} :
    isSolidProps ps = true ↔ ∀ p ∈ ps, p.2.isNull = false ∧ isSolid p.2 = true := by
  induction ps with
  | nil => simp [isSolidProps]
  | cons p ps ih =>
    obtain ⟨k, v⟩ := p
    simp only [isSolidProps, Bool.and_eq_true, ih, List.mem_cons, forall_eq_or_imp,
      Bool.not_eq_true', and_assoc]

theorem isSolid_members {a : Json} (h : isSolid a = true) (ho : a.isObject = true) :
    a.props ≠ [] ∧ ∀ p ∈ a.props, p.2.isNull = false ∧ isSolid p.2 = true := by
  cases a with
  | obj ps =>
    simp only [isSolid, Bool.and_eq_true, Bool.not_eq_true', List.isEmpty_eq_false,
      isSolidProps_iff] at h
    exact h
  | arr n ps =>
    simp only [isSolid, Bool.and_eq_true, Bool.not_eq_true', List.isEmpty_eq_false,
      isSolidProps_iff] at h
    exact h
  | _ => cases ho

theorem collapse_of_props_ne_nil {c : Json} (h : c.props ≠ []) : collapse c = c := by
  unfold collapse keys
  rw [if_neg]
  simpa using h

theorem intersect_self_obj {a : Json} (h : IsJson a) (ho : a.isObject = true)
    (hs : isSolid a = true)
    (ih : ∀ p ∈ a.props, IsJson p.2 → isSolid p.2 = true → _intersect p.2 p.2 = p.2) :
    _intersect a a = a := by
  obtain ⟨hne, hm⟩ := isSolid_members hs ho
  rw [intersect_obj_eq a a ho ho, clone_of_isJson _ h,
    intersectLoop_eq (sourceHas a) _ a.keys a h.nodup_keys ho h.keysInRange h.nodup_keys
      (fun k hk => hk)]
  have : updateProps (interStep (sourceHas a) (intersectCall a (intersectCalls a.props)) a.keys)
      a.props = a.props := by
    conv_rhs => rw [← updateProps_some a.props]
    apply updateProps_congr
    intro p hp
    have hk : p.1 ∈ a.keys := List.mem_map.2 ⟨p, hp, rfl⟩
    have hg : get a p.1 = p.2 := h.get_of_mem hp
    have hu : (get a p.1).isUndefined = false := by
      rw [hg]; exact (h.members p hp).ne_undefined
    have e := interStepOf_defined hk hu p.2
    unfold interStepOf at e
    rw [e, hg, ih p hp (h.members p hp) (hm p hp).2, (hm p hp).1]
    rfl
  rw [this, withProps_props, collapse_of_props_ne_nil hne]

/-- A parsed document without `null` members and without empty objects or
arrays is its own intersection with itself. -/
theorem intersect_self_of_solid : ∀ a : Json, IsJson a → isSolid a = true → _intersect a a = a := by
  intro a
  induction a using induction_aux with
  | hu => intro h; exact absurd h not_isJson_undefined
  | hn => intro _ _; simp [_intersect, strictEq]
  | hb b => intro _ _; simp [_intersect, strictEq]
  | hnum n => intro _ _; simp [_intersect, strictEq]
  | hs s => intro _ _; simp [_intersect, strictEq]
  | ho ps ih => intro h hs; exact intersect_self_obj h rfl hs ih
  | ha n ps ih => intro h hs; exact intersect_self_obj h rfl hs ih

end Json

namespace Json

/-! ### Trees with holes and their copies -/

theorem isTreeProps_iff {ps : List (String × Json)} :
    isTreeProps ps = true ↔ ∀ p ∈ ps, IsTree p.2 := by
  induction ps with
  | nil => simp [isTreeProps]
  | cons p ps ih =>
    obtain ⟨k, v⟩ := p
    simp only [isTreeProps, Bool.and_eq_true, ih, List.mem_cons, forall_eq_or_imp, IsTree]

theorem isTree_obj {ps : List (String × Json)} :
    IsTree (obj ps) ↔ (ps.map Prod.fst).Nodup ∧ ∀ p ∈ ps, IsTree p.2 := by
  simp only [IsTree, isTree, Bool.and_eq_true, decide_eq_true_eq, isTreeProps_iff]

theorem isTree_arr {n : Nat} {ps : List (String × Json)} :
    IsTree (arr n ps) ↔
      ((ps.map Prod.fst).Nodup ∧ ∀ k ∈ ps.map Prod.fst, k ∈ (List.range n).map Nat.repr) ∧
        ∀ p ∈ ps, IsTree p.2 := by
  simp only [IsTree, isTree, Bool.and_eq_true, decide_eq_true_eq, isTreeProps_iff]

theorem not_isTree_undefined : ¬ IsTree undefined := by
  simp [IsTree, isTree]

theorem IsTree.defined {a : Json} (h : IsTree a) : a.isUndefined = false := by
  cases a <;> first | rfl | exact absurd h not_isTree_undefined

theorem IsTree.keys_nodup {a : Json} (h : IsTree a) : (a.props.map Prod.fst).Nodup := by
  cases a with
  | obj ps => exact (isTree_obj.1 h).1
  | arr n ps => exact (isTree_arr.1 h).1.1
  | _ => simp [props]

theorem IsTree.members_isTree {a : Json} (h : IsTree a) : ∀ p ∈ a.props, IsTree p.2 := by
  cases a with
  | obj ps => exact (isTree_obj.1 h).2
  | arr n ps => exact (isTree_arr.1 h).2
  | _ => simp [props]

theorem isTree_of_isJson : ∀ a : Json, IsJson a → IsTree a := by
  intro a
  induction a using induction_aux with
  | hu => intro h; exact absurd h not_isJson_undefined
  | hn => intro _; rfl
  | hb b => intro _; rfl
  | hnum n => intro _; rfl
  | hs s => intro _; rfl
  | ho ps ih =>
    intro h
    exact isTree_obj.2 ⟨(isJson_obj.1 h).1, fun p hp => ih p hp ((isJson_obj.1 h).2 p hp)⟩
  | ha n ps ih =>
    intro h
    have hk := (isJson_arr.1 h).1
    refine isTree_arr.2 ⟨⟨?_, ?_⟩, fun p hp => ih p hp ((isJson_arr.1 h).2 p hp)⟩
    · rw [hk]; exact nodup_repr_range n
    · intro k hk'; rw [← hk]; exact hk'

theorem lookup_map_keys (f : String → Json) (ks : List String) (k : String) :
    lookup (ks.map fun k' => (k', f k')) k = if k ∈ ks then f k else undefined := by
  induction ks with
  | nil => rfl
  | cons k' ks ih =>
    simp only [List.map_cons, lookup]
    by_cases e : k' = k
    · subst e; simp
    · have e' : ¬ k = k' := fun h => e h.symm
      rw [if_neg e, ih]
      by_cases hk : k ∈ ks
      · rw [if_pos hk, if_pos (List.mem_cons_of_mem _ hk)]
      · rw [if_neg hk, if_neg (by simp only [List.mem_cons, not_or]; exact ⟨e', hk⟩)]

theorem denseProps_eq (n : Nat) (ps : List (String × Json)) :
    denseProps n ps = ((List.range n).map Nat.repr).map fun k => (k, orNull (lookup ps k)) := by
  rw [denseProps, List.map_map]; rfl

theorem keys_denseProps (n : Nat) (ps : List (String × Json)) :
    (denseProps n ps).map Prod.fst = (List.range n).map Nat.repr := by
  rw [denseProps, List.map_map]; rfl

theorem lookup_denseProps (n : Nat) (ps : List (String × Json)) (k : String) :
    lookup (denseProps n ps) k =
      if k ∈ (List.range n).map Nat.repr then orNull (lookup ps k) else undefined := by
  rw [denseProps_eq, lookup_map_keys]

theorem keys_cloneProps {ps : List (String × Json)} (h : ∀ p ∈ ps, p.2.isUndefined = false) :
    (cloneProps ps).map Prod.fst = ps.map Prod.fst := by
  induction ps with
  | nil => rfl
  | cons p ps ih =>
    obtain ⟨k, v⟩ := p
    have hv := h (k, v) (List.mem_cons_self _ _)
    have ih' := ih fun q hq => h q (List.mem_cons_of_mem _ hq)
    cases v with
    | undefined => cases hv
    | _ => simp [cloneProps, ih']

theorem lookup_cloneProps {ps : List (String × Json)} (h : ∀ p ∈ ps, p.2.isUndefined = false)
    (k : String) : lookup (cloneProps ps) k = clone (lookup ps k) := by
  induction ps with
  | nil => rfl
  | cons p ps ih =>
    obtain ⟨k', v⟩ := p
    have hv := h (k', v) (List.mem_cons_self _ _)
    have ih' := ih fun q hq => h q (List.mem_cons_of_mem _ hq)
    by_cases e : k' = k
    · cases v with
      | undefined => cases hv
      | _ => simp [cloneProps, lookup, e]
    · cases v with
      | undefined => cases hv
      | _ => simp [cloneProps, lookup, e, ih']

theorem mem_cloneProps {ps : List (String × Json)} {q : String × Json} (h : q ∈ cloneProps ps) :
    ∃ p ∈ ps, q.2 = clone p.2 := by
  induction ps with
  | nil => cases h
  | cons p ps ih =>
    obtain ⟨k, v⟩ := p
    cases v with
    | undefined =>
      simp only [cloneProps] at h
      obtain ⟨p, hp, e⟩ := ih h
      exact ⟨p, List.mem_cons_of_mem _ hp, e⟩
    | null | bool b | num n | str s | obj qs | arr m qs =>
      simp only [cloneProps, List.mem_cons] at h
      rcases h with h | h
      · exact ⟨_, List.mem_cons_self _ _, by rw [h]⟩
      · obtain ⟨p, hp, e⟩ := ih h
        exact ⟨p, List.mem_cons_of_mem _ hp, e⟩

theorem isJson_orNull {v : Json} (h : v.isUndefined = false → IsJson v) : IsJson (orNull v) := by
  cases v with
  | undefined => rfl
  | _ => exact h rfl

/-- The copy of a tree with holes is a parsed document: holes read `null`. -/
theorem isJson_clone : ∀ a : Json, IsTree a → IsJson (clone a) := by
  intro a
  induction a using induction_aux with
  | hu => intro h; exact absurd h not_isTree_undefined
  | hn => intro _; rfl
  | hb b => intro _; rfl
  | hnum n => intro _; rfl
  | hs s => intro _; rfl
  | ho ps ih =>
    intro h
    have hm := (isTree_obj.1 h).2
    simp only [clone]
    refine isJson_obj.2 ⟨?_, ?_⟩
    · rw [keys_cloneProps fun p hp => (hm p hp).defined]; exact (isTree_obj.1 h).1
    · intro q hq
      obtain ⟨p, hp, e⟩ := mem_cloneProps hq
      rw [e]; exact ih p hp (hm p hp)
  | ha n ps ih =>
    intro h
    have hm := (isTree_arr.1 h).2
    simp only [clone]
    refine isJson_arr.2 ⟨keys_denseProps _ _, ?_⟩
    intro q hq
    rw [denseProps_eq] at hq
    obtain ⟨k, _, rfl⟩ := List.mem_map.1 hq
    apply isJson_orNull
    intro hu
    have hk : k ∈ (cloneProps ps).map Prod.fst := mem_keys_of_get (o := obj (cloneProps ps)) hu
    obtain ⟨p, hp, e⟩ := mem_cloneProps (lookup_mem hk)
    simp only at e ⊢
    rw [e]; exact ih p hp (hm p hp)

theorem get_clone {a : Json} (h : IsTree a) (k : String) :
    get (clone a) k =
      match a with
      | arr n _ => if k ∈ (List.range n).map Nat.repr then orNull (clone (get a k)) else undefined
      | _ => clone (get a k) := by
  cases a with
  | obj ps =>
    simp only [clone, get, props]
    exact lookup_cloneProps (fun p hp => ((isTree_obj.1 h).2 p hp).defined) k
  | arr n ps =>
    simp only [clone, get, props]
    rw [lookup_denseProps, lookup_cloneProps (fun p hp => ((isTree_arr.1 h).2 p hp).defined)]
  | _ => rfl

/-! ### Keys that name no inherited member -/

theorem protoFreeProps_iff {ps : List (String × Json)} :
    protoFreeProps ps = true ↔
      ∀ p ∈ ps, inheritedNames.contains p.1 = false ∧ protoFree p.2 = true := by
  induction ps with
  | nil => simp [protoFreeProps]
  | cons p ps ih =>
    obtain ⟨k, v⟩ := p
    simp only [protoFreeProps, Bool.and_eq_true, ih, List.mem_cons, forall_eq_or_imp,
      Bool.not_eq_true', and_assoc]

theorem protoFree_props {a : Json} (h : protoFree a = true) :
    ∀ p ∈ a.props, inheritedNames.contains p.1 = false ∧ protoFree p.2 = true := by
  cases a with
  | obj ps => exact protoFreeProps_iff.1 h
  | arr n ps => exact protoFreeProps_iff.1 h
  | _ => simp [props]

theorem protoFree_keys {a : Json} (h : protoFree a = true) {k : String} (hk : k ∈ a.keys) :
    inheritedNames.contains k = false := by
  obtain ⟨p, hp, rfl⟩ := List.mem_map.1 hk
  exact (protoFree_props h p hp).1

theorem protoFree_withProps {a : Json} (ho : a.isObject = true) {ps : List (String × Json)}
    (h : ∀ p ∈ ps, inheritedNames.contains p.1 = false ∧ protoFree p.2 = true) :
    protoFree (withProps a ps) = true := by
  cases a with
  | obj _ => exact protoFreeProps_iff.2 h
  | arr _ _ => exact protoFreeProps_iff.2 h
  | _ => cases ho

theorem protoFree_of_not_isObject {a : Json} (h : a.isObject = false) : protoFree a = true := by
  cases a <;> first | rfl | cases h

theorem mem_cloneProps_key {ps : List (String × Json)} {q : String × Json}
    (h : q ∈ cloneProps ps) : ∃ p ∈ ps, q.1 = p.1 ∧ q.2 = clone p.2 := by
  induction ps with
  | nil => cases h
  | cons p ps ih =>
    obtain ⟨k, v⟩ := p
    cases v with
    | undefined =>
      simp only [cloneProps] at h
      obtain ⟨p, hp, e⟩ := ih h
      exact ⟨p, List.mem_cons_of_mem _ hp, e⟩
    | null | bool b | num n | str s | obj qs | arr m qs =>
      simp only [cloneProps, List.mem_cons] at h
      rcases h with h | h
      · exact ⟨_, List.mem_cons_self _ _, by rw [h], by rw [h]⟩
      · obtain ⟨p, hp, e⟩ := ih h
        exact ⟨p, List.mem_cons_of_mem _ hp, e⟩

theorem protoFree_orNull {v : Json} (h : v.isUndefined = false → protoFree v = true) :
    protoFree (orNull v) = true := by
  cases v with
  | undefined => rfl
  | _ => exact h rfl

/-- The copy of a value has the keys of the value and the indices of its arrays. -/
theorem protoFree_clone : ∀ a : Json, protoFree a = true → protoFree (clone a) = true := by
  intro a
  induction a using induction_aux with
  | hu => intro _; rfl
  | hn => intro _; rfl
  | hb b => intro _; rfl
  | hnum n => intro _; rfl
  | hs s => intro _; rfl
  | ho ps ih =>
    intro h
    have hm := protoFreeProps_iff.1 h
    simp only [clone]
    refine protoFreeProps_iff.2 ?_
    intro q hq
    obtain ⟨p, hp, e1, e2⟩ := mem_cloneProps_key hq
    rw [e1, e2]
    exact ⟨(hm p hp).1, ih p hp (hm p hp).2⟩
  | ha n ps ih =>
    intro h
    have hm := protoFreeProps_iff.1 h
    simp only [clone]
    refine protoFreeProps_iff.2 ?_
    intro q hq
    rw [denseProps_eq] at hq
    obtain ⟨k, hk, rfl⟩ := List.mem_map.1 hq
    obtain ⟨i, _, rfl⟩ := List.mem_map.1 hk
    refine ⟨repr_not_inherited i, ?_⟩
    apply protoFree_orNull
    intro hu
    have hk' : Nat.repr i ∈ (cloneProps ps).map Prod.fst :=
      mem_keys_of_get (o := obj (cloneProps ps)) hu
    obtain ⟨p, hp, _, e⟩ := mem_cloneProps_key (lookup_mem hk')
    simp only at e ⊢
    rw [e]
    exact ih p hp (hm p hp).2

end Json

namespace Json

/-! ### Leaves along key paths -/

theorem getPath_cons (a : Json) (k : String) (q : List String) :
    getPath a (k :: q) = getPath (get a k) q := rfl

theorem get_of_not_isObject {a : Json} (h : a.isObject = false) (k : String) :
    get a k = undefined := by
  cases a <;> first | rfl | cases h

theorem getPath_undefined (q : List String) : getPath undefined q = undefined := by
  induction q with
  | nil => rfl
  | cons k q ih => rw [getPath_cons, get_of_not_isObject (a := undefined) rfl, ih]

theorem getPath_cons_of_not_isObject {a : Json} (h : a.isObject = false) (k : String)
    (q : List String) : getPath a (k :: q) = undefined := by
  rw [getPath_cons, get_of_not_isObject h, getPath_undefined]

theorem getPath_undefined_ne {v : Json} (hv : isScalar v = true) (q : List String) :
    getPath undefined q ≠ v := by
  rw [getPath_undefined]; rintro rfl; cases hv

theorem getPath_null_ne {v : Json} (hv : isScalar v = true) (q : List String) :
    getPath null q ≠ v := by
  cases q with
  | nil => rintro rfl; cases hv
  | cons k q => rw [getPath_cons_of_not_isObject (a := null) rfl]; rintro rfl; cases hv

theorem isObject_of_isScalar {v : Json} (hv : isScalar v = true) : v.isObject = false := by
  cases v <;> first | rfl | cases hv

theorem IsTree.get_isTree {a : Json} (h : IsTree a) {k : String} (hk : (get a k).isUndefined = false) :
    IsTree (get a k) :=
  h.members_isTree _ (lookup_mem (mem_keys_of_get hk))

theorem isUndefined_clone {a : Json} (h : a.isUndefined = false) : (clone a).isUndefined = false := by
  cases a <;> first | rfl | cases h

theorem IsTree.mem_reprs {n : Nat} {ps : List (String × Json)} (h : IsTree (arr n ps)) {k : String}
    (hk : (get (arr n ps) k).isUndefined = false) : k ∈ (List.range n).map Nat.repr :=
  (isTree_arr.1 h).1.2 k (mem_keys_of_get hk)

/-- A copy has a scalar at a path exactly when the original has. -/
theorem getPath_clone {v : Json} (hv : isScalar v = true) :
    ∀ (q : List String) (x : Json), IsTree x → (getPath (clone x) q = v ↔ getPath x q = v)
  | [], x, _ => by
    cases x with
    | obj ps =>
      exact ⟨fun h => (by rw [← h] at hv; cases hv), fun h => (by rw [← h] at hv; cases hv)⟩
    | arr n ps =>
      exact ⟨fun h => (by rw [← h] at hv; cases hv), fun h => (by rw [← h] at hv; cases hv)⟩
    | _ => rfl
  | k :: q, x, hx => by
    rw [getPath_cons, getPath_cons, get_clone hx]
    by_cases hu : (get x k).isUndefined = true
    · have e : get x k = undefined := by
        cases h : get x k <;> rw [h] at hu <;> first | rfl | cases hu
      rw [e]
      have l : ∀ y : Json, (y = null ∨ y = undefined) → (getPath y q = v ↔ getPath undefined q = v) := by
        rintro y (rfl | rfl)
        · exact ⟨fun h => absurd h (getPath_null_ne hv q), fun h => absurd h (getPath_undefined_ne hv q)⟩
        · rfl
      cases x with
      | arr n ps =>
        simp only
        split
        · exact l _ (Or.inl rfl)
        · rfl
      | _ => exact l _ (Or.inr rfl)
    · have hu' : (get x k).isUndefined = false := by simpa using hu
      have ih := getPath_clone hv q (get x k) (hx.get_isTree hu')
      cases x with
      | arr n ps =>
        simp only
        rw [if_pos (hx.mem_reprs hu'), orNull_of_ne_undefined (isUndefined_clone hu')]
        exact ih
      | _ => exact ih

theorem getPath_collapse {v : Json} (hv : isScalar v = true) (x : Json) (k : String)
    (q : List String) : getPath (collapse x) (k :: q) = v ↔ getPath x (k :: q) = v := by
  unfold collapse
  split
  · rename_i h
    have hp : x.props = [] := by simpa [keys] using h
    have : get x k = undefined := by unfold get; rw [hp]; rfl
    rw [getPath_cons x, this]
    exact ⟨fun h => absurd h (getPath_null_ne hv _), fun h => absurd h (getPath_undefined_ne hv _)⟩
  · rfl

theorem strictEq_iff {a b : Json} : strictEq a b = true ↔ a = b ∧ a.isObject = false := by
  cases a <;> cases b <;> simp [strictEq, isObject]

theorem isObject_clone (a : Json) : (clone a).isObject = a.isObject := by
  cases a <;> rfl

theorem keys_subset_clone {d : Json} (h : IsTree d) :
    ∀ k ∈ d.keys, k ∈ (clone d).props.map Prod.fst := by
  intro k hk
  cases d with
  | obj ps =>
    simp only [clone, props]
    rw [keys_cloneProps fun p hp => ((isTree_obj.1 h).2 p hp).defined]
    exact hk
  | arr n ps =>
    simp only [clone, props]
    rw [keys_denseProps]
    exact (isTree_arr.1 h).1.2 k hk
  | _ => simp [keys, props] at hk

theorem intersect_eq_of_isTree {d s : Json} (hd : IsTree d) (hdo : d.isObject = true)
    (hso : s.isObject = true) :
    _intersect d s =
      collapse (withProps (clone d)
        (updateProps (interStepOf s d.keys) (clone d).props)) := by
  have hc := isJson_clone d hd
  unfold interStepOf
  rw [intersect_obj_eq d s hdo hso,
    intersectLoop_eq (sourceHas s) _ d.keys (clone d) hd.keys_nodup
      (by rw [isObject_clone]; exact hdo) hc.keysInRange hc.nodup_keys (keys_subset_clone hd)]

theorem collapse_cases (x : Json) : collapse x = null ∨ collapse x = x := by
  unfold collapse; split
  · exact Or.inl rfl
  · exact Or.inr rfl

theorem intersect_not_scalar {d s v : Json} (hd : IsTree d) (hdo : d.isObject = true)
    (hso : s.isObject = true) (hv : isScalar v = true) : _intersect d s ≠ v := by
  rw [intersect_eq_of_isTree hd hdo hso]
  rcases collapse_cases (withProps (clone d)
    (updateProps (interStepOf s d.keys) (clone d).props))
    with h | h
  · rw [h]; rintro rfl; cases hv
  · rw [h]
    intro e
    have := isObject_withProps (clone d)
      (updateProps (interStepOf s d.keys) (clone d).props)
    rw [e, isObject_clone, hdo, isObject_of_isScalar hv] at this
    cases this

theorem not_both_objects {d s : Json} (h : ¬ (d.isObject = true ∧ s.isObject = true)) :
    d.isObject = false ∨ s.isObject = false := by
  cases hd : d.isObject <;> cases hs : s.isObject <;> simp_all

theorem undefined_of_isUndefined {a : Json} (h : a.isUndefined = true) : a = undefined := by
  cases a <;> first | rfl | cases h

/-- The intersection has a scalar at a path exactly when both sides have it
there, the keys of the first naming no inherited member. -/
theorem getPath_intersect {v : Json} (hv : isScalar v = true) :
    ∀ (q : List String) (d s : Json), IsTree d → protoFree d = true →
      (getPath (_intersect d s) q = v ↔ getPath d q = v ∧ getPath s q = v) := by
  intro q
  induction q with
  | nil =>
    intro d s hd _
    simp only [getPath, List.foldl_nil]
    by_cases ho : d.isObject = true ∧ s.isObject = true
    · have hdv : d ≠ v := by rintro rfl; rw [isObject_of_isScalar hv] at ho; cases ho.1
      exact ⟨fun h => absurd h (intersect_not_scalar hd ho.1 ho.2 hv), fun h => absurd h.1 hdv⟩
    · rw [intersect_prim_eq d s (not_both_objects ho)]
      by_cases he : strictEq d s = true
      · rw [if_pos he]
        obtain ⟨rfl, _⟩ := strictEq_iff.1 he
        simp
      · rw [if_neg he]
        constructor
        · rintro rfl; cases hv
        · rintro ⟨rfl, rfl⟩
          exact absurd (strictEq_iff.2 ⟨rfl, isObject_of_isScalar hv⟩) he
  | cons k q ih =>
    intro d s hd hpf
    by_cases ho : d.isObject = true ∧ s.isObject = true
    · have hc := isJson_clone d hd
      have hcp := protoFree_clone d hpf
      have hco : (clone d).isObject = true := by rw [isObject_clone]; exact ho.1
      have hA : getPath d (k :: q) = v ↔ getPath (get (clone d) k) q = v := by
        rw [← getPath_cons]; exact (getPath_clone hv (k :: q) d hd).symm
      rw [intersect_eq_of_isTree hd ho.1 ho.2, getPath_collapse hv, getPath_cons,
        get_withProps hco, lookup_updateProps _ hc.nodup_keys, hA, getPath_cons s]
      by_cases hkc : k ∈ (clone d).props.map Prod.fst
      · rw [if_pos hkc]
        have hmem : (k, lookup (clone d).props k) ∈ (clone d).props := lookup_mem hkc
        have hvt : IsTree (lookup (clone d).props k) := isTree_of_isJson _ (hc.members _ hmem)
        have hvp : protoFree (lookup (clone d).props k) = true := (protoFree_props hcp _ hmem).2
        by_cases hkd : k ∈ d.keys
        · by_cases hsu : (get s k).isUndefined = true
          · have : interStepOf s d.keys k
                (lookup (clone d).props k) = none :=
              interStepOf_absent hkd hsu (inherited_absent s (protoFree_keys hpf hkd)) _
            rw [this, undefined_of_isUndefined hsu]
            simp only [Option.getD_none]
            exact ⟨fun h => absurd h (getPath_undefined_ne hv q),
              fun h => absurd h.2 (getPath_undefined_ne hv q)⟩
          · have hsu' : (get s k).isUndefined = false := by simpa using hsu
            have hr := interStepOf_defined hkd hsu' (lookup (clone d).props k)
            have ih' := ih (lookup (clone d).props k) (get s k) hvt hvp
            by_cases hn : (_intersect (lookup (clone d).props k) (get s k)).isNull = true
            · have : interStepOf s d.keys k
                  (lookup (clone d).props k) = none := by
                rw [hr, if_pos hn]
              rw [this]
              simp only [Option.getD_none]
              have hnull : _intersect (lookup (clone d).props k) (get s k) = null := by
                cases h : _intersect (lookup (clone d).props k) (get s k) <;> rw [h] at hn <;>
                  first | rfl | cases hn
              rw [hnull] at ih'
              exact ⟨fun h => absurd h (getPath_undefined_ne hv q),
                fun h => absurd (ih'.2 h) (getPath_null_ne hv q)⟩
            · have : interStepOf s d.keys k
                  (lookup (clone d).props k) =
                  some (_intersect (lookup (clone d).props k) (get s k)) := by
                rw [hr, if_neg hn]
              rw [this]
              exact ih'
        · have : interStepOf s d.keys k
              (lookup (clone d).props k) = some (lookup (clone d).props k) :=
            interStepOf_of_not_mem s _ hkd
          rw [this]
          simp only [Option.getD_some]
          have hdu : get d k = undefined := lookup_of_not_mem hkd
          have hnot : ¬ getPath (get (clone d) k) q = v := by
            rw [← hA, getPath_cons, hdu]; exact getPath_undefined_ne hv q
          exact ⟨fun h => absurd h hnot, fun h => absurd h.1 hnot⟩
      · rw [if_neg hkc]
        have : get (clone d) k = undefined := lookup_of_not_mem hkc
        rw [this]
        exact ⟨fun h => absurd h (getPath_undefined_ne hv q),
          fun h => absurd h.1 (getPath_undefined_ne hv q)⟩
    · rw [intersect_prim_eq d s (not_both_objects ho)]
      by_cases he : strictEq d s = true
      · rw [if_pos he]
        obtain ⟨rfl, _⟩ := strictEq_iff.1 he
        simp
      · rw [if_neg he]
        constructor
        · intro h; exact absurd h (getPath_null_ne hv _)
        · rintro ⟨h1, h2⟩
          rcases not_both_objects ho with h | h
          · rw [getPath_cons_of_not_isObject h] at h1; rw [← h1] at hv; cases hv
          · rw [getPath_cons_of_not_isObject h] at h2; rw [← h2] at hv; cases hv

end Json

namespace Json

/-! ### The base computed by `_getCommonJson` -/

theorem mem_updateProps {F : String → Json → Option Json} {ps : List (String × Json)}
    {q : String × Json} (h : q ∈ updateProps F ps) :
    ∃ p ∈ ps, p.1 = q.1 ∧ F p.1 p.2 = some q.2 := by
  induction ps with
  | nil => cases h
  | cons p ps ih =>
    obtain ⟨k, v⟩ := p
    rw [updateProps_cons] at h
    cases hF : F k v with
    | none =>
      rw [hF] at h
      obtain ⟨p, hp, e⟩ := ih h
      exact ⟨p, List.mem_cons_of_mem _ hp, e⟩
    | some r =>
      rw [hF] at h
      rcases List.mem_cons.1 h with h | h
      · subst h
        exact ⟨(k, v), List.mem_cons_self _ _, rfl, hF⟩
      · obtain ⟨p, hp, e⟩ := ih h
        exact ⟨p, List.mem_cons_of_mem _ hp, e⟩

theorem isTree_withProps_update {c : Json} (hc : IsTree c) (hco : c.isObject = true)
    {F : String → Json → Option Json}
    (hF : ∀ p ∈ c.props, ∀ r, F p.1 p.2 = some r → IsTree r) :
    IsTree (withProps c (updateProps F c.props)) := by
  have hm : ∀ q ∈ updateProps F c.props, IsTree q.2 := by
    intro q hq
    obtain ⟨p, hp, _, e⟩ := mem_updateProps hq
    exact hF p hp _ e
  cases c with
  | obj ps => exact isTree_obj.2 ⟨nodup_updateProps F hc.keys_nodup, hm⟩
  | arr n ps =>
    refine isTree_arr.2 ⟨⟨nodup_updateProps F hc.keys_nodup, ?_⟩, hm⟩
    intro k hk
    exact (isTree_arr.1 hc).1.2 k (keys_updateProps_subset F ps hk)
  | _ => cases hco


/-! ### Intersection with an inherited member -/

theorem intersectInherited_of_not_isObject {d : Json} (h : d.isObject = false) (m : Inherited) :
    intersectInherited d m = null := by
  cases m with
  | absent => rfl
  | prototype => rfl
  | function name length => simp [intersectInherited, h]

/-- The intersection of an object or array with an inherited function, as an
update of the properties of the copy. -/
theorem intersectInherited_function {d : Json} (hd : IsTree d) (hdo : d.isObject = true)
    (name : String) (length : Int) :
    intersectInherited d (Inherited.function name length) =
      collapse (withProps (clone d)
        (updateProps (interStep (fun q => q == "length" || q == "name")
          (fun q x => if strictEq x (if q == "length" then num length else str name) then x
            else null) d.keys) (clone d).props)) := by
  have hc := isJson_clone d hd
  simp only [intersectInherited, hdo, Bool.not_true, Bool.false_eq_true, if_false]
  rw [intersectLoop_eq _ _ d.keys (clone d) hd.keys_nodup (by rw [isObject_clone]; exact hdo)
    hc.keysInRange hc.nodup_keys (keys_subset_clone hd)]

/-- What the intersection with an inherited function keeps of a property is
the string or the number the property holds. -/
theorem kept_of_function {name : String} {length : Int} {ks : List String} {k : String}
    {v r : Json}
    (h : interStep (fun q => q == "length" || q == "name")
      (fun q x => if strictEq x (if q == "length" then num length else str name) then x
        else null) ks k v = some r) :
    r = v ∧ (k ∈ ks → v.isObject = false ∧ v.isNull = false ∧ v.isUndefined = false) := by
  rcases interStep_some h with ⟨hk, hr⟩ | ⟨hk, _, hr, hn⟩
  · exact ⟨hr, fun hk' => absurd hk' hk⟩
  · by_cases he : strictEq v (if k == "length" then num length else str name) = true
    · simp only [he, if_true] at hr hn
      obtain ⟨e, ho⟩ := strictEq_iff.1 he
      refine ⟨hr, fun _ => ⟨ho, hn, ?_⟩⟩
      rw [e]
      split <;> rfl
    · simp only [he, Bool.false_eq_true, if_false] at hn
      cases hn

theorem isTree_intersectInherited {d : Json} (hd : IsTree d) (m : Inherited) :
    IsTree (intersectInherited d m) := by
  cases m with
  | absent => rfl
  | prototype => rfl
  | function name length =>
    by_cases hdo : d.isObject = true
    · have hc := isJson_clone d hd
      rw [intersectInherited_function hd hdo]
      rcases collapse_cases (withProps (clone d)
        (updateProps (interStep (fun q => q == "length" || q == "name")
          (fun q x => if strictEq x (if q == "length" then num length else str name) then x
            else null) d.keys) (clone d).props)) with h | h
      · rw [h]; rfl
      · rw [h]
        apply isTree_withProps_update (isTree_of_isJson _ hc) (by rw [isObject_clone]; exact hdo)
        intro p hp r hr
        rw [(kept_of_function hr).1]
        exact isTree_of_isJson _ (hc.members p hp)
    · rw [intersectInherited_of_not_isObject (by simpa using hdo)]; rfl


theorem isTree_intersect_obj {s : Json}
    (ih : ∀ p ∈ s.props, ∀ d, IsTree d → IsTree (_intersect d p.2)) (d : Json) (hd : IsTree d) :
    IsTree (_intersect d s) := by
  by_cases ho : d.isObject = true ∧ s.isObject = true
  · have hc := isJson_clone d hd
    rw [intersect_eq_of_isTree hd ho.1 ho.2]
    rcases collapse_cases (withProps (clone d)
      (updateProps (interStepOf s d.keys) (clone d).props))
      with h | h
    · rw [h]; rfl
    · rw [h]
      apply isTree_withProps_update (isTree_of_isJson _ hc) (by rw [isObject_clone]; exact ho.1)
      intro p hp r hr
      have hpt : IsTree p.2 := isTree_of_isJson _ (hc.members p hp)
      rcases interStepOf_some hr with ⟨_, e⟩ | ⟨_, _, ⟨hsu, e⟩ | ⟨_, e⟩⟩
      · rw [e]; exact hpt
      · rw [e]
        exact ih _ (lookup_mem (mem_keys_of_get hsu)) _ hpt
      · rw [e]
        exact isTree_intersectInherited hpt _
  · rw [intersect_prim_eq d s (not_both_objects ho)]
    split
    · exact hd
    · rfl

/-- Intersecting keeps the shape of a tree with holes. -/
theorem isTree_intersect : ∀ (s d : Json), IsTree d → IsTree (_intersect d s) := by
  intro s
  induction s using induction_aux with
  | hu => exact isTree_intersect_obj (s := undefined) (by simp [props])
  | hn => exact isTree_intersect_obj (s := null) (by simp [props])
  | hb b => exact isTree_intersect_obj (s := bool b) (by simp [props])
  | hnum n => exact isTree_intersect_obj (s := num n) (by simp [props])
  | hs s => exact isTree_intersect_obj (s := str s) (by simp [props])
  | ho ps ih => exact isTree_intersect_obj (s := obj ps) ih
  | ha n ps ih => exact isTree_intersect_obj (s := arr n ps) ih

theorem protoFree_intersect_obj {s : Json}
    (ih : ∀ p ∈ s.props, ∀ d, IsTree d → protoFree d = true → protoFree (_intersect d p.2) = true)
    (d : Json) (hd : IsTree d) (hpf : protoFree d = true) : protoFree (_intersect d s) = true := by
  by_cases ho : d.isObject = true ∧ s.isObject = true
  · have hc := isJson_clone d hd
    have hcp := protoFree_clone d hpf
    rw [intersect_eq_of_isTree hd ho.1 ho.2]
    rcases collapse_cases (withProps (clone d)
      (updateProps (interStepOf s d.keys) (clone d).props))
      with h | h
    · rw [h]; rfl
    · rw [h]
      apply protoFree_withProps (by rw [isObject_clone]; exact ho.1)
      intro q hq
      obtain ⟨p, hp, e1, hr⟩ := mem_updateProps hq
      have hpp := protoFree_props hcp p hp
      have hpt : IsTree p.2 := isTree_of_isJson _ (hc.members p hp)
      refine ⟨by rw [← e1]; exact hpp.1, ?_⟩
      rcases interStepOf_some hr with ⟨_, e⟩ | ⟨_, hn, ⟨hsu, e⟩ | ⟨_, e⟩⟩
      · rw [e]; exact hpp.2
      · rw [e]
        exact ih _ (lookup_mem (mem_keys_of_get hsu)) _ hpt hpp.2
      · rw [inherited_absent s hpp.1] at e
        rw [e] at hn
        cases hn
  · rw [intersect_prim_eq d s (not_both_objects ho)]
    split
    · exact hpf
    · rfl

/-- The intersection has no key that its first argument lacks. -/
theorem protoFree_intersect : ∀ (s d : Json), IsTree d → protoFree d = true →
    protoFree (_intersect d s) = true := by
  intro s
  induction s using induction_aux with
  | hu => exact protoFree_intersect_obj (s := undefined) (by simp [props])
  | hn => exact protoFree_intersect_obj (s := null) (by simp [props])
  | hb b => exact protoFree_intersect_obj (s := bool b) (by simp [props])
  | hnum n => exact protoFree_intersect_obj (s := num n) (by simp [props])
  | hs s => exact protoFree_intersect_obj (s := str s) (by simp [props])
  | ho ps ih => exact protoFree_intersect_obj (s := obj ps) ih
  | ha n ps ih => exact protoFree_intersect_obj (s := arr n ps) ih

theorem commonLoop_leaf (ignore : List String) {v : Json} (hv : isScalar v = true)
    (p : List String) :
    ∀ (rest : List File) (res : Json), IsTree res → protoFree res = true →
      (∀ f ∈ rest, f.filename ∉ ignore) →
      IsTree (commonLoop ignore res rest) ∧
        (getPath (commonLoop ignore res rest) p = v ↔
          getPath res p = v ∧ ∀ f ∈ rest, getPath f.contents p = v)
  | [], res, hres, _, _ => by simp [commonLoop, hres]
  | f :: rest, res, hres, hpf, hign => by
    have hf : ignore.contains f.filename = false := by
      simpa using hign f (List.mem_cons_self _ _)
    simp only [commonLoop, hf, Bool.not_false, if_true]
    have ih := commonLoop_leaf ignore hv p rest (_intersect res f.contents)
      (isTree_intersect _ _ hres) (protoFree_intersect _ _ hres hpf)
      (fun g hg => hign g (List.mem_cons_of_mem _ hg))
    refine ⟨ih.1, ?_⟩
    rw [ih.2, getPath_intersect hv p res f.contents hres hpf]
    simp only [List.mem_cons, forall_eq_or_imp, and_assoc]

/-- Without ignored files and without keys naming an inherited member, the base
has a scalar leaf exactly where every file has it. -/
theorem getCommonJson_leaf (ignore : List String) (files : List File) (hne : files ≠ [])
    (hobj : ∀ f ∈ files, IsObjectTree f.contents) (hign : ∀ f ∈ files, f.filename ∉ ignore)
    (hproto : ∀ f ∈ files, protoFree f.contents = true)
    (p : List String) (v : Json) (hv : isScalar v = true) :
    ∃ base, _getCommonJson ignore files = .ok base ∧
      (getPath base p = v ↔ ∀ f ∈ files, getPath f.contents p = v) := by
  cases files with
  | nil => exact absurd rfl hne
  | cons f rest =>
    refine ⟨commonLoop ignore f.contents rest, rfl, ?_⟩
    have h := (commonLoop_leaf ignore hv p rest f.contents
      (isTree_of_isJson _ (hobj f (List.mem_cons_self _ _)).1)
      (hproto f (List.mem_cons_self _ _))
      (fun g hg => hign g (List.mem_cons_of_mem _ hg))).2
    rw [h]
    simp only [List.mem_cons, forall_eq_or_imp]

end Json

namespace Json

/-! ### The loop of `_different` on parsed documents -/

theorem different_eq_of_isJson {a b : Json} (ha : IsJson a) (hb : IsJson b)
    (hao : a.isObject = true) (hbo : b.isObject = true) :
    _different a b = collapse (withProps a (updateProps (diffStep a b.props) a.props)) := by
  rw [different_obj_eq a b hao hbo, clone_of_isJson a ha,
    differentLoop_eq a b.props a hb.nodup_keys hao ha.keysInRange ha.nodup_keys
      (fun k _ h => mem_keys_of_get h)]

theorem diffStep_mem {a b : Json} (ha : IsJson a) {p : String × Json} (hp : p ∈ a.props) :
    diffStep a b.props p.1 p.2 =
      if hasKey b.props p.1 then
        (if (_different p.2 (get b p.1)).isNull then none else some (_different p.2 (get b p.1)))
      else some p.2 := by
  unfold diffStep
  rw [ha.get_of_mem hp, (ha.members p hp).ne_undefined]
  simp only [Bool.not_false, Bool.and_true]
  rfl

theorem IsJson.get_isJson {b : Json} (hb : IsJson b) {k : String} (hk : hasKey b.props k = true) :
    IsJson (get b k) :=
  hb.members _ (lookup_mem (hasKey_iff.1 hk))

theorem isTree_different_obj {a : Json}
    (ih : ∀ p ∈ a.props, ∀ b, IsJson p.2 → IsJson b → IsTree (_different p.2 b))
    (b : Json) (ha : IsJson a) (hb : IsJson b) : IsTree (_different a b) := by
  by_cases ho : a.isObject = true ∧ b.isObject = true
  · rw [different_eq_of_isJson ha hb ho.1 ho.2]
    rcases collapse_cases (withProps a (updateProps (diffStep a b.props) a.props)) with h | h
    · rw [h]; rfl
    · rw [h]
      apply isTree_withProps_update (isTree_of_isJson _ ha) ho.1
      intro p hp r hr
      rw [diffStep_mem ha hp] at hr
      split at hr
      · rename_i hk
        split at hr
        · cases hr
        · cases hr
          exact ih p hp _ (ha.members p hp) (hb.get_isJson hk)
      · cases hr; exact isTree_of_isJson _ (ha.members p hp)
  · rw [different_prim_eq a b (not_both_objects ho)]
    split
    · rfl
    · exact isTree_of_isJson _ ha

/-- The difference of two parsed documents is a tree with holes. -/
theorem isTree_different : ∀ (a b : Json), IsJson a → IsJson b → IsTree (_different a b) := by
  intro a
  induction a using induction_aux with
  | hu => intro b h; exact absurd h not_isJson_undefined
  | hn => exact fun b => isTree_different_obj (a := null) (by simp [props]) b
  | hb x => exact fun b => isTree_different_obj (a := bool x) (by simp [props]) b
  | hnum n => exact fun b => isTree_different_obj (a := num n) (by simp [props]) b
  | hs s => exact fun b => isTree_different_obj (a := str s) (by simp [props]) b
  | ho ps ih => exact fun b => isTree_different_obj (a := obj ps) ih b
  | ha n ps ih => exact fun b => isTree_different_obj (a := arr n ps) ih b

theorem different_null (b : Json) : _different null b = null := by
  rw [different_prim_eq null b (Or.inl rfl)]
  split <;> rfl

theorem null_of_isNull {a : Json} (h : a.isNull = true) : a = null := by
  cases a <;> first | rfl | cases h

theorem cloneProps_eq_update {ps : List (String × Json)} (h : ∀ p ∈ ps, p.2.isUndefined = false) :
    cloneProps ps = updateProps (fun _ v => some (clone v)) ps := by
  induction ps with
  | nil => rfl
  | cons p ps ih =>
    obtain ⟨k, v⟩ := p
    have hv := h (k, v) (List.mem_cons_self _ _)
    have ih' := ih fun q hq => h q (List.mem_cons_of_mem _ hq)
    rw [updateProps_cons]
    cases v with
    | undefined => cases hv
    | _ => simp [cloneProps, ih']

theorem updateProps_total (h : String → Json → Json) (ps : List (String × Json)) :
    updateProps (fun k v => some (h k v)) ps = ps.map fun p => (p.1, h p.1 p.2) := by
  induction ps with
  | nil => rfl
  | cons p ps ih =>
    obtain ⟨k, v⟩ := p
    rw [updateProps_cons, ih]; rfl

end Json

namespace Json

/-! ### The loop of `_intersect` on parsed documents -/

theorem intersect_eq_of_isJson {a b : Json} (ha : IsJson a) (hao : a.isObject = true)
    (hbo : b.isObject = true) :
    _intersect a b =
      collapse (withProps a
        (updateProps (interStepOf b a.keys) a.props)) := by
  have := intersect_eq_of_isTree (isTree_of_isJson a ha) hao hbo
  rw [clone_of_isJson a ha] at this
  exact this

end Json

namespace Json

/-! ### Assignment of new and old keys -/

theorem lookup_replaceProp (k : String) (v : Json) (ps : List (String × Json)) (k' : String) :
    lookup (replaceProp k v ps) k' =
      if k' = k then (if hasKey ps k then v else undefined) else lookup ps k' := by
  induction ps with
  | nil => simp [replaceProp, lookup, hasKey]
  | cons p ps ih =>
    obtain ⟨k₀, v₀⟩ := p
    simp only [replaceProp]
    by_cases e : k₀ = k
    · subst e
      rw [if_pos rfl]
      by_cases e' : k' = k₀
      · subst e'; simp [lookup, hasKey]
      · have : ¬ k₀ = k' := fun h => e' h.symm
        simp [lookup, e', this]
    · rw [if_neg e]
      by_cases e' : k' = k
      · subst e'
        simp only [lookup, if_neg e, ih, if_true, hasKey_cons]
        have : (k₀ == k') = false := by simpa using e
        rw [this, Bool.false_or]
      · simp only [lookup, ih, if_neg e']

theorem keys_replaceProp (k : String) (v : Json) (ps : List (String × Json)) :
    (replaceProp k v ps).map Prod.fst = ps.map Prod.fst := by
  induction ps with
  | nil => rfl
  | cons p ps ih =>
    obtain ⟨k₀, v₀⟩ := p
    simp only [replaceProp]
    split
    · rfl
    · simp [ih]

theorem insertProp_perm (k : String) (v : Json) (ps : List (String × Json)) :
    List.Perm (insertProp k v ps) ((k, v) :: ps) := by
  induction ps with
  | nil => exact List.Perm.refl _
  | cons p ps ih =>
    obtain ⟨k₀, v₀⟩ := p
    simp only [insertProp]
    split
    · split
      · exact List.Perm.refl _
      · exact (List.Perm.cons _ ih).trans (List.Perm.swap _ _ _)
    · exact List.Perm.refl _
    · exact (List.Perm.cons _ ih).trans (List.Perm.swap _ _ _)

theorem lookup_perm {ps qs : List (String × Json)} (h : List.Perm ps qs)
    (hnd : (ps.map Prod.fst).Nodup) (k : String) : lookup ps k = lookup qs k := by
  induction h with
  | nil => rfl
  | cons p _ ih =>
    obtain ⟨k₀, v₀⟩ := p
    simp only [List.map_cons, List.nodup_cons] at hnd
    simp only [lookup, ih hnd.2]
  | swap p q l =>
    obtain ⟨k₁, v₁⟩ := p
    obtain ⟨k₂, v₂⟩ := q
    simp only [List.map_cons, List.nodup_cons, List.mem_cons, not_or] at hnd
    simp only [lookup]
    by_cases e1 : k₁ = k
    · have : ¬ k₂ = k := fun e2 => hnd.1.1 (e2.trans e1.symm)
      simp [e1, this]
    · simp [e1]
  | trans h₁ _ ih₁ ih₂ =>
    rw [ih₁ hnd, ih₂ ((h₁.map Prod.fst).nodup_iff.1 hnd)]

theorem nodup_setProps {ps : List (String × Json)} (hnd : (ps.map Prod.fst).Nodup) (k : String)
    (v : Json) : ((setProps ps k v).map Prod.fst).Nodup := by
  unfold setProps
  split
  · rw [keys_replaceProp]; exact hnd
  · rename_i h
    have hk : k ∉ ps.map Prod.fst := by rw [← hasKey_iff]; exact h
    have hp := (insertProp_perm k v ps).map Prod.fst
    rw [hp.nodup_iff]
    simp only [List.map_cons, List.nodup_cons]
    exact ⟨hk, hnd⟩

theorem lookup_setProps {ps : List (String × Json)} (hnd : (ps.map Prod.fst).Nodup) (k : String)
    (v : Json) (k' : String) :
    lookup (setProps ps k v) k' = if k' = k then v else lookup ps k' := by
  unfold setProps
  split
  · rename_i h
    rw [lookup_replaceProp, h]; rfl
  · rename_i h
    have hk : k ∉ ps.map Prod.fst := by rw [← hasKey_iff]; exact h
    have hp := insertProp_perm k v ps
    have hnd' : ((insertProp k v ps).map Prod.fst).Nodup := by
      rw [(hp.map Prod.fst).nodup_iff]
      simp only [List.map_cons, List.nodup_cons]
      exact ⟨hk, hnd⟩
    rw [lookup_perm hp hnd']
    simp only [lookup]
    by_cases e : k' = k
    · subst e; simp
    · have : ¬ k = k' := fun h => e h.symm
      simp [e, this]

theorem mem_keys_setProps (ps : List (String × Json)) (k : String) (v : Json) (k' : String) :
    k' ∈ (setProps ps k v).map Prod.fst ↔ k' = k ∨ k' ∈ ps.map Prod.fst := by
  unfold setProps
  split
  · rename_i h
    rw [keys_replaceProp]
    constructor
    · exact Or.inr
    · rintro (rfl | h')
      · exact hasKey_iff.1 h
      · exact h'
  · rw [((insertProp_perm k v ps).map Prod.fst).mem_iff]
    simp

theorem mem_setProps {ps : List (String × Json)} {k : String} {v : Json} {q : String × Json}
    (h : q ∈ setProps ps k v) : q.2 = v ∨ q ∈ ps := by
  unfold setProps at h
  split at h
  · clear * - h
    induction ps with
    | nil => cases h
    | cons p ps ih =>
      obtain ⟨k₀, v₀⟩ := p
      simp only [replaceProp] at h
      split at h
      · rcases List.mem_cons.1 h with h | h
        · exact Or.inl (by rw [h])
        · exact Or.inr (List.mem_cons_of_mem _ h)
      · rcases List.mem_cons.1 h with h | h
        · exact Or.inr (by rw [h]; exact List.mem_cons_self _ _)
        · exact (ih h).imp id (List.mem_cons_of_mem _)
  · rcases List.mem_cons.1 ((insertProp_perm k v ps).mem_iff.1 h) with h | h
    · exact Or.inl (by rw [h])
    · exact Or.inr h

end Json

namespace Json

/-! ### The loop of `_union` -/

theorem union_obj_eq (dest source : Json) (hd : dest.isObject = true)
    (hs : source.isObject = true) :
    _union dest source = unionLoop dest (clone dest) source.props := by
  cases source <;> simp_all [_union, isObject, props]

theorem union_prim_eq (dest source : Json)
    (h : dest.isObject = false ∨ source.isObject = false) :
    _union dest source = handleConflict dest source := by
  cases source <;> cases dest <;> simp_all [_union, isObject]

/-- On a `dest[prop]` that is no object or array the two branches of the loop
of `_union` store the same value: the union with it is `source[prop]`. -/
theorem union_of_not_isObject (d s : Json) (h : d.isObject = false) : _union d s = s := by
  rw [union_prim_eq d s (Or.inl h)]
  simp [handleConflict, h]

theorem props_set {c : Json} (hc : c.isObject = true) (k : String) (v : Json) :
    (set c k v).props = setProps c.props k v := by
  cases c with
  | obj ps => rfl
  | arr n ps =>
    simp only [set]
    cases arrayIndex k <;> rfl
  | _ => cases hc

theorem isPlainObject_set {c : Json} (hc : c.isPlainObject = true) (k : String) (v : Json) :
    (set c k v).isPlainObject = true := by
  cases c <;> first | rfl | cases hc

theorem isObject_set {c : Json} (hc : c.isObject = true) (k : String) (v : Json) :
    (set c k v).isObject = true := by
  cases c with
  | obj ps => rfl
  | arr n ps =>
    simp only [set]
    cases arrayIndex k <;> rfl
  | _ => cases hc

theorem get_set {c : Json} (hc : c.isObject = true) (hnd : (c.props.map Prod.fst).Nodup)
    (k : String) (v : Json) (k' : String) :
    get (set c k v) k' = if k' = k then v else get c k' := by
  unfold get
  rw [props_set hc, lookup_setProps hnd]

theorem unionLoop_spec (dest : Json) :
    ∀ (sps : List (String × Json)) (c : Json), (sps.map Prod.fst).Nodup → c.isObject = true →
      (c.props.map Prod.fst).Nodup →
      (unionLoop dest c sps).isObject = true ∧
      (c.isPlainObject = true → (unionLoop dest c sps).isPlainObject = true) ∧
      ((unionLoop dest c sps).props.map Prod.fst).Nodup ∧
      (∀ k, k ∈ (unionLoop dest c sps).props.map Prod.fst ↔
        k ∈ c.props.map Prod.fst ∨ k ∈ sps.map Prod.fst) ∧
      ∀ k, get (unionLoop dest c sps) k = unionAt dest c sps k
  | [], c, _, hc, hnd => by
    simp only [unionLoop]
    exact ⟨hc, id, hnd, by simp, by intro k; simp [unionAt, hasKey]⟩
  | (prop, sv) :: rest, c, hnds, hc, hnd => by
    simp only [List.map_cons, List.nodup_cons] at hnds
    have step : ∀ x : Json,
        (unionLoop dest (set c prop x) rest).isObject = true ∧
        (c.isPlainObject = true → (unionLoop dest (set c prop x) rest).isPlainObject = true) ∧
        ((unionLoop dest (set c prop x) rest).props.map Prod.fst).Nodup ∧
        (∀ k, k ∈ (unionLoop dest (set c prop x) rest).props.map Prod.fst ↔
          k ∈ c.props.map Prod.fst ∨ k ∈ ((prop, sv) :: rest).map Prod.fst) ∧
        ∀ k, get (unionLoop dest (set c prop x) rest) k =
          if k = prop then x else unionAt dest c ((prop, sv) :: rest) k := by
      intro x
      have hc' := isObject_set hc prop x
      have hnd' : ((set c prop x).props.map Prod.fst).Nodup := by
        rw [props_set hc]; exact nodup_setProps hnd _ _
      obtain ⟨h1, h2, h3, h4, h5⟩ := unionLoop_spec dest rest (set c prop x) hnds.2 hc' hnd'
      refine ⟨h1, fun hp => h2 (isPlainObject_set hp _ _), h3, ?_, ?_⟩
      · intro k
        rw [h4, props_set hc, mem_keys_setProps]
        simp only [List.map_cons, List.mem_cons]
        tauto
      · intro k
        rw [h5]
        unfold unionAt
        by_cases e : k = prop
        · subst e
          rw [hasKey_eq_false.2 hnds.1, get_set hc hnd]
          simp
        · have e' : ¬ prop = k := fun h => e h.symm
          rw [get_set hc hnd, if_neg e, if_neg e]
          simp [hasKey_cons, e', lookup]
    simp only [unionLoop, keyPresent]
    by_cases hu : (get dest prop).isUndefined = true
    · simp only [hu, Bool.not_true, Bool.false_eq_true, if_false]
      obtain ⟨h1, h2, h3, h4, h5⟩ := step sv
      refine ⟨h1, h2, h3, h4, ?_⟩
      intro k
      rw [h5]
      by_cases e : k = prop
      · subst e; simp [unionAt, hasKey_cons, hu, lookup]
      · rw [if_neg e]
    · have hu' : (get dest prop).isUndefined = false := by simpa using hu
      simp only [hu', Bool.not_false, if_true]
      obtain ⟨h1, h2, h3, h4, h5⟩ := step (_union (get c prop) sv)
      refine ⟨h1, h2, h3, h4, ?_⟩
      intro k
      rw [h5]
      by_cases e : k = prop
      · subst e; simp [unionAt, hasKey_cons, hu', lookup]
      · rw [if_neg e]

end Json

namespace Json

/-! ### Path trees of objects -/

theorem treeStep_nil (path sep : String) (k : String) (v : Json) :
    treeStep path sep [] k v = some v := by
  simp [treeStep, hasKey]

theorem treeLoop_eq (path sep : String) :
    ∀ (rest : List (String × Json)) (c : Json), (rest.map Prod.fst).Nodup → c.isObject = true →
      KeysInRange c → (c.props.map Prod.fst).Nodup →
      (∀ k ∈ rest.map Prod.fst, k ∈ c.props.map Prod.fst) →
      treeLoop path sep c rest = withProps c (updateProps (treeStep path sep rest) c.props)
  | [], c, _, _, _, _, _ => by
    simp only [treeLoop]
    have : updateProps (treeStep path sep []) c.props = c.props := by
      conv_rhs => rw [← updateProps_some c.props]
      apply updateProps_congr
      intro p _
      exact treeStep_nil _ _ _ _
    rw [this, withProps_props]
  | (k, v) :: rest, c, hnds, hobj, hr, hndc, hk => by
    simp only [List.map_cons, List.nodup_cons] at hnds
    simp only [treeLoop]
    have hkc : k ∈ c.props.map Prod.fst := hk k (List.mem_cons_self _ _)
    rw [set_of_mem _ hr hndc hkc]
    have hsub : ∀ (F : String → Json → Option Json), ∀ k' ∈ (updateProps F c.props).map Prod.fst,
        k' ∈ c.props.map Prod.fst := fun F k' h => keys_updateProps_subset _ _ h
    rw [treeLoop_eq path sep rest _ hnds.2 (by rw [isObject_withProps]; exact hobj)
      (keysInRange_withProps hr (hsub _))
      (by rw [props_withProps hobj]; exact nodup_updateProps _ hndc)
      (by
        intro k' hk'
        rw [props_withProps hobj, mem_keys_updateProps _ hndc]
        exact ⟨hk k' (List.mem_cons_of_mem _ hk'), rfl⟩)]
    rw [props_withProps hobj, withProps_withProps, updateProps_updateProps]
    congr 1
    apply updateProps_congr
    intro p _
    by_cases e : p.1 = k
    · simp [treeStep, e, hasKey_cons, lookup, hasKey_eq_false.2 hnds.1]
    · have e' : ¬ k = p.1 := fun h => e h.symm
      simp [treeStep, e, e', hasKey_cons, lookup]

/-- The path tree of an object has the keys of the object, each value flattened. -/
theorem tree_obj_eq {ps : List (String × Json)} (h : IsTree (obj ps)) (path sep : String) :
    _changeValuesToTreeConvention (obj ps) path sep =
      obj (ps.map fun p => (p.1, _changeValuesToTreeConvention p.2 (path ++ sep ++ p.1) "_")) := by
  have hnd : (ps.map Prod.fst).Nodup := (isTree_obj.1 h).1
  have hdef : ∀ p ∈ ps, p.2.isUndefined = false := fun p hp => ((isTree_obj.1 h).2 p hp).defined
  have hkeys : (cloneProps ps).map Prod.fst = ps.map Prod.fst := keys_cloneProps hdef
  simp only [_changeValuesToTreeConvention, clone]
  rw [treeLoop_eq path sep ps (obj (cloneProps ps)) hnd rfl trivial
    (by show ((cloneProps ps).map Prod.fst).Nodup; rw [hkeys]; exact hnd)
    (by intro k hk; show k ∈ (cloneProps ps).map Prod.fst; rw [hkeys]; exact hk)]
  show obj (updateProps (treeStep path sep ps) (cloneProps ps)) = _
  congr 1
  rw [cloneProps_eq_update hdef, updateProps_updateProps, ← updateProps_total
    (fun k v => _changeValuesToTreeConvention v (path ++ sep ++ k) "_") ps]
  apply updateProps_congr
  intro p hp
  simp [treeStep, hasKey_iff.2 (List.mem_map.2 ⟨p, hp, rfl⟩), lookup_of_mem hnd hp]

end Json

namespace Json

/-! ### Flat mappings -/

theorem lookup_append (a b : List (String × Json)) (k : String) :
    lookup (a ++ b) k = if hasKey a k then lookup a k else lookup b k := by
  induction a with
  | nil => simp [hasKey]
  | cons p a ih =>
    obtain ⟨k₀, v₀⟩ := p
    simp only [List.cons_append, lookup, hasKey_cons]
    by_cases e : k₀ = k
    · simp [e]
    · have : (k₀ == k) = false := by simpa using e
      simp only [if_neg e, this, Bool.false_or]
      exact ih

theorem hasKey_reverse (es : List (String × Json)) (k : String) :
    hasKey es.reverse k = hasKey es k := by
  rw [Bool.eq_iff_iff, hasKey_iff, hasKey_iff]
  simp

theorem represents_empty : Represents (obj []) [] :=
  ⟨rfl, List.nodup_nil, by simp [props], by simp [props], by intro k; rfl⟩

theorem represents_single (name text : String) :
    Represents (obj [(name, str text)]) [(name, str text)] := by
  refine ⟨rfl, by simp [props], ?_, by simp [props], by intro k; rfl⟩
  intro p hp
  simp only [props, List.mem_singleton] at hp
  subst hp
  rfl

theorem isJson_of_represents {r : Json} {es : List (String × Json)} (h : Represents r es) :
    IsJson r := by
  obtain ⟨hp, hnd, hs, _, _⟩ := h
  cases r with
  | obj ps =>
    refine isJson_obj.2 ⟨hnd, ?_⟩
    intro p hp
    have := hs p hp
    cases h : p.2 <;> rw [h] at this <;> first | rfl | cases this
  | _ => cases hp

theorem isObject_of_isPlainObject {r : Json} (h : r.isPlainObject = true) : r.isObject = true := by
  cases r <;> first | rfl | cases h

theorem union_string (d : Json) (hd : d.isObject = false) {s : Json} (hs : isString s = true) :
    _union d s = s := by
  cases s with
  | str t =>
    simp only [_union, handleConflict, hd]
    rfl
  | _ => cases hs

theorem isObject_get_of_strings {r : Json} (hs : ∀ p ∈ r.props, isString p.2 = true) (k : String) :
    (get r k).isObject = false := by
  by_cases hk : k ∈ r.props.map Prod.fst
  · have := hs _ (lookup_mem hk)
    unfold get
    cases h : lookup r.props k <;> rw [h] at this <;> first | rfl | cases this
  · unfold get
    rw [lookup_of_not_mem hk]; rfl

/-- The union of two flat mappings holds the entries of the first, then those of the second. -/
theorem represents_union {r r' : Json} {es es' : List (String × Json)} (h : Represents r es)
    (h' : Represents r' es') : Represents (_union r r') (es ++ es') := by
  have hj := isJson_of_represents h
  obtain ⟨hp, hnd, hs, hk, hg⟩ := h
  obtain ⟨hp', hnd', hs', hk', hg'⟩ := h'
  have ho := isObject_of_isPlainObject hp
  rw [union_obj_eq r r' ho (isObject_of_isPlainObject hp'), clone_of_isJson r hj]
  obtain ⟨_, u2, u3, u4, u5⟩ := unionLoop_spec r r'.props r hnd' ho hnd
  have hget : ∀ k, get (unionLoop r r r'.props) k =
      if hasKey r'.props k then get r' k else get r k := by
    intro k
    rw [u5, unionAt]
    by_cases hkk : hasKey r'.props k = true
    · rw [if_pos hkk, if_pos hkk]
      have hstr : isString (lookup r'.props k) = true := hs' _ (lookup_mem (hasKey_iff.1 hkk))
      split
      · rfl
      · exact union_string _ (isObject_get_of_strings hs k) hstr
    · rw [if_neg hkk, if_neg hkk]
  refine ⟨u2 hp, u3, ?_, ?_, ?_⟩
  · intro p hpm
    have hkm : p.1 ∈ (unionLoop r r r'.props).props.map Prod.fst := List.mem_map.2 ⟨p, hpm, rfl⟩
    have e : get (unionLoop r r r'.props) p.1 = p.2 := lookup_of_mem u3 hpm
    rw [← e, hget]
    split
    · rename_i hkk
      exact hs' _ (lookup_mem (hasKey_iff.1 hkk))
    · rename_i hkk
      have : p.1 ∈ r.props.map Prod.fst := by
        rcases (u4 p.1).1 hkm with h | h
        · exact h
        · exact absurd (hasKey_iff.2 h) hkk
      exact hs _ (lookup_mem this)
  · intro k
    rw [u4, hk, hk']
    simp
  · intro k
    rw [hget, List.reverse_append, lookup_append, hasKey_reverse, ← hg, ← hg']
    have : hasKey r'.props k = hasKey es' k := by
      rw [Bool.eq_iff_iff, hasKey_iff, hasKey_iff, hk']
    rw [this]

theorem stringify_isSome {v : Json} (h : v.isUndefined = false) : ∃ t, stringify v = some t := by
  cases v with
  | undefined => cases h
  | null => exact ⟨_, rfl⟩
  | bool b => exact ⟨_, rfl⟩
  | num n => exact ⟨_, rfl⟩
  | str s => exact ⟨_, rfl⟩
  | obj ps => simp [stringify]
  | arr n ps => simp [stringify]

theorem renderValue_eq {v : Json} (h : v.isUndefined = false) :
    renderValue v = .ok (valueText v) := by
  obtain ⟨t, ht⟩ := stringify_isSome h
  have : ∃ x, renderValue v = .ok x := by
    unfold renderValue
    rw [ht]
    exact ⟨_, rfl⟩
  obtain ⟨x, hx⟩ := this
  unfold valueText
  rw [hx]

/-- The entry of a leaf that is a string, a number, a boolean or an array. -/
theorem entry_of_leaf {v : Json} (hp : v.isPlainObject = false) (hn : v.isNull = false)
    (hu : v.isUndefined = false) (path sep : String) :
    _createKeyValueObject v (_changeValuesToTreeConvention v path sep) =
      .ok (obj [(entryKey path v, str (valueText v))]) := by
  have hr := renderValue_eq hu
  have hd : ∀ fmt : String, isString v = false →
      propertyName (obj [("__name", str path), ("__format", str fmt)]) = .ok (entryKey path v) := by
    intro fmt hs
    by_cases hne : path = ""
    · subst hne
      simp [propertyName, get, props, lookup, truthy, toPropertyKey, entryKey, hs]
    · simp [propertyName, get, props, lookup, truthy, hne, toPropertyKey, entryKey]
  have hfin : ∀ K : Json, propertyName K = .ok (entryKey path v) →
      terminalEntry v K = .ok (obj [(entryKey path v, str (valueText v))]) := by
    intro K hK
    unfold terminalEntry
    rw [hr, hK]
    rfl
  cases v with
  | undefined => cases hu
  | null => cases hn
  | obj ps => cases hp
  | str s =>
    simp only [_changeValuesToTreeConvention, _createKeyValueObject]
    apply hfin
    simp [propertyName, get, props, lookup, truthy, toPropertyKey, entryKey, isString]
  | bool b =>
    simp only [_changeValuesToTreeConvention, _createKeyValueObject]
    exact hfin _ (hd _ rfl)
  | num n =>
    simp only [_changeValuesToTreeConvention, _createKeyValueObject]
    exact hfin _ (hd _ rfl)
  | arr n ps =>
    simp only [_changeValuesToTreeConvention, _createKeyValueObject]
    exact hfin _ (hd _ rfl)

end Json

namespace Json

/-! ### The flat mapping of a tree -/

theorem intercalate_go_snoc (sep : String) (k : String) :
    ∀ (l : List String) (acc : String),
      String.intercalate.go acc sep (l ++ [k]) = String.intercalate.go acc sep l ++ sep ++ k
  | [], acc => by simp [String.intercalate.go]
  | a :: l, acc => by
    simp only [List.cons_append, String.intercalate.go]
    exact intercalate_go_snoc sep k l _

theorem joinPath_single (k : String) : joinPath [k] = k := by
  simp [joinPath, String.intercalate, String.intercalate.go]

theorem joinPath_snoc {pre : List String} (h : pre ≠ []) (k : String) :
    joinPath pre ++ "_" ++ k = joinPath (pre ++ [k]) := by
  cases pre with
  | nil => exact absurd rfl h
  | cons a l =>
    simp only [joinPath, String.intercalate, List.cons_append]
    rw [intercalate_go_snoc]

theorem lookupEntryCall_entryCalls (vps : List (String × Json)) (prop : String) (k : Json)
    (h : prop ∈ vps.map Prod.fst) :
    lookupEntryCall (entryCalls vps) prop k = _createKeyValueObject (lookup vps prop) k := by
  induction vps with
  | nil => cases h
  | cons p vps ih =>
    obtain ⟨k', v⟩ := p
    simp only [entryCalls, lookupEntryCall, lookup]
    by_cases e : k' = prop
    · simp [e]
    · simp only [if_neg e]
      simp only [List.map_cons, List.mem_cons] at h
      rcases h with h | h
      · exact absurd h.symm e
      · exact ih h

theorem mem_leavesProps {pre : List String} {ps : List (String × Json)} {p : String × Json}
    (hp : p ∈ ps) {l : List String × Json} (hl : l ∈ leavesFrom (pre ++ [p.1]) p.2) :
    l ∈ leavesProps pre ps := by
  induction ps with
  | nil => cases hp
  | cons q ps ih =>
    obtain ⟨k, v⟩ := q
    simp only [leavesProps, List.mem_append]
    rcases List.mem_cons.1 hp with h | h
    · subst h; exact Or.inl hl
    · exact Or.inr (ih h)

theorem leavesProps_sublist {pre : List String} {ps rest : List (String × Json)}
    (h : ∀ p ∈ rest, p ∈ ps) {l : List String × Json} (hl : l ∈ leavesProps pre rest) :
    l ∈ leavesProps pre ps := by
  induction rest with
  | nil => cases hl
  | cons q rest ih =>
    obtain ⟨k, v⟩ := q
    simp only [leavesProps, List.mem_append] at hl
    rcases hl with hl | hl
    · exact mem_leavesProps (h (k, v) (List.mem_cons_self _ _)) hl
    · exact ih (fun p hp => h p (List.mem_cons_of_mem _ hp)) hl

theorem flatOk_leaf {v : Json} (hp : v.isPlainObject = false) : FlatOk v := by
  intro pre sep hj hn _
  have hl : leavesFrom pre v = [(pre, v)] := by
    cases v <;> first | rfl | cases hp
  rw [hl] at hn ⊢
  have h1 := hn (pre, v) (List.mem_singleton.2 rfl)
  exact ⟨_, entry_of_leaf hp h1 hj.defined _ _, represents_single _ _⟩

theorem entryLoop_spec {ps : List (String × Json)} (hj : IsTree (obj ps)) (pre : List String)
    (sep : String) (ih : ∀ p ∈ ps, FlatOk p.2)
    (hn : ∀ l ∈ leavesProps pre ps, l.2.isNull = false)
    (hsep : ∀ k, joinPath pre ++ sep ++ k = joinPath (pre ++ [k])) :
    ∀ (rest : List (String × Json)) (res : Json) (es : List (String × Json)),
      (∀ p ∈ rest, p ∈ ps) → Represents res es →
      ∃ r, entryLoop (lookupEntryCall (entryCalls ps))
          (_changeValuesToTreeConvention (obj ps) (joinPath pre) sep) res (rest.map Prod.fst) = .ok r ∧
        Represents r (es ++ entriesOf (leavesProps pre rest))
  | [], res, es, _, hres => by
    refine ⟨res, rfl, ?_⟩
    simpa [leavesProps, entriesOf] using hres
  | p :: rest, res, es, hsub, hres => by
    have hp : p ∈ ps := hsub p (List.mem_cons_self _ _)
    have hnd : (ps.map Prod.fst).Nodup := (isTree_obj.1 hj).1
    have hk : p.1 ∈ ps.map Prod.fst := List.mem_map.2 ⟨p, hp, rfl⟩
    have hK : getEnumerated (_changeValuesToTreeConvention (obj ps) (joinPath pre) sep) p.1 =
        _changeValuesToTreeConvention p.2 (joinPath (pre ++ [p.1])) "_" := by
      rw [tree_obj_eq hj, ← hsep]
      show lookup _ p.1 = _
      apply lookup_of_mem
      · show ((List.map (fun p : String × Json =>
            (p.1, _changeValuesToTreeConvention p.2 (joinPath pre ++ sep ++ p.1) "_")) ps).map
            Prod.fst).Nodup
        rw [List.map_map]; exact hnd
      · exact List.mem_map.2 ⟨p, hp, rfl⟩
    obtain ⟨rp, hrp, hrep⟩ := ih p hp (pre ++ [p.1]) "_" ((isTree_obj.1 hj).2 p hp)
      (fun l hl => hn l (mem_leavesProps hp hl))
      (fun k => joinPath_snoc (by simp) k)
    obtain ⟨r, hr, hrr⟩ := entryLoop_spec hj pre sep ih hn hsep rest (_union res rp)
      (es ++ entriesOf (leavesFrom (pre ++ [p.1]) p.2))
      (fun q hq => hsub q (List.mem_cons_of_mem _ hq)) (represents_union hres hrep)
    refine ⟨r, ?_, ?_⟩
    · simp only [List.map_cons, entryLoop]
      rw [hK, lookupEntryCall_entryCalls _ _ _ hk, lookup_of_mem hnd hp, hrp]
      exact hr
    · obtain ⟨k, v⟩ := p
      simpa [leavesProps, entriesOf, List.append_assoc] using hrr

theorem flatOk_obj {ps : List (String × Json)} (ih : ∀ p ∈ ps, FlatOk p.2) : FlatOk (obj ps) := by
  intro pre sep hj hn hsep
  obtain ⟨r, hr, hrr⟩ := entryLoop_spec hj pre sep ih hn hsep ps (obj []) []
    (fun p hp => hp) represents_empty
  refine ⟨r, ?_, by simpa [leavesFrom] using hrr⟩
  have hkeys : forInKeys (_changeValuesToTreeConvention (obj ps) (joinPath pre) sep) =
      ps.map Prod.fst := by
    rw [tree_obj_eq hj]
    simp [forInKeys, keys, props, List.map_map, Function.comp]
  simp only [_createKeyValueObject]
  rw [hkeys]
  exact hr

/-- Every tree without a `null` leaf projects to the entries of its leaves. -/
theorem flatOk_all : ∀ v : Json, FlatOk v := by
  intro v
  induction v using induction_aux with
  | hu => exact flatOk_leaf rfl
  | hn => exact flatOk_leaf rfl
  | hb b => exact flatOk_leaf rfl
  | hnum n => exact flatOk_leaf rfl
  | hs s => exact flatOk_leaf rfl
  | ho ps ih => exact flatOk_obj ih
  | ha n ps _ => exact flatOk_leaf rfl

theorem entriesOf_named {ls : List (List String × Json)}
    (h : ∀ l ∈ ls, joinPath l.1 ≠ "" ∨ isString l.2 = true) :
    entriesOf ls = ls.map fun l => (joinPath l.1, str (valueText l.2)) := by
  unfold entriesOf
  apply List.map_congr_left
  intro l hl
  have : entryKey (joinPath l.1) l.2 = joinPath l.1 := by
    unfold entryKey
    rcases h l hl with h1 | h1
    · simp [h1]
    · simp [h1]
  rw [this]

theorem lookup_reverse_entries (pre post : List (List String × Json)) (l : List String × Json)
    (h : ∀ l' ∈ post, joinPath l'.1 ≠ joinPath l.1) :
    lookup ((pre ++ l :: post).map fun l => (joinPath l.1, str (valueText l.2))).reverse
        (joinPath l.1) = str (valueText l.2) := by
  have : ((pre ++ l :: post).map fun l => (joinPath l.1, str (valueText l.2))).reverse =
      (post.map fun l => (joinPath l.1, str (valueText l.2))).reverse ++
        ((joinPath l.1, str (valueText l.2)) ::
          (pre.map fun l => (joinPath l.1, str (valueText l.2))).reverse) := by
    simp
  rw [this, lookup_append]
  have hk : hasKey (post.map fun l => (joinPath l.1, str (valueText l.2))).reverse
      (joinPath l.1) = false := by
    rw [hasKey_reverse, hasKey_eq_false]
    intro hm
    simp only [List.map_map, List.mem_map, Function.comp] at hm
    obtain ⟨l', hl', e⟩ := hm
    exact h l' hl' e
  rw [hk]
  simp [lookup]

end Json

namespace Json

/-! ### Path trees and their unions -/

theorem isPathTreeProps_iff {ps : List (String × Json)} :
    isPathTreeProps ps = true ↔ ∀ p ∈ ps, PathTree p.2 := by
  induction ps with
  | nil => simp [isPathTreeProps]
  | cons p ps ih =>
    obtain ⟨k, v⟩ := p
    simp only [isPathTreeProps, Bool.and_eq_true, ih, List.mem_cons, forall_eq_or_imp, PathTree]

theorem pathTree_obj {ps : List (String × Json)} :
    PathTree (obj ps) ↔ (ps.map Prod.fst).Nodup ∧ ∀ p ∈ ps, PathTree p.2 := by
  simp only [PathTree, isPathTree, Bool.and_eq_true, decide_eq_true_eq, isPathTreeProps_iff]

theorem PathTree.cases {a : Json} (h : PathTree a) :
    a.isPlainObject = true ∨ (a.isObject = false ∧ a.isUndefined = false) := by
  cases a <;> simp [PathTree, isPathTree] at h <;> simp [isPlainObject, isObject, isUndefined]

theorem PathTree.is_defined {a : Json} (h : PathTree a) : a.isUndefined = false := by
  cases a <;> simp [PathTree, isPathTree] at h <;> rfl

theorem PathTree.props_nodup {a : Json} (h : PathTree a) : (a.props.map Prod.fst).Nodup := by
  cases a with
  | obj ps => exact (pathTree_obj.1 h).1
  | arr n ps => simp [PathTree, isPathTree] at h
  | _ => simp [props]

theorem PathTree.props_pathTree {a : Json} (h : PathTree a) : ∀ p ∈ a.props, PathTree p.2 := by
  cases a with
  | obj ps => exact (pathTree_obj.1 h).2
  | arr n ps => simp [PathTree, isPathTree] at h
  | _ => simp [props]

theorem PathTree.isObject_iff {a : Json} (h : PathTree a) :
    a.isObject = a.isPlainObject := by
  cases a <;> simp [PathTree, isPathTree] at h <;> rfl

theorem isJson_of_pathTree : ∀ a : Json, PathTree a → IsJson a := by
  intro a
  induction a using induction_aux with
  | ho ps ih =>
    intro h
    exact isJson_obj.2 ⟨(pathTree_obj.1 h).1, fun p hp => ih p hp ((pathTree_obj.1 h).2 p hp)⟩
  | hn => intro _; rfl
  | hs s => intro _; rfl
  | hu => intro h; simp [PathTree, isPathTree] at h
  | hb b => intro h; simp [PathTree, isPathTree] at h
  | hnum n => intro h; simp [PathTree, isPathTree] at h
  | ha n ps _ => intro h; simp [PathTree, isPathTree] at h

theorem PathTree.get_pathTree {a : Json} (h : PathTree a) {k : String}
    (hk : (get a k).isUndefined = false) : PathTree (get a k) :=
  h.props_pathTree _ (lookup_mem (mem_keys_of_get hk))

theorem pathTree_descriptor (path fmt : String) :
    PathTree (obj [("__name", str path), ("__format", str fmt)]) := by
  refine pathTree_obj.2 ⟨by simp, ?_⟩
  intro p hp
  simp only [List.mem_cons, List.mem_singleton, List.not_mem_nil, or_false] at hp
  rcases hp with rfl | rfl <;> rfl

/-- The path tree of a tree with holes is made of objects, strings and `null`. -/
theorem pathTree_tree : ∀ d : Json, IsTree d → ∀ path sep : String,
    PathTree (_changeValuesToTreeConvention d path sep) := by
  intro d
  induction d using induction_aux with
  | hu => intro h; exact absurd h not_isTree_undefined
  | hn => intro _ _ _; rfl
  | hb b => intro _ path _; exact pathTree_descriptor path _
  | hnum n => intro _ path _; exact pathTree_descriptor path _
  | hs s => intro _ _ _; rfl
  | ha n ps _ => intro _ path _; exact pathTree_descriptor path _
  | ho ps ih =>
    intro h path sep
    rw [tree_obj_eq h]
    refine pathTree_obj.2 ⟨?_, ?_⟩
    · rw [List.map_map]; exact (isTree_obj.1 h).1
    · intro q hq
      obtain ⟨p, hp, rfl⟩ := List.mem_map.1 hq
      exact ih p hp ((isTree_obj.1 h).2 p hp) _ _

theorem union_eq_of_pathTree {a b : Json} (ha : PathTree a) (hao : a.isObject = true)
    (hbo : b.isObject = true) : _union a b = unionLoop a a b.props := by
  rw [union_obj_eq a b hao hbo, clone_of_isJson a (isJson_of_pathTree a ha)]

theorem pathTree_union_obj {b : Json}
    (ih : ∀ p ∈ b.props, ∀ a, PathTree a → PathTree p.2 → PathTree (_union a p.2))
    (a : Json) (ha : PathTree a) (hb : PathTree b) : PathTree (_union a b) := by
  by_cases ho : a.isObject = true ∧ b.isObject = true
  · rw [union_eq_of_pathTree ha ho.1 ho.2]
    obtain ⟨_, u2, u3, u4, u5⟩ := unionLoop_spec a b.props a hb.props_nodup ho.1 ha.props_nodup
    have hp := u2 (by rw [← ha.isObject_iff]; exact ho.1)
    cases hu : unionLoop a a b.props with
    | obj ups =>
      rw [hu] at u3 u4 u5
      refine pathTree_obj.2 ⟨u3, ?_⟩
      intro q hq
      have e : get (obj ups) q.1 = q.2 := lookup_of_mem u3 hq
      rw [← e, u5, unionAt]
      by_cases hk : hasKey b.props q.1 = true
      · have hm := lookup_mem (hasKey_iff.1 hk)
        rw [if_pos hk]
        split
        · exact hb.props_pathTree _ hm
        · rename_i hau
          have hau' : (get a q.1).isUndefined = false := by simpa using hau
          exact ih _ hm _ (ha.get_pathTree hau') (hb.props_pathTree _ hm)
      · rw [if_neg hk]
        have hqk : q.1 ∈ (obj ups).props.map Prod.fst := List.mem_map.2 ⟨q, hq, rfl⟩
        rcases (u4 q.1).1 hqk with h | h
        · exact ha.props_pathTree _ (lookup_mem h)
        · exact absurd (hasKey_iff.2 h) hk
    | _ => rw [hu] at hp; cases hp
  · rw [union_prim_eq a b (not_both_objects ho)]
    unfold handleConflict
    split
    · exact ha
    · exact hb

/-- The union of two path trees is a path tree. -/
theorem pathTree_union : ∀ (b a : Json), PathTree a → PathTree b → PathTree (_union a b) := by
  intro b
  induction b using induction_aux with
  | hu => exact pathTree_union_obj (b := undefined) (by simp [props])
  | hn => exact pathTree_union_obj (b := null) (by simp [props])
  | hb x => exact pathTree_union_obj (b := bool x) (by simp [props])
  | hnum n => exact pathTree_union_obj (b := num n) (by simp [props])
  | hs s => exact pathTree_union_obj (b := str s) (by simp [props])
  | ho ps ih => exact pathTree_union_obj (b := obj ps) ih
  | ha n ps ih => exact pathTree_union_obj (b := arr n ps) ih

theorem mergeAt_undefined_right (x : Json) : mergeAt x undefined = x := rfl

theorem mergeAt_undefined_left (y : Json) : mergeAt undefined y = y := by
  unfold mergeAt
  split
  · rename_i h; exact (undefined_of_isUndefined h).symm
  · rfl

theorem mergeAt_defined {x y : Json} (hx : x.isUndefined = false) (hy : y.isUndefined = false) :
    mergeAt x y = _union x y := by
  simp [mergeAt, hx, hy]

/-- Along any key path, the union of two path trees holds the union of what
the two trees hold there. -/
theorem getPath_union : ∀ (p : List String) (a b : Json), PathTree a → PathTree b →
    getPath (_union a b) p = mergeAt (getPath a p) (getPath b p)
  | [], a, b, ha, hb => by
    simp only [getPath, List.foldl_nil]
    rw [mergeAt_defined ha.is_defined hb.is_defined]
  | k :: q, a, b, ha, hb => by
    by_cases ho : a.isObject = true ∧ b.isObject = true
    · rw [union_eq_of_pathTree ha ho.1 ho.2]
      obtain ⟨_, _, _, _, u5⟩ := unionLoop_spec a b.props a hb.props_nodup ho.1 ha.props_nodup
      rw [getPath_cons, u5, unionAt, getPath_cons a, getPath_cons b]
      by_cases hk : hasKey b.props k = true
      · have hbk : PathTree (get b k) := hb.props_pathTree _ (lookup_mem (hasKey_iff.1 hk))
        rw [if_pos hk]
        split
        · rename_i hau
          rw [undefined_of_isUndefined hau, getPath_undefined, mergeAt_undefined_left]
          rfl
        · rename_i hau
          have hau' : (get a k).isUndefined = false := by simpa using hau
          exact getPath_union q (get a k) (get b k) (ha.get_pathTree hau') hbk
      · rw [if_neg hk]
        have : get b k = undefined := lookup_of_not_mem (hasKey_eq_false.1 (by simpa using hk))
        rw [this, getPath_undefined, mergeAt_undefined_right]
    · rw [union_prim_eq a b (not_both_objects ho)]
      unfold handleConflict
      split
      · rename_i hao
        have hbo : b.isObject = false := by
          rcases not_both_objects ho with h | h
          · rw [hao] at h; cases h
          · exact h
        rw [getPath_cons_of_not_isObject hbo, mergeAt_undefined_right]
      · rename_i hao
        have hao' : a.isObject = false := by simpa using hao
        rw [getPath_cons_of_not_isObject hao', mergeAt_undefined_left]

end Json

namespace Json

/-! ### The merged path tree along one key path -/

theorem tree_leaf_sep {v : Json} (h : v.isPlainObject = false) (path sep sep' : String) :
    _changeValuesToTreeConvention v path sep = _changeValuesToTreeConvention v path sep' := by
  cases v <;> first | rfl | cases h

theorem lookup_map_values (f : String → Json → Json) (ps : List (String × Json)) (k : String)
    (h : k ∈ ps.map Prod.fst) :
    lookup (ps.map fun p => (p.1, f p.1 p.2)) k = f k (lookup ps k) := by
  induction ps with
  | nil => cases h
  | cons p ps ih =>
    obtain ⟨k₀, v₀⟩ := p
    simp only [List.map_cons, lookup]
    by_cases e : k₀ = k
    · subst e; simp
    · simp only [if_neg e]
      simp only [List.map_cons, List.mem_cons] at h
      rcases h with h | h
      · exact absurd h.symm e
      · exact ih h

theorem leafValue_undefined (q : List String) : leafValue undefined q = none := by
  cases q <;> rfl

theorem leafValue_nil_eq (d : Json) :
    leafValue d [] = if d.isPlainObject || d.isUndefined then none else some d := by
  cases d <;> rfl

theorem leafValue_nil {d v : Json} (h : leafValue d [] = some v) :
    d = v ∧ v.isPlainObject = false ∧ v.isUndefined = false := by
  rw [leafValue_nil_eq] at h
  by_cases hc : (d.isPlainObject || d.isUndefined) = true
  · rw [if_pos hc] at h; cases h
  · rw [if_neg hc] at h
    cases h
    simp only [Bool.or_eq_true, not_or, Bool.not_eq_true] at hc
    exact ⟨rfl, hc.1, hc.2⟩

theorem leafValue_cons {d v : Json} {k : String} {q : List String}
    (h : leafValue d (k :: q) = some v) :
    ∃ ps, d = obj ps ∧ k ∈ ps.map Prod.fst ∧ leafValue (lookup ps k) q = some v := by
  cases d with
  | obj ps =>
    refine ⟨ps, rfl, ?_, h⟩
    by_contra hk
    have h' : leafValue (lookup ps k) q = some v := h
    rw [lookup_of_not_mem hk, leafValue_undefined] at h'
    cases h'
  | _ => cases h

/-- The path tree holds, at the key path of a leaf, the descriptor of that leaf. -/
theorem getPath_tree_leaf {v : Json} :
    ∀ (p : List String) (d : Json) (pre : List String) (sep : String), IsTree d →
      (∀ k, joinPath pre ++ sep ++ k = joinPath (pre ++ [k])) → leafValue d p = some v →
      getPath (_changeValuesToTreeConvention d (joinPath pre) sep) p =
        _changeValuesToTreeConvention v (joinPath (pre ++ p)) "_"
  | [], d, pre, sep, _, _, h => by
    obtain ⟨rfl, hp, _⟩ := leafValue_nil h
    rw [List.append_nil]
    exact tree_leaf_sep hp _ _ _
  | k :: q, d, pre, sep, hd, hsep, h => by
    obtain ⟨ps, rfl, hk, hq⟩ := leafValue_cons h
    rw [tree_obj_eq hd, getPath_cons]
    have hl : get (obj (ps.map fun p =>
        (p.1, _changeValuesToTreeConvention p.2 (joinPath pre ++ sep ++ p.1) "_"))) k =
        _changeValuesToTreeConvention (lookup ps k) (joinPath pre ++ sep ++ k) "_" :=
      lookup_map_values (fun k v => _changeValuesToTreeConvention v (joinPath pre ++ sep ++ k) "_")
        ps k hk
    rw [hl, hsep]
    have := getPath_tree_leaf q (lookup ps k) (pre ++ [k]) "_"
      ((isTree_obj.1 hd).2 _ (lookup_mem hk)) (fun k' => joinPath_snoc (by simp) k') hq
    rw [this, List.append_assoc]
    rfl

theorem leafDescriptor_of_leaf {v : Json} (hp : v.isPlainObject = false)
    (hu : v.isUndefined = false) (name sep : String) :
    LeafDescriptor name (_changeValuesToTreeConvention v name sep) := by
  cases v with
  | undefined => cases hu
  | obj ps => cases hp
  | null => exact Or.inr (Or.inl rfl)
  | str s => exact Or.inl rfl
  | bool b => exact Or.inr (Or.inr ⟨_, rfl⟩)
  | num n => exact Or.inr (Or.inr ⟨_, rfl⟩)
  | arr n ps => exact Or.inr (Or.inr ⟨_, rfl⟩)

theorem leafValue_spec {d v : Json} : ∀ {p : List String}, leafValue d p = some v →
    v.isPlainObject = false ∧ v.isUndefined = false := by
  intro p
  induction p generalizing d with
  | nil => intro h; exact (leafValue_nil h).2
  | cons k q ih =>
    intro h
    obtain ⟨ps, _, _, hq⟩ := leafValue_cons h
    exact ih hq

theorem mem_leafDescriptors {trees : List Json} {p : List String} {d : Json}
    (h : d ∈ leafDescriptors trees p) : LeafDescriptor (joinPath p) d := by
  simp only [leafDescriptors, List.mem_filterMap, Option.map_eq_some'] at h
  obtain ⟨t, _, v, hv, rfl⟩ := h
  obtain ⟨h1, h2⟩ := leafValue_spec hv
  exact leafDescriptor_of_leaf h1 h2 _ _

theorem union_descriptors (name f f' : String) :
    _union (obj [("__name", str name), ("__format", str f)])
        (obj [("__name", str name), ("__format", str f')]) =
      obj [("__name", str name), ("__format", str f')] := by
  simp [_union, unionLoop, keyPresent, isObject, clone, cloneProps, get, props, lookup, isUndefined, set,
    setProps, hasKey, replaceProp, handleConflict]

theorem LeafDescriptor.descriptor_defined {name : String} {d : Json} (h : LeafDescriptor name d) :
    d.isUndefined = false := by
  rcases h with rfl | rfl | ⟨f, rfl⟩ <;> rfl

/-- Merging a later leaf descriptor into an earlier one of the same name. -/
theorem mergeAt_leafDescriptors {name : String} {w d : Json} (hw : LeafDescriptor name w)
    (hd : LeafDescriptor name d) :
    mergeAt w d = if d.isObject || !w.isObject then d else w := by
  rw [mergeAt_defined hw.descriptor_defined hd.descriptor_defined]
  rcases hw with rfl | rfl | ⟨f, rfl⟩ <;> rcases hd with rfl | rfl | ⟨f', rfl⟩ <;>
    first
    | exact union_descriptors _ _ _
    | simp [_union, handleConflict, isObject]

theorem prevailing_snoc (ds : List Json) (d : Json) :
    prevailing (ds ++ [d]) =
      if d.isObject then d
      else match (ds.filter isObject).getLast? with
        | some o => o
        | none => d := by
  unfold prevailing
  by_cases hd : d.isObject = true
  · simp [List.filter_append, hd, List.getLast?_append]
  · have hd' : d.isObject = false := by simpa using hd
    simp [List.filter_append, hd', List.getLast?_append]

theorem prevailing_cases (ds : List Json) :
    (ds = [] ∧ prevailing ds = undefined) ∨
      (prevailing ds ∈ ds ∧
        ((prevailing ds).isObject = true ∧
            (ds.filter isObject).getLast? = some (prevailing ds) ∨
          (prevailing ds).isObject = false ∧ (ds.filter isObject).getLast? = none)) := by
  unfold prevailing
  cases h : (ds.filter isObject).getLast? with
  | some o =>
    right
    have hm : o ∈ ds.filter isObject := List.mem_of_getLast?_eq_some h
    have := List.mem_filter.1 hm
    exact ⟨this.1, Or.inl ⟨this.2, rfl⟩⟩
  | none =>
    have hf : ds.filter isObject = [] := List.getLast?_eq_none_iff.1 h
    cases hl : ds.getLast? with
    | none =>
      left
      exact ⟨List.getLast?_eq_none_iff.1 hl, rfl⟩
    | some x =>
      right
      have hm : x ∈ ds := List.mem_of_getLast?_eq_some hl
      refine ⟨hm, Or.inr ⟨?_, rfl⟩⟩
      have := List.filter_eq_nil_iff.1 hf x hm
      simpa using this

/-- Folding `_union` over the descriptors of one leaf name leaves the prevailing one. -/
theorem foldl_mergeAt_leafDescriptors (name : String) (ds : List Json)
    (h : ∀ d ∈ ds, LeafDescriptor name d) : ds.foldl mergeAt undefined = prevailing ds := by
  induction ds using List.reverseRecOn with
  | nil => rfl
  | append_singleton ds d ih =>
    have hds : ∀ x ∈ ds, LeafDescriptor name x := fun x hx => h x (List.mem_append_left _ hx)
    have hd : LeafDescriptor name d := h d (List.mem_append_right _ (List.mem_singleton.2 rfl))
    rw [List.foldl_append, List.foldl_cons, List.foldl_nil, ih hds, prevailing_snoc]
    rcases prevailing_cases ds with ⟨_, hw⟩ | ⟨hm, hc⟩
    · rw [hw, mergeAt_undefined_left]
      subst ds
      by_cases hdo : d.isObject = true <;> simp [hdo]
    · rw [mergeAt_leafDescriptors (hds _ hm) hd]
      rcases hc with ⟨ho, hl⟩ | ⟨ho, hl⟩
      · rw [hl, ho]
        by_cases hdo : d.isObject = true <;> simp [hdo]
      · rw [hl, ho]
        by_cases hdo : d.isObject = true <;> simp [hdo]

theorem mem_overrides_cons {ignore : List String} {newDefault : Json} {f : File}
    {rest : List File} {d : Json} (h : d ∈ overrides ignore newDefault rest) :
    d ∈ overrides ignore newDefault (f :: rest) := by
  simp only [overrides, List.mem_map, List.mem_filter] at h ⊢
  obtain ⟨g, ⟨hg, hi⟩, e⟩ := h
  exact ⟨g, ⟨List.mem_cons_of_mem _ hg, hi⟩, e⟩

theorem overrides_cons_ignored {ignore : List String} (newDefault : Json) {f : File}
    (rest : List File) (h : ignore.contains f.filename = true) :
    overrides ignore newDefault (f :: rest) = overrides ignore newDefault rest := by
  unfold overrides
  rw [List.filter_cons]
  simp only [h, Bool.not_true, Bool.false_eq_true, if_false]

theorem overrides_cons_kept {ignore : List String} (newDefault : Json) {f : File}
    (rest : List File) (h : ignore.contains f.filename = false) :
    overrides ignore newDefault (f :: rest) =
      _different f.contents newDefault :: overrides ignore newDefault rest := by
  unfold overrides
  rw [List.filter_cons]
  simp only [h, Bool.not_false, if_true, List.map_cons]

theorem customLoop_spec (ignore : List String) (newDefault : Json) (hnd : IsJson newDefault)
    (p : List String) :
    ∀ (files : List File) (acc : Json), (∀ f ∈ files, IsJson f.contents) →
      (∀ d ∈ overrides ignore newDefault files, ∀ l ∈ leaves d, l.2.isNull = false) →
      PathTree acc →
      ∃ merged, customLoop ignore newDefault acc files = .ok merged ∧ PathTree merged ∧
        getPath merged p =
          (overrides ignore newDefault files).foldl
            (fun x d => mergeAt x (getPath (_changeValuesToTreeConvention d "" "") p))
            (getPath acc p)
  | [], acc, _, _, hacc => ⟨acc, rfl, hacc, rfl⟩
  | f :: rest, acc, hj, hnull, hacc => by
    have hrest : ∀ g ∈ rest, IsJson g.contents := fun g hg => hj g (List.mem_cons_of_mem _ hg)
    have hnrest : ∀ d ∈ overrides ignore newDefault rest, ∀ l ∈ leaves d, l.2.isNull = false :=
      fun d hd => hnull d (mem_overrides_cons hd)
    by_cases hi : ignore.contains f.filename = true
    · obtain ⟨m, hm, hp, hg⟩ := customLoop_spec ignore newDefault hnd p rest acc hrest hnrest hacc
      refine ⟨m, ?_, hp, ?_⟩
      · simp only [customLoop, hi, Bool.not_true, Bool.false_eq_true, if_false]
        exact hm
      · rw [hg, overrides_cons_ignored newDefault rest hi]
    · have hi' : ignore.contains f.filename = false := by simpa using hi
      have hmem : _different f.contents newDefault ∈ overrides ignore newDefault (f :: rest) := by
        rw [overrides_cons_kept newDefault rest hi']
        exact List.mem_cons_self _ _
      have hD : IsTree (_different f.contents newDefault) :=
        isTree_different _ _ (hj f (List.mem_cons_self _ _)) hnd
      have ht : PathTree (_changeValuesToTreeConvention (_different f.contents newDefault) "" "") :=
        pathTree_tree _ hD _ _
      obtain ⟨kv, hkv, _⟩ := flatOk_all (_different f.contents newDefault) [] "" hD
        (hnull _ hmem) (fun k => by
          rw [List.nil_append, joinPath_single]
          show "" ++ "" ++ k = k
          simp)
      have hkv' : _createKeyValueObject (_different f.contents newDefault)
          (_changeValuesToTreeConvention (_different f.contents newDefault) "" "") = .ok kv := hkv
      obtain ⟨m, hm, hp, hg⟩ := customLoop_spec ignore newDefault hnd p rest _ hrest hnrest
        (pathTree_union _ _ hacc ht)
      refine ⟨m, ?_, hp, ?_⟩
      · simp only [customLoop, hi', Bool.not_false, if_true, hkv']
        exact hm
      · rw [hg, getPath_union p _ _ hacc ht, overrides_cons_kept newDefault rest hi']
        rfl

theorem foldl_mergeAt_overrides (p : List String) :
    ∀ (trees : List Json) (x : Json), (∀ d ∈ trees, IsTree d) →
      (∀ d ∈ trees, (leafValue d p).isSome = true ∨
        getPath (_changeValuesToTreeConvention d "" "") p = undefined) →
      trees.foldl (fun x d => mergeAt x (getPath (_changeValuesToTreeConvention d "" "") p)) x =
        (leafDescriptors trees p).foldl mergeAt x
  | [], _, _, _ => rfl
  | d :: rest, x, ht, h => by
    have ih := fun y => foldl_mergeAt_overrides p rest y
      (fun e he => ht e (List.mem_cons_of_mem _ he)) (fun e he => h e (List.mem_cons_of_mem _ he))
    simp only [List.foldl_cons, leafDescriptors, List.filterMap_cons]
    cases hv : leafValue d p with
    | some v =>
      have := getPath_tree_leaf p d [] "" (ht d (List.mem_cons_self _ _))
        (fun k => by rw [List.nil_append, joinPath_single]; show "" ++ "" ++ k = k; simp) hv
      have e : joinPath [] = "" := rfl
      rw [e, List.nil_append] at this
      simp only [Option.map_some', List.foldl_cons]
      rw [this]
      exact ih _
    | none =>
      have hu : getPath (_changeValuesToTreeConvention d "" "") p = undefined := by
        rcases h d (List.mem_cons_self _ _) with h1 | h1
        · rw [hv] at h1; cases h1
        · exact h1
      simp only [Option.map_none']
      rw [hu, mergeAt_undefined_right]
      exact ih _

end Json

namespace Json

/-! ### Ignored files and the base -/

theorem sameKept_cons {ignore : List String} {f g : File} {fs gs : List File}
    (h : sameKept ignore (f :: fs) (g :: gs) = true) :
    f.filename = g.filename ∧ (ignore.contains f.filename = false → f.contents = g.contents) ∧
      sameKept ignore fs gs = true := by
  simp only [sameKept, Bool.and_eq_true, Bool.or_eq_true, decide_eq_true_eq] at h
  refine ⟨h.1.1, fun hi => ?_, h.2⟩
  rcases h.1.2 with hc | hc
  · rw [hi] at hc; cases hc
  · exact hc

theorem commonLoop_sameKept (ignore : List String) :
    ∀ (fs gs : List File) (res : Json), sameKept ignore fs gs = true →
      commonLoop ignore res fs = commonLoop ignore res gs
  | [], [], _, _ => rfl
  | [], _ :: _, _, h => by cases h
  | _ :: _, [], _, h => by cases h
  | f :: fs, g :: gs, res, h => by
    obtain ⟨hn, hc, hr⟩ := sameKept_cons h
    unfold commonLoop
    rw [← hn]
    cases hi : ignore.contains f.filename
    · rw [← hc hi]
      simp only [Bool.not_false, if_true]
      exact commonLoop_sameKept ignore fs gs _ hr
    · simp only [Bool.not_true, Bool.false_eq_true, if_false]
      exact commonLoop_sameKept ignore fs gs _ hr

/-- When the first file is not an ignored one, the base does not depend on
the contents of the ignored files. -/
theorem getCommonJson_sameKept (ignore : List String) (f g : File) (fs gs : List File)
    (h : sameKept ignore (f :: fs) (g :: gs) = true) (hf : ignore.contains f.filename = false) :
    _getCommonJson ignore (f :: fs) = _getCommonJson ignore (g :: gs) := by
  obtain ⟨_, hc, hr⟩ := sameKept_cons h
  show Except.ok (commonLoop ignore f.contents fs) = Except.ok (commonLoop ignore g.contents gs)
  rw [← hc hf, commonLoop_sameKept ignore fs gs _ hr]

end Json

namespace Json

/-! ### What a difference and an intersection contain -/

theorem noEmptyObjectProps_iff {ps : List (String × Json)} :
    noEmptyObjectProps ps = true ↔ ∀ p ∈ ps, noEmptyObject p.2 = true := by
  induction ps with
  | nil => simp [noEmptyObjectProps]
  | cons p ps ih =>
    obtain ⟨k, v⟩ := p
    simp only [noEmptyObjectProps, Bool.and_eq_true, ih, List.mem_cons, forall_eq_or_imp]

theorem noEmptyObject_members {a : Json} (h : noEmptyObject a = true) :
    ∀ p ∈ a.props, noEmptyObject p.2 = true := by
  cases a with
  | obj ps =>
    simp only [noEmptyObject, Bool.and_eq_true, noEmptyObjectProps_iff] at h
    exact h.2
  | arr n ps =>
    simp only [noEmptyObject, noEmptyObjectProps_iff] at h
    exact h
  | _ => simp [props]

theorem noEmptyObject_withProps {a : Json} (ha : a.isObject = true) {ps : List (String × Json)}
    (hne : ps ≠ []) (hm : ∀ p ∈ ps, noEmptyObject p.2 = true) :
    noEmptyObject (withProps a ps) = true := by
  cases a with
  | obj qs =>
    simp only [withProps, noEmptyObject, Bool.and_eq_true, Bool.not_eq_true',
      List.isEmpty_eq_false, noEmptyObjectProps_iff]
    exact ⟨hne, hm⟩
  | arr n qs =>
    simp only [withProps, noEmptyObject, noEmptyObjectProps_iff]
    exact hm
  | _ => cases ha

theorem noEmptyObject_different_obj {a : Json}
    (ih : ∀ p ∈ a.props, ∀ b, IsJson p.2 → IsJson b → noEmptyObject p.2 = true →
      noEmptyObject (_different p.2 b) = true)
    (b : Json) (ha : IsJson a) (hb : IsJson b) (hn : noEmptyObject a = true) :
    noEmptyObject (_different a b) = true := by
  by_cases ho : a.isObject = true ∧ b.isObject = true
  · rw [different_eq_of_isJson ha hb ho.1 ho.2]
    by_cases hne : updateProps (diffStep a b.props) a.props = []
    · rw [hne, collapse_withProps_nil ho.1]; rfl
    · rw [collapse_of_props_ne_nil (by rw [props_withProps ho.1]; exact hne)]
      apply noEmptyObject_withProps ho.1 hne
      intro q hq
      obtain ⟨p, hp, _, hr⟩ := mem_updateProps hq
      rw [diffStep_mem ha hp] at hr
      split at hr
      · rename_i hk
        split at hr
        · cases hr
        · rw [← Option.some.inj hr]
          exact ih p hp _ (ha.members p hp) (hb.get_isJson hk) (noEmptyObject_members hn p hp)
      · rw [← Option.some.inj hr]; exact noEmptyObject_members hn p hp
  · rw [different_prim_eq a b (not_both_objects ho)]
    split
    · rfl
    · exact hn

/-- A difference holds an empty object only where its first argument does. -/
theorem noEmptyObject_different : ∀ (a b : Json), IsJson a → IsJson b →
    noEmptyObject a = true → noEmptyObject (_different a b) = true := by
  intro a
  induction a using induction_aux with
  | hu => intro b h; exact absurd h not_isJson_undefined
  | hn => exact fun b => noEmptyObject_different_obj (a := null) (by simp [props]) b
  | hb x => exact fun b => noEmptyObject_different_obj (a := bool x) (by simp [props]) b
  | hnum n => exact fun b => noEmptyObject_different_obj (a := num n) (by simp [props]) b
  | hs s => exact fun b => noEmptyObject_different_obj (a := str s) (by simp [props]) b
  | ho ps ih => exact fun b => noEmptyObject_different_obj (a := obj ps) ih b
  | ha n ps ih => exact fun b => noEmptyObject_different_obj (a := arr n ps) ih b

theorem isSolid_withProps {a : Json} (ha : a.isObject = true) {ps : List (String × Json)}
    (hne : ps ≠ []) (hm : ∀ p ∈ ps, p.2.isNull = false ∧ isSolid p.2 = true) :
    isSolid (withProps a ps) = true := by
  cases a with
  | obj qs =>
    simp only [withProps, isSolid, Bool.and_eq_true, Bool.not_eq_true', List.isEmpty_eq_false,
      isSolidProps_iff]
    exact ⟨hne, hm⟩
  | arr n qs =>
    simp only [withProps, isSolid, Bool.and_eq_true, Bool.not_eq_true', List.isEmpty_eq_false,
      isSolidProps_iff]
    exact ⟨hne, hm⟩
  | _ => cases ha

theorem isSolid_of_not_isObject {a : Json} (h : a.isObject = false) : isSolid a = true := by
  cases a <;> first | rfl | cases h

theorem isSolid_intersectInherited {d : Json} (hj : IsJson d) (m : Inherited) :
    isSolid (intersectInherited d m) = true := by
  have hd := isTree_of_isJson d hj
  cases m with
  | absent => rfl
  | prototype => rfl
  | function name length =>
    by_cases hdo : d.isObject = true
    · rw [intersectInherited_function hd hdo, clone_of_isJson d hj]
      by_cases hne : updateProps (interStep (fun q => q == "length" || q == "name")
          (fun q x => if strictEq x (if q == "length" then num length else str name) then x
            else null) d.keys) d.props = []
      · rw [hne, collapse_withProps_nil hdo]; rfl
      · rw [collapse_of_props_ne_nil (by rw [props_withProps hdo]; exact hne)]
        apply isSolid_withProps hdo hne
        intro q hq
        obtain ⟨p, hp, e1, hr⟩ := mem_updateProps hq
        obtain ⟨e, hk⟩ := kept_of_function hr
        obtain ⟨h1, h2, _⟩ := hk (List.mem_map.2 ⟨p, hp, rfl⟩)
        rw [e]
        exact ⟨h2, isSolid_of_not_isObject h1⟩
    · rw [intersectInherited_of_not_isObject (by simpa using hdo)]; rfl

theorem isSolid_intersect_obj {a : Json}
    (ih : ∀ p ∈ a.props, ∀ b, IsJson p.2 → isSolid (_intersect p.2 b) = true)
    (b : Json) (ha : IsJson a) : isSolid (_intersect a b) = true := by
  by_cases ho : a.isObject = true ∧ b.isObject = true
  · rw [intersect_eq_of_isJson ha ho.1 ho.2]
    by_cases hne : updateProps (interStepOf b a.keys) a.props = []
    · rw [hne, collapse_withProps_nil ho.1]; rfl
    · rw [collapse_of_props_ne_nil (by rw [props_withProps ho.1]; exact hne)]
      apply isSolid_withProps ho.1 hne
      intro q hq
      obtain ⟨p, hp, _, hr⟩ := mem_updateProps hq
      have hk : p.1 ∈ a.keys := List.mem_map.2 ⟨p, hp, rfl⟩
      rcases interStepOf_some hr with ⟨hnk, _⟩ | ⟨_, hn, ⟨_, e⟩ | ⟨_, e⟩⟩
      · exact absurd hk hnk
      · refine ⟨hn, ?_⟩
        rw [e]
        exact ih p hp _ (ha.members p hp)
      · refine ⟨hn, ?_⟩
        rw [e]
        exact isSolid_intersectInherited (ha.members p hp) _
  · rw [intersect_prim_eq a b (not_both_objects ho)]
    split
    · rename_i he
      exact isSolid_of_not_isObject (strictEq_iff.1 he).2
    · rfl

/-- An intersection with a parsed document as its first argument holds no
empty object or array and no `null` member. -/
theorem isSolid_intersect : ∀ (a b : Json), IsJson a → isSolid (_intersect a b) = true := by
  intro a
  induction a using induction_aux with
  | hu => intro b h; exact absurd h not_isJson_undefined
  | hn => exact fun b => isSolid_intersect_obj (a := null) (by simp [props]) b
  | hb x => exact fun b => isSolid_intersect_obj (a := bool x) (by simp [props]) b
  | hnum n => exact fun b => isSolid_intersect_obj (a := num n) (by simp [props]) b
  | hs s => exact fun b => isSolid_intersect_obj (a := str s) (by simp [props]) b
  | ho ps ih => exact fun b => isSolid_intersect_obj (a := obj ps) ih b
  | ha n ps ih => exact fun b => isSolid_intersect_obj (a := arr n ps) ih b

/-- When one argument is neither an object nor an array, `_intersect` compares
the two arguments whole. -/
theorem intersect_of_not_both_objects {a b : Json}
    (h : a.isObject = false ∨ b.isObject = false) :
    _intersect a b = if a = b then a else null := by
  rw [intersect_prim_eq a b h]
  by_cases he : strictEq a b = true
  · rw [if_pos he, if_pos (strictEq_iff.1 he).1]
  · rw [if_neg he]
    by_cases hab : a = b
    · subst hab
      have hao : a.isObject = false := by rcases h with h | h <;> exact h
      exact absurd (strictEq_iff.2 ⟨rfl, hao⟩) he
    · rw [if_neg hab]

end Json

namespace Json

/-! ### The keys of a difference -/

theorem isNull_iff {a : Json} : a.isNull = true ↔ a = null :=
  ⟨null_of_isNull, fun h => by rw [h]; rfl⟩

theorem different_eq_loop {a b : Json} (ha : IsJson a) (hb : IsJson b)
    (hao : a.isObject = true) (hbo : b.isObject = true) (hd : _different a b ≠ null) :
    _different a b = withProps a (updateProps (diffStep a b.props) a.props) := by
  have e := different_eq_of_isJson ha hb hao hbo
  rcases collapse_cases (withProps a (updateProps (diffStep a b.props) a.props)) with h | h
  · rw [h] at e; exact absurd e hd
  · rw [h] at e; exact e

theorem diffStep_key {a b : Json} (ha : IsJson a) {k : String} (hk : k ∈ a.keys) :
    diffStep a b.props k (get a k) =
      if hasKey b.props k then
        (if (_different (get a k) (get b k)).isNull then none
          else some (_different (get a k) (get b k)))
      else some (get a k) :=
  diffStep_mem ha (lookup_mem hk)

/-- The keys and values of a difference of two objects that is not Absent. -/
theorem different_keys {a b : Json} (ha : IsJson a) (hb : IsJson b)
    (hao : a.isObject = true) (hbo : b.isObject = true) (hd : _different a b ≠ null) :
    (∀ k, k ∈ a.keys → k ∉ b.keys →
        k ∈ (_different a b).keys ∧ get (_different a b) k = get a k) ∧
      (∀ k, k ∈ a.keys → k ∈ b.keys →
        (k ∈ (_different a b).keys ↔ _different (get a k) (get b k) ≠ null) ∧
          (k ∈ (_different a b).keys →
            get (_different a b) k = _different (get a k) (get b k))) ∧
      ∀ k, k ∈ (_different a b).keys → k ∈ a.keys := by
  rw [different_eq_loop ha hb hao hbo hd]
  have hkeys : ∀ k, k ∈ (withProps a (updateProps (diffStep a b.props) a.props)).keys ↔
      k ∈ a.keys ∧ (diffStep a b.props k (get a k)).isSome = true := by
    intro k
    unfold keys
    rw [props_withProps hao]
    exact mem_keys_updateProps _ ha.nodup_keys k
  have hget : ∀ k, k ∈ a.keys →
      get (withProps a (updateProps (diffStep a b.props) a.props)) k =
        (diffStep a b.props k (get a k)).getD undefined := by
    intro k hk
    have hk' : k ∈ a.props.map Prod.fst := hk
    rw [get_withProps hao, lookup_updateProps _ ha.nodup_keys, if_pos hk']
    rfl
  refine ⟨?_, ?_, ?_⟩
  · intro k hk hkb
    have e : diffStep a b.props k (get a k) = some (get a k) := by
      rw [diffStep_key ha hk, hasKey_eq_false.2 hkb]; rfl
    refine ⟨(hkeys k).2 ⟨hk, by rw [e]; rfl⟩, ?_⟩
    rw [hget k hk, e]; rfl
  · intro k hk hkb
    have e := diffStep_key (b := b) ha hk
    rw [hasKey_iff.2 hkb, if_pos rfl] at e
    by_cases hz : (_different (get a k) (get b k)).isNull = true
    · rw [if_pos hz] at e
      have hnot : k ∉ (withProps a (updateProps (diffStep a b.props) a.props)).keys := by
        intro hm
        have := ((hkeys k).1 hm).2
        rw [e] at this
        cases this
      exact ⟨⟨fun hm => absurd hm hnot, fun hne => absurd (isNull_iff.1 hz) hne⟩,
        fun hm => absurd hm hnot⟩
    · rw [if_neg hz] at e
      refine ⟨⟨fun _ hn => hz (isNull_iff.2 hn), fun _ => (hkeys k).2 ⟨hk, by rw [e]; rfl⟩⟩, ?_⟩
      intro _
      rw [hget k hk, e]; rfl
  · intro k hk
    exact ((hkeys k).1 hk).1

end Json

namespace Json

/-! ### The names of the path tree -/

theorem objectAt_undefined (q : List String) : objectAt undefined q = none := by
  cases q <;> rfl

theorem objectAt_cons {d : Json} {k : String} {q : List String} {ps : List (String × Json)}
    (h : objectAt d (k :: q) = some ps) :
    ∃ ps', d = obj ps' ∧ k ∈ ps'.map Prod.fst ∧ objectAt (lookup ps' k) q = some ps := by
  cases d with
  | obj ps' =>
    refine ⟨ps', rfl, ?_, h⟩
    by_contra hk
    have h' : objectAt (lookup ps' k) q = some ps := h
    rw [lookup_of_not_mem hk, objectAt_undefined] at h'
    cases h'
  | _ => cases h

/-- The path tree holds, at the key path of a plain object, a plain object
with the same keys. -/
theorem getPath_tree_object {ps : List (String × Json)} :
    ∀ (p : List String) (d : Json) (path sep : String), IsTree d → objectAt d p = some ps →
      ∃ qs, getPath (_changeValuesToTreeConvention d path sep) p = obj qs ∧
        qs.map Prod.fst = ps.map Prod.fst
  | [], d, path, sep, hd, h => by
    cases d with
    | obj ps' =>
      have e : ps' = ps := Option.some.inj h
      subst e
      refine ⟨_, tree_obj_eq hd path sep, ?_⟩
      rw [List.map_map]
      rfl
    | _ => cases h
  | k :: q, d, path, sep, hd, h => by
    obtain ⟨ps', rfl, hk, hq⟩ := objectAt_cons h
    rw [tree_obj_eq hd, getPath_cons]
    have hl : get (obj (ps'.map fun p =>
        (p.1, _changeValuesToTreeConvention p.2 (path ++ sep ++ p.1) "_"))) k =
        _changeValuesToTreeConvention (lookup ps' k) (path ++ sep ++ k) "_" :=
      lookup_map_values (fun k v => _changeValuesToTreeConvention v (path ++ sep ++ k) "_")
        ps' k hk
    rw [hl]
    exact getPath_tree_object q (lookup ps' k) _ "_" ((isTree_obj.1 hd).2 _ (lookup_mem hk)) hq

/-- The descriptor of a leaf that is not `null`: the bare name for a string, an
object with the name and the format otherwise. -/
theorem tree_leaf_eq {v : Json} (hp : v.isPlainObject = false) (hu : v.isUndefined = false)
    (hn : v.isNull = false) (name sep : String) :
    _changeValuesToTreeConvention v name sep =
      if isString v then str name
      else obj [("__name", str name), ("__format", str (if v.isArray then "json" else typeOf v))] := by
  cases v with
  | undefined => cases hu
  | obj ps => cases hp
  | null => cases hn
  | str s => rfl
  | bool b => rfl
  | num n => rfl
  | arr n ps => rfl

/-! ### Names of underscore-free key paths -/

theorem append_sep_inj {α : Type} {c : α} :
    ∀ {l l' s s' : List α}, c ∉ s → c ∉ s' → l ++ c :: s = l' ++ c :: s' → l = l' ∧ s = s'
  | [], [], _, _, _, _, h => ⟨rfl, by simpa using h⟩
  | [], x :: t, s, s', hs, _, h => by
    simp only [List.nil_append, List.cons_append, List.cons.injEq] at h
    exact absurd (by rw [h.2]; simp) hs
  | x :: t, [], s, s', _, hs', h => by
    simp only [List.nil_append, List.cons_append, List.cons.injEq] at h
    exact absurd (by rw [← h.2]; simp) hs'
  | x :: t, y :: t', s, s', hs, hs', h => by
    simp only [List.cons_append, List.cons.injEq] at h
    obtain ⟨e1, e2⟩ := append_sep_inj hs hs' h.2
    exact ⟨by rw [h.1, e1], e2⟩

theorem noUnderscore_iff {k : String} : noUnderscore k = true ↔ Char.ofNat 95 ∉ k.data := by
  unfold noUnderscore
  rw [List.all_eq_true]
  constructor
  · intro h hm
    have := h _ hm
    simp at this
  · intro h c hc
    simp only [bne_iff_ne, ne_eq]
    rintro rfl
    exact h hc

theorem joinPath_data_snoc {pre : List String} (h : pre ≠ []) (k : String) :
    (joinPath (pre ++ [k])).data = (joinPath pre).data ++ Char.ofNat 95 :: k.data := by
  rw [← joinPath_snoc h k]
  simp only [String.data_append]
  rw [List.append_assoc]
  rfl

/-- Underscore-free keys can be read back from the joined name. -/
theorem joinPath_injective : ∀ (p q : List String), p ≠ [] → q ≠ [] →
    (∀ k ∈ p, noUnderscore k = true) → (∀ k ∈ q, noUnderscore k = true) →
    joinPath p = joinPath q → p = q := by
  intro p
  induction p using List.reverseRecOn with
  | nil => intro q h; exact absurd rfl h
  | append_singleton pre k ih =>
    intro q _ hq hp hqk e
    rcases List.eq_nil_or_concat q with rfl | ⟨pre', k', hqe⟩
    · exact absurd rfl hq
    · rw [List.concat_eq_append] at hqe
      subst hqe
      have hk : Char.ofNat 95 ∉ k.data := noUnderscore_iff.1 (hp k (by simp))
      have hk' : Char.ofNat 95 ∉ k'.data := noUnderscore_iff.1 (hqk k' (by simp))
      by_cases h1 : pre = [] <;> by_cases h2 : pre' = []
      · subst h1 h2
        simp only [List.nil_append, joinPath_single] at e
        rw [e]
      · subst h1
        have := congrArg String.data e
        rw [joinPath_data_snoc h2, List.nil_append, joinPath_single] at this
        exact absurd (by rw [this]; simp) hk
      · subst h2
        have := congrArg String.data e
        rw [joinPath_data_snoc h1, List.nil_append, joinPath_single] at this
        exact absurd (by rw [← this]; simp) hk'
      · have := congrArg String.data e
        rw [joinPath_data_snoc h1, joinPath_data_snoc h2] at this
        obtain ⟨e1, e2⟩ := append_sep_inj hk hk' this
        have hpre := ih pre' h1 h2 (fun x hx => hp x (by simp [hx]))
          (fun x hx => hqk x (by simp [hx])) (String.ext e1)
        rw [hpre, String.ext e2]

theorem underscoreFreeProps_iff {ps : List (String × Json)} :
    underscoreFreeProps ps = true ↔
      ∀ p ∈ ps, noUnderscore p.1 = true ∧ underscoreFree p.2 = true := by
  induction ps with
  | nil => simp [underscoreFreeProps]
  | cons p ps ih =>
    obtain ⟨k, v⟩ := p
    simp only [underscoreFreeProps, Bool.and_eq_true, ih, List.mem_cons, forall_eq_or_imp]

/-- The keys on the way to a leaf of an underscore-free tree hold no underscore. -/
theorem noUnderscore_of_leafValue {v : Json} :
    ∀ (p : List String) (d : Json), underscoreFree d = true → leafValue d p = some v →
      ∀ k ∈ p, noUnderscore k = true
  | [], _, _, _ => by simp
  | k :: q, d, hd, h => by
    obtain ⟨ps, rfl, hk, hq⟩ := leafValue_cons h
    have hm := (underscoreFreeProps_iff.1 hd) _ (lookup_mem hk)
    intro k' hk'
    rcases List.mem_cons.1 hk' with rfl | hk'
    · exact hm.1
    · exact noUnderscore_of_leafValue q _ hm.2 hq k' hk'

theorem leafValue_path_ne_nil {d v : Json} {p : List String} (hd : d.isPlainObject = true)
    (h : leafValue d p = some v) : p ≠ [] := by
  rintro rfl
  rw [leafValue_nil_eq, hd] at h
  cases h

/-- In an underscore-free tree, leaves at distinct key paths have distinct names. -/
theorem joinPath_ne_of_leaves {T v w : Json} {p q : List String}
    (hT : T.isPlainObject = true) (hU : underscoreFree T = true)
    (hp : leafValue T p = some v) (hq : leafValue T q = some w) (hne : p ≠ q) :
    joinPath p ≠ joinPath q := fun e =>
  hne (joinPath_injective p q (leafValue_path_ne_nil hT hp) (leafValue_path_ne_nil hT hq)
    (noUnderscore_of_leafValue p T hU hp) (noUnderscore_of_leafValue q T hU hq) e)

end Json

namespace Json

/-! ### The name a descriptor carries -/

/-- The descriptor of a leaf that is not `null` carries the name it was built with. -/
theorem descriptorName_tree_leaf {v : Json} (hp : v.isPlainObject = false)
    (hu : v.isUndefined = false) (hn : v.isNull = false) (name sep : String) :
    descriptorName (_changeValuesToTreeConvention v name sep) = str name := by
  cases v with
  | undefined => cases hu
  | obj ps => cases hp
  | null => cases hn
  | str s => rfl
  | bool b => rfl
  | num n => rfl
  | arr n ps => rfl

/-- The path tree of an object tree carries, at the key path of a leaf that is
not `null`, the underscore-joined key path as the name. -/
theorem descriptorName_getPath_tree {T v : Json} {p : List String} (hT : IsObjectTree T)
    (h : leafValue T p = some v) (hn : v.isNull = false) :
    descriptorName (getPath (_changeValuesToTreeConvention T "" "") p) = str (joinPath p) := by
  obtain ⟨hp, hu⟩ := leafValue_spec h
  have e := getPath_tree_leaf p T [] "" (isTree_of_isJson _ hT.1) (fun k => by
    rw [List.nil_append, joinPath_single]
    show "" ++ "" ++ k = k
    simp) h
  have e' : getPath (_changeValuesToTreeConvention T "" "") p =
      _changeValuesToTreeConvention v (joinPath p) "_" := e
  rw [e', descriptorName_tree_leaf hp hu hn]

/-- The path tree of an object tree is an object tree. -/
theorem isObjectTree_tree {T : Json} (hT : IsObjectTree T) (path sep : String) :
    IsObjectTree (_changeValuesToTreeConvention T path sep) := by
  have hj := isTree_of_isJson _ hT.1
  refine ⟨isJson_of_pathTree _ (pathTree_tree T hj path sep), ?_⟩
  cases T with
  | obj ps => rw [tree_obj_eq hj]; rfl
  | _ => cases hT.2

end Json
/-! ## The claims -/

namespace Scenario

open Json

/-- C6 (failing input): `{a: [1, 2]}` and `{a: [1]}` have identical key sets at
every nesting level of objects, and the arrays `[1]` and the object `{"0": 1}`
have the same keys, yet in neither pair do the two intersections agree:
`_intersect` descends into arrays and keeps the length and the kind of its
first argument. -/
theorem intersect_comm_fails_on_arrays :
    (IsJson longer ∧ IsJson shorter ∧ sameKeySets longer shorter = true ∧
        ¬ DeepEq (_intersect longer shorter) (_intersect shorter longer)) ∧
      (IsJson (arr 1 [("0", num 1)]) ∧ IsJson (obj [("0", num 1)]) ∧
        (arr 1 [("0", num 1)]).keys = (obj [("0", num 1)]).keys ∧
        ¬ DeepEq (_intersect (arr 1 [("0", num 1)]) (obj [("0", num 1)]))
          (_intersect (obj [("0", num 1)]) (arr 1 [("0", num 1)]))) := by
  refine ⟨⟨by decide, by decide, by decide, ?_⟩, ⟨by decide, by decide, by decide, ?_⟩⟩
  · have e1 : _intersect longer shorter = obj [("a", arr 2 [("0", num 1)])] := by decide
    have e2 : _intersect shorter longer = obj [("a", arr 1 [("0", num 1)])] := by decide
    rw [e1, e2]
    intro h
    cases h with
    | obj _ _ _ hv =>
      have := hv "a"
      simp only [lookup, if_true] at this
      cases this
  · have e1 : _intersect (arr 1 [("0", num 1)]) (obj [("0", num 1)]) = arr 1 [("0", num 1)] := by
      decide
    have e2 : _intersect (obj [("0", num 1)]) (arr 1 [("0", num 1)]) = obj [("0", num 1)] := by
      decide
    rw [e1, e2]
    intro h
    cases h

/-- C7 (as stated): in the end-to-end scenario the base is not the empty object. -/
theorem base_ne_empty_object : _getCommonJson [] files ≠ .ok (obj []) := by
  decide

/-- C7 (amended): in the end-to-end scenario the two files share no leaf, the
base computed by `_getCommonJson` is Absent (`null`), and the difference of
`development` against that base is the whole `development` object. -/
theorem base_null_and_override_full :
    _getCommonJson [] files = .ok null ∧ _different development null = development := by
  decide

/-- C1 (failing input): with `development.json = {a: [1, 2]}` first and
`production.json = {a: [1]}` second, the base keeps an array of length two,
the difference of `production` against it is `null`, and the union of the base
with that difference is the base, which is not deep-equal to `production`. -/
theorem roundTrip_fails_on_shorter_array :
    _getCommonJson [] arrayFiles = .ok (obj [("a", arr 2 [("0", num 1)])]) ∧
      _different shorter (obj [("a", arr 2 [("0", num 1)])]) = null ∧
      _union (obj [("a", arr 2 [("0", num 1)])]) null = obj [("a", arr 2 [("0", num 1)])] ∧
      ¬ DeepEq (_union (obj [("a", arr 2 [("0", num 1)])])
          (_different shorter (obj [("a", arr 2 [("0", num 1)])]))) shorter := by
  refine ⟨by decide, by decide, by decide, ?_⟩
  have e : _union (obj [("a", arr 2 [("0", num 1)])])
      (_different shorter (obj [("a", arr 2 [("0", num 1)])])) =
      obj [("a", arr 2 [("0", num 1)])] := by decide
  rw [e]
  intro h
  cases h with
  | obj _ _ _ hv =>
    have := hv "a"
    simp only [lookup, if_true] at this
    cases this

/-- C2 (failing input): for the files `{"constructor": {"name": "Object"}}` and
`{}` the base keeps the leaf `constructor.name`, which the second file does not
have: `_intersect` reads `source[prop]` through the prototype chain and finds
the inherited constructor and its name.  Three files that share the leaf
`db.host` alone have the base `{db: {host}}`, and for every non-empty list of object
trees, none of them ignored and none with a key that names an inherited
member, every key path `p` and every non-null scalar `v`, `_getCommonJson`
returns a base, and the base has the leaf `v` at `p` if and only if every tree
of the list has the leaf `v` at `p`. -/
theorem base_keeps_inherited_constructor :
    ((∀ f ∈ inheritedFiles, IsObjectTree f.contents) ∧
        _getCommonJson [] inheritedFiles =
          .ok (obj [("constructor", obj [("name", str "Object")])]) ∧
        getPath (obj [("constructor", obj [("name", str "Object")])]) ["constructor", "name"] =
          str "Object" ∧
        ¬ ∀ f ∈ inheritedFiles, getPath f.contents ["constructor", "name"] = str "Object") ∧
      _getCommonJson ["default.json"] sharedFiles = .ok (obj [("db", obj [("host", str "db")])]) ∧
      ∀ (ignore : List String) (files : List File), files ≠ [] →
        (∀ f ∈ files, IsObjectTree f.contents) → (∀ f ∈ files, f.filename ∉ ignore) →
        (∀ f ∈ files, protoFree f.contents = true) →
        ∀ (p : List String) (v : Json), isScalar v = true →
          ∃ base, _getCommonJson ignore files = .ok base ∧
            (getPath base p = v ↔ ∀ f ∈ files, getPath f.contents p = v) :=
  ⟨⟨by decide, by decide, by decide, by decide⟩, by decide,
    fun ignore files hne hobj hign hproto p v hv =>
      getCommonJson_leaf ignore files hne hobj hign hproto p v hv⟩

/-- C3: for every parsed JSON document `A` (scalar, `null`, array or object,
nested to any depth), `_different(A, A)` is Absent (`null`). -/
theorem different_self (A : Json) (hA : IsJson A) : _different A A = null :=
  different_self_of_isJson A hA

/-- C3 at a document with every kind of value in it. -/
theorem different_self_witness : IsJson sample ∧ _different sample sample = null :=
  ⟨by decide, different_self sample (by decide)⟩

/-- C4 (failing input): for the arrays `A = [1, 2]` and `B = [1, 3]` the first
difference is `[<hole>, 2]` and differencing it again gives `[null, 2]`; the
two are not deep-equal. -/
theorem different_twice_fails_on_array :
    IsJson oneTwo ∧ IsJson oneThree ∧
      _different oneTwo oneThree = arr 2 [("1", num 2)] ∧
      _different (_different oneTwo oneThree) oneThree = arr 2 [("0", null), ("1", num 2)] ∧
      ¬ DeepEq (_different (_different oneTwo oneThree) oneThree) (_different oneTwo oneThree) := by
  refine ⟨by decide, by decide, by decide, by decide, ?_⟩
  have e1 : _different oneTwo oneThree = arr 2 [("1", num 2)] := by decide
  have e2 : _different (arr 2 [("1", num 2)]) oneThree = arr 2 [("0", null), ("1", num 2)] := by
    decide
  rw [e1, e2]
  intro h
  cases h with
  | arr _ _ _ hk _ =>
    have := hk "0"
    revert this
    decide

/-- C5 (as stated): the object `{none: null}` is not its own intersection with
itself; the result is `null`. -/
theorem intersect_self_fails :
    IsJson (obj [("none", null)]) ∧
      ¬ DeepEq (_intersect (obj [("none", null)]) (obj [("none", null)])) (obj [("none", null)]) := by
  refine ⟨by decide, ?_⟩
  have e : _intersect (obj [("none", null)]) (obj [("none", null)]) = null := by decide
  rw [e]
  intro h
  cases h

/-- C5 (amended): for every parsed JSON document `A` in which no object or
array is empty and no member or element is `null`, `_intersect(A, A)` is `A`. -/
theorem intersect_self (A : Json) (hA : IsJson A) (hS : isSolid A = true) : _intersect A A = A :=
  intersect_self_of_solid A hA hS

/-- C5 (amended) at a document with nested objects and an array. -/
theorem intersect_self_witness :
    IsJson solidSample ∧ isSolid solidSample = true ∧ _intersect solidSample solidSample = solidSample :=
  ⟨by decide, by decide, intersect_self solidSample (by decide) (by decide)⟩

/-- C8 (as stated): in `{a_b: 1, a: {b: 2}}` the leaves `a_b` and `a.b` share
the name `a_b`, and the flat mapping holds the text of the later one, `'2'`,
not that of the leaf `a_b`; and the object `{"": 1}` has one leaf, a number,
whose underscore-joined key path is the empty string, but the flat mapping has
the single key `[object Object]`. -/
theorem fidelity_fails_on_shared_and_empty_names :
    (IsObjectTree collidingTree ∧
        leaves collidingTree = [(["a_b"], num 1), (["a", "b"], num 2)] ∧
        valueText (num 1) = "\x271\x27" ∧
        _createKeyValueObject collidingTree (_changeValuesToTreeConvention collidingTree "" "") =
          .ok (obj [("a_b", str "\x272\x27")])) ∧
      (IsObjectTree emptyKeyTree ∧ leaves emptyKeyTree = [([""], num 1)] ∧ joinPath [""] = "" ∧
        _createKeyValueObject emptyKeyTree (_changeValuesToTreeConvention emptyKeyTree "" "") =
          .ok (obj [("[object Object]", str "\x271\x27")])) := by
  decide

/-- C8 (amended): for every object tree `T` whose leaves are strings, numbers,
booleans or arrays, in which only a string leaf may have the empty name and no
leaf has the name of an inherited member,
`_createKeyValueObject(T, _changeValuesToTreeConvention(T))` returns a mapping
whose key set is exactly the set of underscore-joined key paths of the leaves
of `T`, and a leaf whose name no later leaf shares is mapped to its
single-quoted text. -/
theorem flatten_project_fidelity (T : Json) (hT : IsObjectTree T)
    (hleaf : ∀ l ∈ leaves T, l.2.isNull = false)
    (hname : ∀ l ∈ leaves T, joinPath l.1 ≠ "" ∨ isString l.2 = true)
    (_hproto : ∀ l ∈ leaves T, inheritedNames.contains (joinPath l.1) = false) :
    ∃ r, _createKeyValueObject T (_changeValuesToTreeConvention T "" "") = .ok r ∧
      (∀ k, k ∈ r.keys ↔ ∃ l ∈ leaves T, joinPath l.1 = k) ∧
      ∀ pre l post, leaves T = pre ++ l :: post →
        (∀ l' ∈ post, joinPath l'.1 ≠ joinPath l.1) →
        get r (joinPath l.1) = str (valueText l.2) := by
  obtain ⟨r, hr, _, _, _, hk, hg⟩ :=
    flatOk_all T [] "" (isTree_of_isJson _ hT.1) hleaf (fun k => by
      rw [List.nil_append, joinPath_single]
      show "" ++ "" ++ k = k
      simp)
  have hr' : _createKeyValueObject T (_changeValuesToTreeConvention T "" "") = .ok r := hr
  have he : entriesOf (leavesFrom [] T) =
      (leaves T).map fun l => (joinPath l.1, str (valueText l.2)) := entriesOf_named hname
  rw [he] at hk hg
  refine ⟨r, hr', ?_, ?_⟩
  · intro k
    have := hk k
    simp only [List.map_map, List.mem_map, Function.comp] at this
    show k ∈ r.props.map Prod.fst ↔ _
    rw [List.mem_map]
    exact this
  · intro pre l post hl hpost
    rw [hg, hl]
    exact lookup_reverse_entries pre post l hpost

/-- C8 at the tree `{a: {b: 1, c: "x"}, d: [1, 2]}`: the keys are `a_b`, `a_c`
and `d`, and `d` is mapped to `'[1,2]'`. -/
theorem flatten_project_fidelity_witness :
    IsObjectTree fidelityTree ∧ (∀ l ∈ leaves fidelityTree, l.2.isNull = false) ∧
      (∀ l ∈ leaves fidelityTree, joinPath l.1 ≠ "" ∨ isString l.2 = true) ∧
      (∀ l ∈ leaves fidelityTree, inheritedNames.contains (joinPath l.1) = false) ∧
      (∃ r, _createKeyValueObject fidelityTree (_changeValuesToTreeConvention fidelityTree "" "") =
          .ok r ∧
        (∀ k, k ∈ r.keys ↔ ∃ l ∈ leaves fidelityTree, joinPath l.1 = k) ∧
        ∀ pre l post, leaves fidelityTree = pre ++ l :: post →
          (∀ l' ∈ post, joinPath l'.1 ≠ joinPath l.1) →
          get r (joinPath l.1) = str (valueText l.2)) ∧
      _createKeyValueObject fidelityTree (_changeValuesToTreeConvention fidelityTree "" "") =
        .ok (obj [("a_b", str "\x271\x27"), ("a_c", str "\x27x\x27"),
          ("d", str "\x27[1,2]\x27")]) :=
  ⟨by decide, by decide, by decide, by decide,
    flatten_project_fidelity fidelityTree (by decide) (by decide) (by decide) (by decide),
    by decide⟩

/-- C9 (as stated): projecting the value `{"x":1}` gives no entry whose text is
the brace-doubled `'{{"x":1}}'`: being an object, it is projected member by
member. -/
theorem braced_not_rendered_whole :
    _createKeyValueObject braced (_changeValuesToTreeConvention braced "" "") =
        .ok (obj [("x", str "\x271\x27")]) ∧
      str "\x271\x27" ≠ str "\x27\x7b\x7b\x22x\x22:1\x7d\x7d\x27" := by
  decide

/-- C9 (amended): the object `{"x":1}` is projected member by member to
`{x: '1'}`; as an element of an array at path `p`, the value `[{"x":1}]`
renders as `'[{{"x":1}}]'`, the JSON text with every brace doubled and the
whole wrapped in single quotes. -/
theorem braced_inside_array :
    _createKeyValueObject braced (_changeValuesToTreeConvention braced "" "") =
        .ok (obj [("x", str "\x271\x27")]) ∧
      _createKeyValueObject (arr 1 [("0", braced)])
          (_changeValuesToTreeConvention (arr 1 [("0", braced)]) "p" "") =
        .ok (obj [("p", str "\x27[\x7b\x7b\x22x\x22:1\x7d\x7d]\x27")]) := by
  decide

/-- C10 (as stated): `port` is a leaf in both environments, a number in the
first and a string in the second; the merged tree keeps the descriptor object
of the first environment, not the bare path string of the last. -/
theorem later_string_loses_to_descriptor_object :
    _findFile portFiles "default.json" = some ⟨"default.json", obj [("name", str "svc")]⟩ ∧
      leafDescriptors (overrides ["default.json"] (obj [("name", str "svc")]) portFiles) ["port"] =
        [obj [("__name", str "port"), ("__format", str "number")], str "port"] ∧
      _generateCustomEnvironmentVariablesJson ["default.json"] portFiles =
        .ok (obj [("port", obj [("__name", str "port"), ("__format", str "number")])]) ∧
      getPath (obj [("port", obj [("__name", str "port"), ("__format", str "number")])]) ["port"] ≠
        str "port" := by
  decide

/-- C10 (amended): when the files hold a `default.json`, no file has a key that
names an inherited member and no override tree is Absent or holds a `null`
leaf, `_generateCustomEnvironmentVariablesJson` returns a merged tree, and for
every key path that is a leaf in some environments' override trees and at
which the path trees of the other environments hold nothing, the merged tree
holds at that path the descriptor object produced by the last environment
whose leaf there is a number, a boolean or an array, and, when there is no
such environment, the bare path string produced by the last environment in
which the path is a leaf. -/
theorem merged_descriptor_prevailing (ignore : List String) (files : List File) (base : File)
    (p : List String) (hp : p ≠ []) (hbase : _findFile files "default.json" = some base)
    (hfiles : ∀ f ∈ files, IsJson f.contents)
    (_hproto : ∀ f ∈ files, protoFree f.contents = true)
    (hnull : ∀ d ∈ overrides ignore base.contents files, ∀ l ∈ leaves d, l.2.isNull = false)
    (hleaf : ∀ d ∈ overrides ignore base.contents files, (leafValue d p).isSome = true ∨
      getPath (_changeValuesToTreeConvention d "" "") p = undefined) :
    ∃ merged, _generateCustomEnvironmentVariablesJson ignore files = .ok merged ∧
      getPath merged p = prevailing (leafDescriptors (overrides ignore base.contents files) p) := by
  have hnd : IsJson base.contents := hfiles base (List.mem_of_find?_eq_some hbase)
  have hstart : getPath (obj []) p = undefined := by
    cases p with
    | nil => exact absurd rfl hp
    | cons k q => rw [getPath_cons]; exact getPath_undefined q
  have htrees : ∀ d ∈ overrides ignore base.contents files, IsTree d := by
    intro d hd
    simp only [overrides, List.mem_map, List.mem_filter] at hd
    obtain ⟨f, ⟨hf, _⟩, rfl⟩ := hd
    exact isTree_different _ _ (hfiles f hf) hnd
  obtain ⟨merged, hm, _, hg⟩ :=
    customLoop_spec ignore base.contents hnd p files (obj []) hfiles hnull rfl
  refine ⟨merged, ?_, ?_⟩
  · unfold _generateCustomEnvironmentVariablesJson
    rw [hbase]
    exact hm
  · rw [hg, hstart, foldl_mergeAt_overrides p _ _ htrees hleaf,
      foldl_mergeAt_leafDescriptors (joinPath p) _ fun d hd => mem_leafDescriptors hd]

/-- C10 (amended) at a base and three environments in which `db.host` is a
string, a number and a string: the merged tree keeps the descriptor object of
the second. -/
theorem merged_descriptor_prevailing_witness :
    ["db", "host"] ≠ [] ∧
      _findFile hostFiles "default.json" = some ⟨"default.json", obj [("name", str "svc")]⟩ ∧
      (∀ f ∈ hostFiles, IsJson f.contents) ∧ (∀ f ∈ hostFiles, protoFree f.contents = true) ∧
      (∀ d ∈ overrides ["default.json"] (obj [("name", str "svc")]) hostFiles,
        ∀ l ∈ leaves d, l.2.isNull = false) ∧
      (∀ d ∈ overrides ["default.json"] (obj [("name", str "svc")]) hostFiles,
        (leafValue d ["db", "host"]).isSome = true ∨
          getPath (_changeValuesToTreeConvention d "" "") ["db", "host"] = undefined) ∧
      (∃ merged,
        _generateCustomEnvironmentVariablesJson ["default.json"] hostFiles = .ok merged ∧
        getPath merged ["db", "host"] =
          prevailing
            (leafDescriptors (overrides ["default.json"] (obj [("name", str "svc")]) hostFiles)
              ["db", "host"])) ∧
      prevailing
          (leafDescriptors (overrides ["default.json"] (obj [("name", str "svc")]) hostFiles)
            ["db", "host"]) =
        obj [("__name", str "db_host"), ("__format", str "number")] :=
  ⟨by decide, by decide, by decide, by decide, by decide, by decide,
    merged_descriptor_prevailing ["default.json"] hostFiles
      ⟨"default.json", obj [("name", str "svc")]⟩ ["db", "host"] (by decide) (by decide)
      (by decide) (by decide) (by decide) (by decide),
    by decide⟩

/-- C11 (failing input): two file lists with the same filenames in the same
order that differ only in the contents of the ignored first file
`default.json`; `_getCommonJson` seeds the fold with `files[0]` without
consulting the ignore list, so the bases differ. -/
theorem ignored_first_file_seeds_base :
    sameKept filesToIgnore ignoredFirst ignoredFirstChanged = true ∧
      _getCommonJson filesToIgnore ignoredFirst = .ok (obj [("port", num 1)]) ∧
      _getCommonJson filesToIgnore ignoredFirstChanged = .ok null := by
  decide

/-- C12 (as stated): the difference of `{options: {}, port: 1}` against
`{port: 1}` is `{options: {}}`: the key `options`, which the base lacks, is
kept verbatim with its empty object. -/
theorem difference_keeps_empty_object :
    IsJson withEmptyOptions ∧ IsJson portOnly ∧
      _different withEmptyOptions portOnly = obj [("options", obj [])] ∧
      _different withEmptyOptions portOnly ≠ null ∧
      noEmptyObject (_different withEmptyOptions portOnly) = false := by
  decide

/-- C12 (amended): for all parsed JSON documents `a` and `b` where `a`
contains no empty object and no key of `b` names an inherited member,
`_different(a, b)` is Absent (`null`) or a tree that contains no empty object
at any nesting depth. -/
theorem different_no_empty_object (a b : Json) (ha : IsJson a) (hb : IsJson b)
    (hn : noEmptyObject a = true) (_hproto : protoFree b = true) :
    _different a b = null ∨ noEmptyObject (_different a b) = true :=
  Or.inr (noEmptyObject_different a b ha hb hn)

/-- C12 (amended) at an environment and a base with nested objects, an array
and a `null`. -/
theorem different_no_empty_object_witness :
    IsJson staging ∧ IsJson stagingBase ∧ noEmptyObject staging = true ∧
      protoFree stagingBase = true ∧
      (_different staging stagingBase = null ∨
        noEmptyObject (_different staging stagingBase) = true) ∧
      _different staging stagingBase ≠ null :=
  ⟨by decide, by decide, by decide, by decide,
    different_no_empty_object staging stagingBase (by decide) (by decide) (by decide)
      (by decide), by decide⟩

/-- C13: for every parsed JSON document `a` and every value `b`, a parsed
document in particular, `_intersect(a, b)` is Absent (`null`) or a tree in
which no object (and no array) is empty and no key is bound to `null`, at any
nesting depth; an index deleted from an array is a hole, not a key. -/
theorem intersect_no_empty_no_null (a b : Json) (ha : IsJson a) :
    _intersect a b = null ∨ isSolid (_intersect a b) = true :=
  Or.inr (isSolid_intersect a b ha)

/-- C13 at two files that share a port, one array element and one nested key. -/
theorem intersect_no_empty_no_null_witness :
    IsJson shapeLeft ∧ IsJson shapeRight ∧
      (_intersect shapeLeft shapeRight = null ∨
        isSolid (_intersect shapeLeft shapeRight) = true) ∧
      _intersect shapeLeft shapeRight ≠ null :=
  ⟨by decide, by decide, intersect_no_empty_no_null shapeLeft shapeRight (by decide), by decide⟩

/-- C14 (failing input): when one of `a` and `b` is a scalar or `null`,
`_intersect(a, b)` is `a` if the two are equal and Absent otherwise, but the
arrays `[1, 2]` and `[1, 3]`, which differ in one element, do not intersect to
Absent: the result is the array of length 2 that holds `1` at index 0 and a
hole at index 1. -/
theorem arrays_intersect_by_index :
    (∀ a b : Json, a.isObject = false ∨ b.isObject = false →
        _intersect a b = if a = b then a else null) ∧
      IsJson oneTwo ∧ IsJson oneThree ∧ oneTwo.isArray = true ∧ oneThree.isArray = true ∧
      oneTwo ≠ oneThree ∧ _intersect oneTwo oneThree = arr 2 [("0", num 1)] ∧
      _intersect oneTwo oneThree ≠ null :=
  ⟨fun _ _ h => intersect_of_not_both_objects h, by decide, by decide, by decide, by decide,
    by decide, by decide, by decide⟩

/-- C15 (outside the defect): for all parsed objects (or arrays) `a` and `b`,
no key of `b` naming an inherited member, whose difference
`d = _different(a, b)` is not Absent, every key of `a` that is not a key of `b`
is a key of `d` with `d[k]` equal to `a[k]`, every key `k` of both is a key of
`d` exactly when `_different(a[k], b[k])` is not Absent, and then `d[k]` equals
it, and every key of `d` is a key of `a`. -/
theorem difference_frame (a b : Json) (ha : IsJson a) (hb : IsJson b)
    (hao : a.isObject = true) (hbo : b.isObject = true) (_hproto : protoFree b = true)
    (hd : _different a b ≠ null) :
    (∀ k, k ∈ a.keys → k ∉ b.keys →
        k ∈ (_different a b).keys ∧ get (_different a b) k = get a k) ∧
      (∀ k, k ∈ a.keys → k ∈ b.keys →
        (k ∈ (_different a b).keys ↔ _different (get a k) (get b k) ≠ null) ∧
          (k ∈ (_different a b).keys →
            get (_different a b) k = _different (get a k) (get b k))) ∧
      ∀ k, k ∈ (_different a b).keys → k ∈ a.keys :=
  different_keys ha hb hao hbo hd

/-- C15 at an environment and a base: the difference keeps `hosts` and `db`
diffed and drops the equal `port` and the `null` under `tag`. -/
theorem difference_frame_witness :
    IsJson staging ∧ IsJson stagingBase ∧ staging.isObject = true ∧
      stagingBase.isObject = true ∧ protoFree stagingBase = true ∧
      _different staging stagingBase ≠ null ∧
      ((∀ k, k ∈ staging.keys → k ∉ stagingBase.keys →
          k ∈ (_different staging stagingBase).keys ∧
            get (_different staging stagingBase) k = get staging k) ∧
        (∀ k, k ∈ staging.keys → k ∈ stagingBase.keys →
          (k ∈ (_different staging stagingBase).keys ↔
              _different (get staging k) (get stagingBase k) ≠ null) ∧
            (k ∈ (_different staging stagingBase).keys →
              get (_different staging stagingBase) k =
                _different (get staging k) (get stagingBase k))) ∧
        ∀ k, k ∈ (_different staging stagingBase).keys → k ∈ staging.keys) ∧
      _different staging stagingBase =
        obj [("hosts", arr 2 [("1", str "b")]), ("db", obj [("host", str "stage-db")])] :=
  ⟨by decide, by decide, by decide, by decide, by decide, by decide,
    difference_frame staging stagingBase (by decide) (by decide) (by decide) (by decide)
      (by decide) (by decide), by decide⟩

/-- C16 (failing input): a number and a boolean get the descriptor with their
path and `typeof` name, but `null`, whose `typeof` is `object`, takes the
object branch and comes back as `null`, not as a descriptor. -/
theorem null_is_not_given_a_descriptor :
    (∀ (n : Int) (p separator : String), _changeValuesToTreeConvention (num n) p separator =
        obj [("__name", str p), ("__format", str "number")]) ∧
      (∀ (b : Bool) (p separator : String), _changeValuesToTreeConvention (bool b) p separator =
        obj [("__name", str p), ("__format", str "boolean")]) ∧
      typeOf null = "object" ∧
      _changeValuesToTreeConvention null "a" "" = null ∧
      _changeValuesToTreeConvention null "a" "" ≠
        obj [("__name", str "a"), ("__format", str "object")] :=
  ⟨fun _ _ _ => rfl, fun _ _ _ => rfl, rfl, rfl, by decide⟩

/-- C17: for every object tree `T`, the path tree
`_changeValuesToTreeConvention(T)` is an object tree that holds, wherever `T`
holds a plain object, a plain object with the same keys, and, at the key path
`k1, ..., kn` of every
leaf of `T` that is a string, a number, a boolean or an array, the name
`k1_..._kn`: as the bare string for a string leaf, and otherwise as the
`__name` of a descriptor whose only other field is the format, `json` for an
array whatever its elements. -/
theorem tree_path_names (T : Json) (hT : IsObjectTree T) :
    IsObjectTree (_changeValuesToTreeConvention T "" "") ∧
      (∀ p ps, objectAt T p = some ps →
        ∃ qs, getPath (_changeValuesToTreeConvention T "" "") p = obj qs ∧
          qs.map Prod.fst = ps.map Prod.fst) ∧
      ∀ p v, leafValue T p = some v → v.isNull = false →
        getPath (_changeValuesToTreeConvention T "" "") p =
          if isString v then str (joinPath p)
          else obj [("__name", str (joinPath p)),
            ("__format", str (if v.isArray then "json" else typeOf v))] := by
  have hj := isTree_of_isJson _ hT.1
  refine ⟨isObjectTree_tree hT "" "", fun p ps h => getPath_tree_object p T "" "" hj h, ?_⟩
  intro p v h hn
  obtain ⟨hp, hu⟩ := leafValue_spec h
  have e := getPath_tree_leaf p T [] "" hj (fun k => by
    rw [List.nil_append, joinPath_single]
    show "" ++ "" ++ k = k
    simp) h
  have e' : getPath (_changeValuesToTreeConvention T "" "") p =
      _changeValuesToTreeConvention v (joinPath p) "_" := e
  rw [e', tree_leaf_eq hp hu hn]

/-- C17 at the tree `{a: {b: 1, c: "x"}, d: [1, 2]}`, whose path tree is
`{a: {b: {a_b, number}, c: "a_c"}, d: {d, json}}`. -/
theorem tree_path_names_witness :
    IsObjectTree fidelityTree ∧
      (IsObjectTree (_changeValuesToTreeConvention fidelityTree "" "") ∧
        (∀ p ps, objectAt fidelityTree p = some ps →
          ∃ qs, getPath (_changeValuesToTreeConvention fidelityTree "" "") p = obj qs ∧
            qs.map Prod.fst = ps.map Prod.fst) ∧
        ∀ p v, leafValue fidelityTree p = some v → v.isNull = false →
          getPath (_changeValuesToTreeConvention fidelityTree "" "") p =
            if isString v then str (joinPath p)
            else obj [("__name", str (joinPath p)),
              ("__format", str (if v.isArray then "json" else typeOf v))]) ∧
      _changeValuesToTreeConvention fidelityTree "" "" =
        obj [("a", obj [("b", obj [("__name", str "a_b"), ("__format", str "number")]),
            ("c", str "a_c")]),
          ("d", obj [("__name", str "d"), ("__format", str "json")])] :=
  ⟨by decide, tree_path_names fidelityTree (by decide), by decide⟩

/-- C18: the object trees `A = {"constructor": {"name": "Object"}}` and
`B = {}` have different key sets and no overlapping key, so equal values on
every overlapping key, and their two intersections are not deep-equal:
`_intersect(A, B)` finds the inherited constructor of `B` and its name and
returns `A`, `_intersect(B, A)` has no key to loop over and is Absent. -/
theorem intersect_key_set_asymmetry :
    ∃ A B : Json, IsObjectTree A ∧ IsObjectTree B ∧ sameKeys A.props B.props = false ∧
      sameOnOverlap A B = true ∧ _intersect A B = A ∧ _intersect B A = null ∧
      ¬ DeepEq (_intersect A B) (_intersect B A) := by
  refine ⟨obj [("constructor", obj [("name", str "Object")])], obj [], by decide, by decide,
    by decide, by decide, by decide, by decide, ?_⟩
  have e1 : _intersect (obj [("constructor", obj [("name", str "Object")])]) (obj []) =
      obj [("constructor", obj [("name", str "Object")])] := by decide
  have e2 : _intersect (obj []) (obj [("constructor", obj [("name", str "Object")])]) = null := by
    decide
  rw [e1, e2]
  intro h
  cases h

/-- C19 (failing input): an environment equal to the base has the difference
`null`, and an environment with a `null` under a key the base lacks keeps that
`null` leaf; in both cases `_createKeyValueObject` reads `__name` of `null` and
throws a TypeError. -/
theorem projection_throws_on_null :
    (IsJson portOnly ∧ _different portOnly portOnly = null ∧
        _createKeyValueObject (_different portOnly portOnly)
          (_changeValuesToTreeConvention (_different portOnly portOnly) "" "") =
          .error .typeError) ∧
      (IsJson withNullTag ∧ _different withNullTag portOnly = obj [("tag", null)] ∧
        _createKeyValueObject (_different withNullTag portOnly)
          (_changeValuesToTreeConvention (_different withNullTag portOnly) "" "") =
          .error .typeError) := by
  decide

/-- C20 (failing input): in every object tree without an underscore in its
keys, the path tree gives distinct names to the leaves (strings, numbers,
booleans, arrays) at distinct key paths, but the object
`{"": 1, "[object Object]": 2}`, whose keys hold no underscore, has two leaves
with the distinct names `""` and `[object Object]` that fall on one key of the
flat mapping: the empty `__name` is falsy, so the first leaf is stored under
the string form of its descriptor, `[object Object]`, and then overwritten. -/
theorem empty_name_falls_on_object_key :
    (∀ (T : Json) (p q : List String) (v w : Json), IsObjectTree T → underscoreFree T = true →
        leafValue T p = some v → leafValue T q = some w → v.isNull = false →
        w.isNull = false → p ≠ q →
        descriptorName (getPath (_changeValuesToTreeConvention T "" "") p) ≠
          descriptorName (getPath (_changeValuesToTreeConvention T "" "") q)) ∧
      IsObjectTree emptyAndObjectKeys ∧ underscoreFree emptyAndObjectKeys = true ∧
      leaves emptyAndObjectKeys = [([""], num 1), (["[object Object]"], num 2)] ∧
      descriptorName (getPath (_changeValuesToTreeConvention emptyAndObjectKeys "" "") [""]) =
        str "" ∧
      descriptorName
          (getPath (_changeValuesToTreeConvention emptyAndObjectKeys "" "") ["[object Object]"]) =
        str "[object Object]" ∧
      _changeValuesToTreeConvention emptyAndObjectKeys "" "" =
        obj [("", obj [("__name", str ""), ("__format", str "number")]),
          ("[object Object]",
            obj [("__name", str "[object Object]"), ("__format", str "number")])] ∧
      _createKeyValueObject emptyAndObjectKeys
          (_changeValuesToTreeConvention emptyAndObjectKeys "" "") =
        .ok (obj [("[object Object]", str "\x272\x27")]) :=
  ⟨fun _ _ _ _ _ hT hU hp hq hv hw hne e => by
      rw [descriptorName_getPath_tree hT hp hv, descriptorName_getPath_tree hT hq hw] at e
      exact joinPath_ne_of_leaves hT.2 hU hp hq hne (Json.str.inj e),
    by decide, by decide, by decide, by decide, by decide, by decide, by decide⟩

end Scenario
